import Mathlib

/-!
# alb2json: access-log lines to JSON records

A shallow embedding of `alb2json.go` and `unformat.go`.

* Go strings built by the program are sequences of runes obtained from
  `bufio.Reader.ReadRune`, hence valid UTF-8; they are modelled by `String`.
* The input reader is the list of runes that `ReadRune` still has to deliver.
  `ReadRune` of `bufio.Reader` reports every error with size `0`, so the only
  read outcome besides a rune is the end-of-stream branch of the loop; a read
  at the end of the stream fails again when it is repeated.
* The output writer is an `io.Writer` of any deterministic behaviour: each
  `Write` takes some bytes and may return an error, depending on the chunks
  written before (`Writer`).
* Functions of the Go standard library (`strconv`, `net`, `strings`,
  `encoding/json`) are not part of the repository; they are the fields of
  `StdLib`, and the theorems on the encoder and the tokenizer hold for all of
  them. The theorems on the conversion functions use `goLib`, in which
  `strings.Split`, `strconv.Atoi` and `net.SplitHostPort` follow the sources
  of the standard library.
* Go `int` is 64 bit; the counters of the loop wrap accordingly.
-/

namespace Alb2json

/-! ## Data model -/

/-- A Go `map[string]T`, as the list of its entries in order of first insertion. -/
abbrev GoMap (ν : Type) := List (String × ν)

namespace GoMap

/-- The assignment `m[k] = v`. -/
def set {ν : Type} : GoMap ν → String → ν → GoMap ν
  | [], k, v => [(k, v)]
  | (k0, v0) :: rest, k, v =>
    if k0 = k then (k, v) :: rest else (k0, v0) :: set rest k v

/-- The lookup `m[k]`, with `none` for an absent key. -/
def get? {ν : Type} : GoMap ν → String → Option ν
  | [], _ => none
  | (k0, v0) :: rest, k => if k0 = k then some v0 else get? rest k

/-- The keys of the map. -/
def keys {ν : Type} (m : GoMap ν) : List String := m.map Prod.fst

end GoMap

/-- The dynamic values stored in an `interface{}` by the conversion functions;
`F` is the type of `float64` values. -/
inductive Value (F : Type) where
  | null : Value F
  | str (s : String) : Value F
  | int (i : Int) : Value F
  | float (f : F) : Value F
  | strmap (m : GoMap String) : Value F
  | list (xs : List (Value F)) : Value F

/-- The functions of the Go standard library called by the program. Errors are
represented by their message (the result of `Error()`). -/
structure StdLib (F : Type) where
  /-- The call `strconv.ParseFloat(s, 64)`. -/
  parseFloat : String → Except String F
  /-- The call `strconv.Atoi(s)`. -/
  atoi : String → Except String Int
  /-- The call `net.SplitHostPort(s)`. -/
  splitHostPort : String → Except String (String × String)
  /-- The call `strings.Split(s, sep)`. -/
  split : String → String → List String
  /-- The call `json.Marshal(m)` on a `map[string]interface{}`. -/
  marshal : GoMap (Value F) → Except String String

/-! ## unformat.go -/

/-- The Go type `unformatterfunc`. -/
abbrev unformatterfunc (F : Type) := String → Except String (Value F)

/-- The Go function `unformatstring`. -/
def unformatstring {F : Type} (s : String) : Except String (Value F) :=
  .ok (.str s)

/-- The Go function `unformathostport`. The format string has no verb, so
`fmt.Errorf` appends the error as an extra argument. -/
def unformathostport {F : Type} (lib : StdLib F) (s : String) : Except String (Value F) :=
  let m : GoMap String := []
  match lib.splitHostPort s with
  | .error err =>
    .error ("error parsing host:port field%!(EXTRA *net.AddrError=" ++ err ++ ")")
  | .ok (host, port) =>
    let m := m.set "host" host
    let m := m.set "port" port
    .ok (.strmap m)

/-- The Go function `unformatfloat`. -/
def unformatfloat {F : Type} (lib : StdLib F) (s : String) : Except String (Value F) :=
  if s = "" ∨ s = "-" then .ok .null
  else
    match lib.parseFloat s with
    | .error err => .error err
    | .ok f => .ok (.float f)

/-- The Go function `unformatint`. -/
def unformatint {F : Type} (lib : StdLib F) (s : String) : Except String (Value F) :=
  if s = "" ∨ s = "-" then .ok .null
  else
    match lib.atoi s with
    | .error err => .error err
    | .ok i => .ok (.int i)

/-- The loop of `unformatlist` over the items of the split, with accumulator `a`. -/
def unformatlistLoop {F : Type} (fn : unformatterfunc F) :
    List String → List (Value F) → Except String (List (Value F))
  | [], a => .ok a
  | item :: items, a =>
    match fn item with
    | .error err => .error err
    | .ok v => unformatlistLoop fn items (a ++ [v])

/-- The Go function `unformatlist`. -/
def unformatlist {F : Type} (lib : StdLib F) (s delimiter empty : String)
    (fn : unformatterfunc F) : Except String (List (Value F)) :=
  if s = empty ∨ s = "" then .ok []
  else unformatlistLoop fn (lib.split s delimiter) []

/-- The conversion of the `([]interface{}, error)` result of `unformatlist`
to the `(interface{}, error)` result of the list conversion functions. -/
def listValue {F : Type} (r : Except String (List (Value F))) : Except String (Value F) :=
  match r with
  | .error err => .error err
  | .ok a => .ok (.list a)

/-- The Go function `unformathostportlist`. -/
def unformathostportlist {F : Type} (lib : StdLib F) (s : String) : Except String (Value F) :=
  listValue (unformatlist lib s " " "-" (unformathostport lib))

/-- The Go function `unformatstatuscodelist`. -/
def unformatstatuscodelist {F : Type} (lib : StdLib F) (s : String) : Except String (Value F) :=
  listValue (unformatlist lib s " " "-" (unformatint lib))

/-- The Go function `unformatcsv`. -/
def unformatcsv {F : Type} (lib : StdLib F) (s : String) : Except String (Value F) :=
  listValue (unformatlist lib s "," "-" unformatstring)

/-! ## alb2json.go: schema and field encoder -/

/-- The Go struct `field`. -/
structure field (F : Type) where
  key : String
  unformatter : unformatterfunc F

/-- The Go function `newfield`. -/
def newfield {F : Type} (k : String) (f : unformatterfunc F) : field F :=
  { key := k, unformatter := f }

/-- The Go function `ALBLogSpec`. -/
def ALBLogSpec {F : Type} (lib : StdLib F) : List (field F) :=
  [ newfield "type" unformatstring,
    newfield "timestamp" unformatstring,
    newfield "elb" unformatstring,
    newfield "client" (unformathostport lib),
    newfield "target" (unformathostport lib),
    newfield "request_processing_time_seconds" (unformatfloat lib),
    newfield "target_processing_time_seconds" (unformatfloat lib),
    newfield "response_processing_time" (unformatfloat lib),
    newfield "elb_status_code" (unformatint lib),
    newfield "target_status_code" (unformatint lib),
    newfield "received_bytes" (unformatint lib),
    newfield "sent_bytes" (unformatint lib),
    newfield "request" unformatstring,
    newfield "user_agent" unformatstring,
    newfield "ssl_cipher" unformatstring,
    newfield "ssl_protocol" unformatstring,
    newfield "target_group_arn" unformatstring,
    newfield "trace_id" unformatstring,
    newfield "domain_name" unformatstring,
    newfield "chosen_cert_arn" unformatstring,
    newfield "matched_rule_priority" (unformatint lib),
    newfield "request_creation_time" unformatstring,
    newfield "actions_executed" (unformatcsv lib),
    newfield "redirect_url" unformatstring,
    newfield "error_reason" unformatstring,
    newfield "targets_all" (unformathostportlist lib),
    newfield "target_status_codes_all" (unformatstatuscodelist lib) ]

/-- The Go struct `FieldEncoder`. -/
structure FieldEncoder (F : Type) where
  fields : List (field F)

/-- The Go function `NewFieldEncoder`. -/
def NewFieldEncoder {F : Type} (spec : List (field F)) : FieldEncoder F :=
  { fields := spec }

/-- The key that `EncodeTo` chooses for position `index`. -/
def FieldEncoder.keyAt {F : Type} (fe : FieldEncoder F) (index : Nat) : String :=
  match fe.fields[index]? with
  | none => "unknown_" ++ Nat.repr index
  | some f => f.key

/-- One pass through the body of the `for index, sval := range v` loop of
`EncodeTo`, up to the assignment `m[key] = value`: the key and value computed
for the position, or the error returned from inside the loop. -/
def FieldEncoder.encodeField {F : Type} (fe : FieldEncoder F) (index : Nat) (sval : String) :
    Except String (String × Value F) :=
  let r : String × Except String (Value F) :=
    if h : (index : Int) > (fe.fields.length : Int) - 1 then
      ("unknown_" ++ Nat.repr index, unformatstring sval)
    else
      let f := fe.fields.get ⟨index, by omega⟩
      if sval = "-" ∨ sval = "" then (f.key, .ok .null)
      else (f.key, f.unformatter sval)
  match r with
  | (key, .error err) =>
    .error ("error parsing field " ++ key ++ " with value " ++ sval ++ ": " ++ err)
  | (key, .ok value) => .ok (key, value)

/-- The `for index, sval := range v` loop of `EncodeTo`, from position `index`
with the remaining values `v` and the map `m` built so far. -/
def FieldEncoder.encodeLoop {F : Type} (fe : FieldEncoder F) :
    Nat → List String → GoMap (Value F) → Except String (GoMap (Value F))
  | _, [], m => .ok m
  | index, sval :: rest, m =>
    match fe.encodeField index sval with
    | .error err => .error err
    | .ok (key, value) => fe.encodeLoop (index + 1) rest (m.set key value)

/-- The map `m` that `EncodeTo` hands to `json.Marshal`, or the error
returned before. -/
def FieldEncoder.encodeRecord {F : Type} (fe : FieldEncoder F) (v : List String) :
    Except String (GoMap (Value F)) :=
  fe.encodeLoop 0 v []

/-- An `io.Writer`. Its behaviour is `accept`: for the chunks passed to
`Write` so far and a new chunk, the bytes it takes and the error it returns
(`none` for `nil`). `history` holds the chunks passed to `Write` so far and
`bytes` the bytes taken so far. -/
structure Writer where
  accept : List String → String → String × Option String
  history : List String
  bytes : String

/-- The call `w.Write(p)`: the writer after the call and the returned error. -/
def Writer.Write (w : Writer) (p : String) : Writer × Option String :=
  ({ w with history := w.history ++ [p], bytes := w.bytes ++ (w.accept w.history p).1 },
    (w.accept w.history p).2)

/-- The Go method `FieldEncoder.EncodeTo`: the writer after the call and the
returned error (`none` for `nil`). The error of `fmt.Fprintln` is ignored. -/
def FieldEncoder.EncodeTo {F : Type} (lib : StdLib F) (fe : FieldEncoder F) (w : Writer)
    (v : List String) : Writer × Option String :=
  match fe.encodeRecord v with
  | .error err => (w, some err)
  | .ok m =>
    match lib.marshal m with
    | .error err => (w, some ("unable to encode output line: " ++ err))
    | .ok enc =>
      match w.Write enc with
      | (w1, some err) => (w1, some ("unable to write complete output: " ++ err))
      | (w1, none) => ((w1.Write "\n").1, none)

/-! ## alb2json.go: the tokenizer loop -/

/-- Addition on Go `int` (64 bit, two's complement). -/
def wrapInt (x : Int) : Int := (x + 2 ^ 63) % 2 ^ 64 - 2 ^ 63

/-- The local variables of `convertLogEntries`, with the writer `w` and the
ghost variable `calls` recording the argument of every call of `EncodeTo`.
The reader is an argument of `runLoop`. -/
structure LoopState where
  fields : List String
  quoting : Bool
  escaping : Bool
  line : Int
  field : Int
  current : String
  last : Bool
  w : Writer
  calls : List (List String)

/-- What `convertLogEntries` leaves behind when it returns. -/
structure Result where
  /-- The writer as the run leaves it. -/
  w : Writer
  /-- The returned error, `none` for `nil`. -/
  err : Option String
  /-- The field sequences handed to `EncodeTo`, in order. -/
  calls : List (List String)

/-- The end of the newline case: return on the last line, otherwise reset
the state for the next line. -/
def endOfLine (st : LoopState) : LoopState ⊕ Result :=
  if st.last = true then
    .inr { w := st.w, err := none, calls := st.calls }
  else
    .inl { st with fields := [], line := wrapInt (st.line + 1), field := 0, current := "" }

/-- The body of the `for` loop of `convertLogEntries` after the read, on the
rune `c`: the state at the start of the next iteration, or the result
returned. The second format verb of the encoding error has no argument. -/
def onRune {F : Type} (lib : StdLib F) (e : FieldEncoder F) (st : LoopState) (c : Char) :
    LoopState ⊕ Result :=
  if st.escaping = true then
    .inl { st with escaping := false, current := st.current ++ String.singleton c }
  else if c = '\n' then
    if st.quoting = true then
      .inr { w := st.w, calls := st.calls,
             err := some ("line " ++ toString st.line ++ ": EOL without closing quote") }
    else if 0 < st.fields.length ∨ st.current ≠ "" then
      match e.EncodeTo lib st.w (st.fields ++ [st.current]) with
      | (w, some err) =>
        .inr { w := w, calls := st.calls ++ [st.fields ++ [st.current]],
               err := some ("line " ++ err ++ ": encoding error: %!v(MISSING)") }
      | (w, none) =>
        endOfLine { st with fields := st.fields ++ [st.current], w := w,
                            calls := st.calls ++ [st.fields ++ [st.current]] }
    else endOfLine st
  else if c = '\\' then
    .inl { st with escaping := true }
  else if c = '"' then
    if st.quoting = true then .inl { st with quoting := false }
    else .inl { st with quoting := true }
  else if c = ' ' then
    if st.quoting = false then
      .inl { st with fields := st.fields ++ [st.current], current := "",
                     field := wrapInt (st.field + 1) }
    else .inl { st with current := st.current ++ String.singleton c }
  else
    .inl { st with current := st.current ++ String.singleton c }

/-- At most `fuel` iterations of the `for` loop on the reader `rb` (the runes
not yet read); `none` when the loop has not returned by then. A read at the
end of the stream yields a newline and sets `last`. -/
def runLoop {F : Type} (lib : StdLib F) (e : FieldEncoder F) :
    Nat → LoopState → List Char → Option Result
  | 0, _, _ => none
  | fuel + 1, st, [] =>
    match onRune lib e { st with last := true } '\n' with
    | .inr r => some r
    | .inl st1 => runLoop lib e fuel st1 []
  | fuel + 1, st, c :: rb =>
    match onRune lib e st c with
    | .inr r => some r
    | .inl st1 => runLoop lib e fuel st1 rb

/-- The state of `convertLogEntries` before the first iteration. -/
def initState (w : Writer) : LoopState :=
  { fields := [], quoting := false, escaping := false, line := 0, field := 0,
    current := "", last := false, w := w, calls := [] }

/-- The Go function `convertLogEntries` on the rune stream `r` and the
writer `w`. The loop runs for at most two iterations more than there are
runes; `none` would mean that it has not returned by then. -/
def convertLogEntries {F : Type} (lib : StdLib F) (r : List Char) (w : Writer)
    (e : FieldEncoder F) : Option Result :=
  runLoop lib e (r.length + 2) (initState w) r

/-! ## Notions used in the statements -/

/-- The iterations of the loop on the runes `rb`, without the end of the
stream: the state once all of them are consumed, or the result returned
before. -/
def feed {F : Type} (lib : StdLib F) (e : FieldEncoder F) :
    LoopState → List Char → LoopState ⊕ Result
  | st, [] => .inl st
  | st, c :: rb =>
    match onRune lib e st c with
    | .inr r => .inr r
    | .inl st1 => feed lib e st1 rb

/-- Whether a backslash is pending after the runes `cs`, that is, whether the
next rune is escaped; `esc` tells whether the first rune of `cs` is. -/
def pendingEscape : Bool → List Char → Bool
  | esc, [] => esc
  | true, _ :: cs => pendingEscape false cs
  | false, c :: cs => pendingEscape (decide (c = '\\')) cs

/-- The number of unescaped occurrences of the rune `ch` in `cs`; `esc` tells
whether the first rune of `cs` is escaped. -/
def countUnescaped (ch : Char) : Bool → List Char → Nat
  | _, [] => 0
  | true, _ :: cs => countUnescaped ch false cs
  | false, c :: cs =>
    (if c = ch then 1 else 0) + countUnescaped ch (decide (c = '\\')) cs

/-- A writer that accepts every write in full. -/
def Writer.reliable (w : Writer) : Prop := ∀ h p, w.accept h p = (p, none)

/-- An in-memory buffer: nothing written yet, every write is accepted. -/
def Writer.buffer : Writer :=
  { accept := fun _ p => (p, none), history := [], bytes := "" }

/-- A writer that accepts its first `n` writes and rejects every later one,
taking nothing of it. -/
def Writer.failingAfter (n : Nat) : Writer :=
  { accept := fun h p => if h.length < n then (p, none) else ("", some "write failed"),
    history := [], bytes := "" }

/-- Two reliable writers that have taken the same bytes `y` after the bytes
`p` and `p1` they started with. -/
def Writer.sameSuffix (p p1 : String) (w w1 : Writer) : Prop :=
  w.reliable ∧ w1.reliable ∧ ∃ y, w.bytes = p ++ y ∧ w1.bytes = p1 ++ y

/-- The state `st1` is the state `st` of a run that started with `c0` already
handed over and with a writer related by `R`; the counters `line` and
`field` are free. -/
def LoopState.shifted (R : Writer → Writer → Prop) (c0 : List (List String))
    (st st1 : LoopState) : Prop :=
  st1.fields = st.fields ∧ st1.quoting = st.quoting ∧ st1.escaping = st.escaping ∧
  st1.current = st.current ∧ st1.last = st.last ∧ R st.w st1.w ∧
  st1.calls = c0 ++ st.calls

/-- The result `r1` is the result `r` of a run that started with `c0` already
handed over and with a writer related by `R`: the writers are still related,
the same records follow, and it is an error exactly when `r` is. -/
def Result.shifted (R : Writer → Writer → Prop) (c0 : List (List String))
    (r r1 : Result) : Prop :=
  R r.w r1.w ∧ r1.calls = c0 ++ r.calls ∧ (r1.err = none ↔ r.err = none)

/-- The pieces of `cs` between the occurrences of the rune `sep`; `cur` is
the piece being read. -/
def splitRunes (sep : Char) : List Char → List Char → List String
  | [], cur => [String.mk cur]
  | c :: cs, cur =>
    if c = sep then String.mk cur :: splitRunes sep cs [] else splitRunes sep cs (cur ++ [c])

/-- A small instance of the library interface, for running the model on
concrete inputs: integers are the unsigned decimal numerals, a host and a
port are separated by the first colon, a string is split at a separator of
one rune, no float is accepted and a record is rendered by its keys. -/
def sampleLib : StdLib Nat where
  parseFloat := fun _ => .error "invalid syntax"
  atoi := fun s =>
    match s.toNat? with
    | some n => .ok (n : Int)
    | none => .error "invalid syntax"
  splitHostPort := fun s =>
    match s.data.span (fun c => c != ':') with
    | (h, _ :: p) => .ok (String.mk h, String.mk p)
    | (_, []) => .error "missing port in address"
  split := fun s sep =>
    match sep.data with
    | [c] => splitRunes c s.data []
    | _ => [s]
  marshal := fun m => .ok ("\x7b" ++ ",".intercalate m.keys ++ "\x7d")

/-! ## Go standard library functions called by the program

The functions below follow the Go standard library sources (`strings`,
`strconv`, `net`) on valid UTF-8 strings; searching for an ASCII byte or a
valid UTF-8 separator gives the same cut points on runes as on bytes. -/

/-- The loop of `strings.Split` for a non-empty separator `sep`: `skip` runes
of a separator just matched are still to be dropped, `cur` is the piece being
read. Separators are matched leftmost and without overlap. -/
def stringsSplitLoop (sep : List Char) : Nat → List Char → List Char → List String
  | _, [], cur => [String.mk cur]
  | skip + 1, _ :: cs, cur => stringsSplitLoop sep skip cs cur
  | 0, c :: cs, cur =>
    if sep.isPrefixOf (c :: cs) then
      String.mk cur :: stringsSplitLoop sep (sep.length - 1) cs []
    else stringsSplitLoop sep 0 cs (cur ++ [c])

/-- The Go function `strings.Split(s, sep)`: the pieces of `s` between the
occurrences of `sep`; with an empty separator, the runes of `s`. -/
def stringsSplit (s sep : String) : List String :=
  if sep = "" then s.data.map String.singleton
  else stringsSplitLoop sep.data 0 s.data []

/-- The two errors of `strconv`: `ErrSyntax` and `ErrRange`. -/
inductive NumError where
  | invalid : NumError
  | range : NumError

/-- The text of `ErrSyntax` and `ErrRange`. -/
def NumError.text : NumError → String
  | .invalid => "invalid syntax"
  | .range => "value out of range"

/-- The digit loop of `strconv.ParseUint(s, 10, 64)` with the value `n` read
so far. -/
def parseUintLoop : List Char → Nat → Except NumError Nat
  | [], n => .ok n
  | c :: cs, n =>
    if c.toNat < 48 ∨ 57 < c.toNat then .error .invalid
    else if n ≥ (2 ^ 64 - 1) / 10 + 1 then .error .range
    else if n * 10 + (c.toNat - 48) > 2 ^ 64 - 1 then .error .range
    else parseUintLoop cs (n * 10 + (c.toNat - 48))

/-- The Go function `strconv.ParseUint(s, 10, 64)`. -/
def parseUint (s : List Char) : Except NumError Nat :=
  match s with
  | [] => .error .invalid
  | _ :: _ => parseUintLoop s 0

/-- The Go function `strconv.ParseInt(s, 10, 0)` with `int` of 64 bit, the
slow path of `strconv.Atoi`; its fast path for short strings yields the same
values and errors. -/
def parseInt (s : List Char) : Except NumError Int :=
  match s with
  | [] => .error .invalid
  | c :: cs =>
    let neg : Bool := decide (c = '-')
    let digits : List Char := if c = '+' ∨ c = '-' then cs else c :: cs
    match parseUint digits with
    | .error .invalid => .error .invalid
    | .error .range => .error .range
    | .ok un =>
      if neg = false ∧ un ≥ 2 ^ 63 then .error .range
      else if neg = true ∧ un > 2 ^ 63 then .error .range
      else if neg = true then .ok (-(un : Int)) else .ok (un : Int)

/-- The Go function `strconv.Atoi`; `quote` is `strconv.Quote`, used in the
text of the error. -/
def strconvAtoi (quote : String → String) (s : String) : Except String Int :=
  match parseInt s.data with
  | .error err => .error ("strconv.Atoi: parsing " ++ quote s ++ ": " ++ err.text)
  | .ok i => .ok i

/-- The position of the first occurrence of `c`. -/
def firstIndex (c : Char) : List Char → Option Nat
  | [] => none
  | x :: xs =>
    if x = c then some 0
    else
      match firstIndex c xs with
      | some k => some (k + 1)
      | none => none

/-- The position of the last occurrence of `c`. -/
def lastIndex (c : Char) : List Char → Option Nat
  | [] => none
  | x :: xs =>
    match lastIndex c xs with
    | some k => some (k + 1)
    | none => if x = c then some 0 else none

/-- The text of a `net.AddrError`. -/
def addrError (addr why : String) : String :=
  if addr ≠ "" then "address " ++ addr ++ ": " ++ why else why

/-- The Go function `net.SplitHostPort`. -/
def netSplitHostPort (hostport : String) : Except String (String × String) :=
  let hp := hostport.data
  match lastIndex ':' hp with
  | none => .error (addrError hostport "missing port in address")
  | some i =>
    let r : Except String (List Char × Nat × Nat) :=
      if hp.head? = some '[' then
        match firstIndex ']' hp with
        | none => .error (addrError hostport "missing ']' in address")
        | some e =>
          if e + 1 = hp.length then .error (addrError hostport "missing port in address")
          else if e + 1 = i then .ok ((hp.take e).drop 1, 1, e + 1)
          else if hp[e + 1]? = some ':' then
            .error (addrError hostport "too many colons in address")
          else .error (addrError hostport "missing port in address")
      else if (firstIndex ':' (hp.take i)).isSome then
        .error (addrError hostport "too many colons in address")
      else .ok (hp.take i, 0, 0)
    match r with
    | .error err => .error err
    | .ok (host, j, k) =>
      if (firstIndex '[' (hp.drop j)).isSome then
        .error (addrError hostport "unexpected '[' in address")
      else if (firstIndex ']' (hp.drop k)).isSome then
        .error (addrError hostport "unexpected ']' in address")
      else .ok (String.mk host, String.mk (hp.drop (i + 1)))

/-- The library with the Go functions `strings.Split`, `strconv.Atoi` and
`net.SplitHostPort`; `strconv.ParseFloat`, `strconv.Quote` and `json.Marshal`
remain arguments. -/
def goLib {F : Type} (parseFloat : String → Except String F) (quote : String → String)
    (marshal : GoMap (Value F) → Except String String) : StdLib F where
  parseFloat := parseFloat
  atoi := strconvAtoi quote
  splitHostPort := netSplitHostPort
  split := stringsSplit
  marshal := marshal

/-- The library `goLib` completed for running the model on concrete inputs:
no float is accepted, a string is quoted by enclosing it in double quotes
and a record is rendered by its keys. -/
def sampleGoLib : StdLib Nat :=
  goLib (fun _ => .error "invalid syntax") (fun s => "\"" ++ s ++ "\"")
    (fun m => .ok ("\x7b" ++ ",".intercalate m.keys ++ "\x7d"))

/-- The number denoted by the decimal digits `cs` written after the digits of
`n`. -/
def digitsValue (n : Nat) (cs : List Char) : Nat :=
  cs.foldl (fun acc c => acc * 10 + (c.toNat - 48)) n

/-- The string `s` is a decimal integer denoting `i`: an optional sign `+` or
`-`, then at least one digit `0` to `9` (code points 48 to 57) and nothing
else, with a value in the range of the 64 bit Go `int`. -/
def isDecimalInt (s : List Char) (i : Int) : Prop :=
  ∃ sign digits : List Char, s = sign ++ digits ∧
    (sign = [] ∨ sign = ['+'] ∨ sign = ['-']) ∧ digits ≠ [] ∧
    (∀ c ∈ digits, 48 ≤ c.toNat ∧ c.toNat ≤ 57) ∧
    i = (if sign = ['-'] then -(digitsValue 0 digits : Int) else (digitsValue 0 digits : Int)) ∧
    -(2 ^ 63) ≤ i ∧ i ≤ 2 ^ 63 - 1

/-! # Theorems -/

/-! ## Go maps -/

theorem GoMap.get?_set_self {ν : Type} (m : GoMap ν) (k : String) (v : ν) :
    (m.set k v).get? k = some v := by
  induction m with
  | nil => simp [GoMap.set, GoMap.get?]
  | cons p rest ih =>
    obtain ⟨k0, v0⟩ := p
    by_cases h : k0 = k
    · simp [GoMap.set, GoMap.get?, h]
    · simp [GoMap.set, GoMap.get?, h, ih]

theorem GoMap.get?_set_other {ν : Type} (m : GoMap ν) (k k1 : String) (v : ν) (hne : k ≠ k1) :
    (m.set k v).get? k1 = m.get? k1 := by
  induction m with
  | nil => simp [GoMap.set, GoMap.get?, hne]
  | cons p rest ih =>
    obtain ⟨k0, v0⟩ := p
    by_cases h : k0 = k
    · subst h
      simp [GoMap.set, GoMap.get?, hne]
    · by_cases h1 : k0 = k1
      · subst h1
        simp [GoMap.set, GoMap.get?, h]
      · simp [GoMap.set, GoMap.get?, h, h1, ih]

theorem GoMap.mem_keys_set {ν : Type} (m : GoMap ν) (k k1 : String) (v : ν) :
    k1 ∈ (m.set k v).keys ↔ k1 = k ∨ k1 ∈ m.keys := by
  induction m with
  | nil => simp [GoMap.set, GoMap.keys]
  | cons p rest ih =>
    obtain ⟨k0, v0⟩ := p
    by_cases h : k0 = k
    · subst h
      simp [GoMap.set, GoMap.keys]
    · simp only [GoMap.keys] at ih
      simp [GoMap.set, GoMap.keys, h, ih]
      tauto

theorem GoMap.length_set {ν : Type} (m : GoMap ν) (k : String) (v : ν) :
    (m.set k v).length = if k ∈ m.keys then m.length else m.length + 1 := by
  induction m with
  | nil => simp [GoMap.set, GoMap.keys]
  | cons p rest ih =>
    obtain ⟨k0, v0⟩ := p
    by_cases h : k0 = k
    · subst h
      simp [GoMap.set, GoMap.keys]
    · have h2 : ¬ k = k0 := fun e => h e.symm
      simp only [GoMap.keys] at ih
      simp only [GoMap.set, GoMap.keys, h, if_false, List.length_cons, ih, List.map_cons,
        List.mem_cons, h2, false_or]
      split <;> rfl

theorem GoMap.get?_isSome_iff {ν : Type} (m : GoMap ν) (k : String) :
    (m.get? k).isSome = true ↔ k ∈ m.keys := by
  induction m with
  | nil => simp [GoMap.get?, GoMap.keys]
  | cons p rest ih =>
    obtain ⟨k0, v0⟩ := p
    simp only [GoMap.keys] at ih
    by_cases h : k0 = k
    · simp [GoMap.get?, GoMap.keys, h]
    · have h2 : ¬ k = k0 := fun e => h e.symm
      simp [GoMap.get?, GoMap.keys, h, h2, ih]

/-! ## The field encoder -/

theorem FieldEncoder.keyAt_overflow {F : Type} (fe : FieldEncoder F) (i : Nat)
    (hi : fe.fields.length ≤ i) : fe.keyAt i = "unknown_" ++ Nat.repr i := by
  simp [FieldEncoder.keyAt, List.getElem?_eq_none hi]

theorem FieldEncoder.keyAt_schema {F : Type} (fe : FieldEncoder F) (i : Nat)
    (hi : i < fe.fields.length) : fe.keyAt i = (fe.fields.get ⟨i, hi⟩).key := by
  simp [FieldEncoder.keyAt, List.getElem?_eq_getElem hi]

theorem FieldEncoder.encodeField_overflow {F : Type} (fe : FieldEncoder F) (i : Nat)
    (sval : String) (hi : fe.fields.length ≤ i) :
    fe.encodeField i sval = .ok ("unknown_" ++ Nat.repr i, .str sval) := by
  have h : (i : Int) > (fe.fields.length : Int) - 1 := by omega
  simp [FieldEncoder.encodeField, h, unformatstring]

theorem FieldEncoder.encodeField_absent {F : Type} (fe : FieldEncoder F) (i : Nat)
    (sval : String) (hi : i < fe.fields.length) (hs : sval = "-" ∨ sval = "") :
    fe.encodeField i sval = .ok ((fe.fields.get ⟨i, hi⟩).key, .null) := by
  have h : ¬ (i : Int) > (fe.fields.length : Int) - 1 := by omega
  simp [FieldEncoder.encodeField, h, hs]

theorem FieldEncoder.encodeField_present {F : Type} (fe : FieldEncoder F) (i : Nat)
    (sval : String) (hi : i < fe.fields.length) (hs : ¬ (sval = "-" ∨ sval = "")) :
    fe.encodeField i sval =
      match (fe.fields.get ⟨i, hi⟩).unformatter sval with
      | .error err =>
        .error ("error parsing field " ++ (fe.fields.get ⟨i, hi⟩).key ++ " with value " ++
          sval ++ ": " ++ err)
      | .ok value => .ok ((fe.fields.get ⟨i, hi⟩).key, value) := by
  have h : ¬ (i : Int) > (fe.fields.length : Int) - 1 := by omega
  simp only [FieldEncoder.encodeField, h, hs, dite_false, if_false]
  cases (fe.fields.get ⟨i, hi⟩).unformatter sval <;> rfl

theorem FieldEncoder.encodeField_key {F : Type} (fe : FieldEncoder F) (i : Nat)
    (sval key : String) (value : Value F) (h : fe.encodeField i sval = .ok (key, value)) :
    key = fe.keyAt i := by
  by_cases hi : i < fe.fields.length
  · rw [fe.keyAt_schema i hi]
    by_cases hs : sval = "-" ∨ sval = ""
    · rw [fe.encodeField_absent i sval hi hs] at h
      cases h; rfl
    · rw [fe.encodeField_present i sval hi hs] at h
      cases hu : (fe.fields.get ⟨i, hi⟩).unformatter sval with
      | error err => rw [hu] at h; cases h
      | ok val => rw [hu] at h; cases h; rfl
  · rw [fe.keyAt_overflow i (by omega), fe.encodeField_overflow i sval (by omega)] at *
    cases h; rfl

theorem FieldEncoder.encodeLoop_cons {F : Type} (fe : FieldEncoder F) (idx : Nat)
    (sval : String) (rest : List String) (m m1 : GoMap (Value F))
    (h : fe.encodeLoop idx (sval :: rest) m = .ok m1) :
    ∃ value, fe.encodeField idx sval = .ok (fe.keyAt idx, value) ∧
      fe.encodeLoop (idx + 1) rest (m.set (fe.keyAt idx) value) = .ok m1 := by
  unfold FieldEncoder.encodeLoop at h
  cases hf : fe.encodeField idx sval with
  | error err => rw [hf] at h; cases h
  | ok kv =>
    obtain ⟨key, value⟩ := kv
    rw [hf] at h
    have hk := fe.encodeField_key idx sval key value hf
    subst hk
    exact ⟨value, rfl, h⟩

/-- A key that no position of the loop uses keeps its entry. -/
theorem FieldEncoder.encodeLoop_get?_untouched {F : Type} (fe : FieldEncoder F) (k : String) :
    ∀ (v : List String) (idx : Nat) (m m1 : GoMap (Value F)),
      fe.encodeLoop idx v m = .ok m1 →
      (∀ p, p < v.length → fe.keyAt (idx + p) ≠ k) → m1.get? k = m.get? k := by
  intro v
  induction v with
  | nil =>
    intro idx m m1 h _
    simp only [FieldEncoder.encodeLoop] at h
    cases h; rfl
  | cons sval rest ih =>
    intro idx m m1 h hk
    obtain ⟨value, _, hrest⟩ := fe.encodeLoop_cons idx sval rest m m1 h
    have h0 : fe.keyAt idx ≠ k := by simpa using hk 0 (by simp)
    rw [ih (idx + 1) _ m1 hrest, GoMap.get?_set_other _ _ _ _ h0]
    intro p hp
    have := hk (p + 1) (by simpa using hp)
    rwa [show idx + (p + 1) = idx + 1 + p by omega] at this

/-- The value computed for a position is the entry of its key in the final
map, unless a later position uses the same key. -/
theorem FieldEncoder.encodeLoop_get?_at {F : Type} (fe : FieldEncoder F) :
    ∀ (v : List String) (idx : Nat) (m m1 : GoMap (Value F)) (p : Nat) (hp : p < v.length),
      fe.encodeLoop idx v m = .ok m1 →
      (∀ q, p < q → q < v.length → fe.keyAt (idx + q) ≠ fe.keyAt (idx + p)) →
      ∃ value, fe.encodeField (idx + p) (v.get ⟨p, hp⟩) = .ok (fe.keyAt (idx + p), value) ∧
        m1.get? (fe.keyAt (idx + p)) = some value := by
  intro v
  induction v with
  | nil => intro idx m m1 p hp; simp at hp
  | cons sval rest ih =>
    intro idx m m1 p hp h hq
    obtain ⟨value, hf, hrest⟩ := fe.encodeLoop_cons idx sval rest m m1 h
    cases p with
    | zero =>
      refine ⟨value, by simpa using hf, ?_⟩
      rw [fe.encodeLoop_get?_untouched _ rest (idx + 1) _ m1 hrest]
      · exact GoMap.get?_set_self _ _ _
      · intro q hlt
        have := hq (q + 1) (by omega) (by simpa using hlt)
        rwa [show idx + (q + 1) = idx + 1 + q by omega] at this
    | succ p =>
      have hp1 : p < rest.length := by simpa using hp
      obtain ⟨val, h1, h2⟩ := ih (idx + 1) _ m1 p hp1 hrest (by
        intro q hpq hql
        have := hq (q + 1) (by omega) (by simpa using hql)
        rwa [show idx + (q + 1) = idx + 1 + q by omega,
          show idx + (p + 1) = idx + 1 + p by omega] at this)
      rw [show idx + 1 + p = idx + (p + 1) by omega] at h1 h2
      exact ⟨val, by simpa using h1, h2⟩

/-- The keys of the final map are the keys already present and the keys of
the positions of the loop. -/
theorem FieldEncoder.encodeLoop_mem_keys {F : Type} (fe : FieldEncoder F) (k : String) :
    ∀ (v : List String) (idx : Nat) (m m1 : GoMap (Value F)),
      fe.encodeLoop idx v m = .ok m1 →
      (k ∈ m1.keys ↔ k ∈ m.keys ∨ ∃ p, p < v.length ∧ fe.keyAt (idx + p) = k) := by
  intro v
  induction v with
  | nil =>
    intro idx m m1 h
    simp only [FieldEncoder.encodeLoop] at h
    cases h; simp
  | cons sval rest ih =>
    intro idx m m1 h
    obtain ⟨value, _, hrest⟩ := fe.encodeLoop_cons idx sval rest m m1 h
    rw [ih (idx + 1) _ m1 hrest, GoMap.mem_keys_set]
    constructor
    · rintro (⟨h1 | h1⟩ | ⟨p, hp, hk⟩)
      · exact Or.inr ⟨0, by simp, by simpa using h1.symm⟩
      · exact Or.inl h1
      · exact Or.inr ⟨p + 1, by simpa using hp, by
          rwa [show idx + (p + 1) = idx + 1 + p by omega]⟩
    · rintro (h1 | ⟨p, hp, hk⟩)
      · exact Or.inl (Or.inr h1)
      · cases p with
        | zero => exact Or.inl (Or.inl (by simpa using hk.symm))
        | succ p =>
          exact Or.inr ⟨p, by simpa using hp, by
            rwa [show idx + 1 + p = idx + (p + 1) by omega]⟩

/-- The number of entries grows by the number of positions when their keys
are new and pairwise distinct. -/
theorem FieldEncoder.encodeLoop_length {F : Type} (fe : FieldEncoder F) :
    ∀ (v : List String) (idx : Nat) (m m1 : GoMap (Value F)),
      fe.encodeLoop idx v m = .ok m1 →
      (∀ p, p < v.length → fe.keyAt (idx + p) ∉ m.keys) →
      (∀ p q, p < q → q < v.length → fe.keyAt (idx + p) ≠ fe.keyAt (idx + q)) →
      m1.length = m.length + v.length := by
  intro v
  induction v with
  | nil =>
    intro idx m m1 h _ _
    simp only [FieldEncoder.encodeLoop] at h
    cases h; simp
  | cons sval rest ih =>
    intro idx m m1 h hnew hdist
    obtain ⟨value, _, hrest⟩ := fe.encodeLoop_cons idx sval rest m m1 h
    have h0 : fe.keyAt idx ∉ m.keys := by simpa using hnew 0 (by simp)
    rw [ih (idx + 1) _ m1 hrest, GoMap.length_set, if_neg h0, List.length_cons]
    · omega
    · intro p hp
      rw [GoMap.mem_keys_set]
      rintro (h1 | h1)
      · have := hdist 0 (p + 1) (by omega) (by simpa using hp)
        rw [show idx + (p + 1) = idx + 1 + p by omega] at this
        exact this (by simpa using h1.symm)
      · have := hnew (p + 1) (by simpa using hp)
        rw [show idx + (p + 1) = idx + 1 + p by omega] at this
        exact this h1
    · intro p q hpq hq
      have := hdist (p + 1) (q + 1) (by omega) (by simpa using hq)
      rwa [show idx + (p + 1) = idx + 1 + p by omega,
        show idx + (q + 1) = idx + 1 + q by omega] at this

theorem FieldEncoder.encodeField_eq {F : Type} (fe : FieldEncoder F) (i : Nat) (sval : String) :
    fe.encodeField i sval =
      match fe.fields[i]? with
      | none => .ok ("unknown_" ++ Nat.repr i, .str sval)
      | some f =>
        if sval = "-" ∨ sval = "" then .ok (f.key, .null)
        else
          match f.unformatter sval with
          | .error err =>
            .error ("error parsing field " ++ f.key ++ " with value " ++ sval ++ ": " ++ err)
          | .ok value => .ok (f.key, value) := by
  by_cases hi : i < fe.fields.length
  · rw [List.getElem?_eq_getElem hi]
    by_cases hs : sval = "-" ∨ sval = ""
    · simp only [fe.encodeField_absent i sval hi hs, hs, if_true]
      rfl
    · simp only [fe.encodeField_present i sval hi hs, hs, if_false]
      rfl
  · rw [List.getElem?_eq_none (by omega), fe.encodeField_overflow i sval (by omega)]

/-- Two encoders that differ at most in the conversion function of position
`i` run the loop alike on values whose position `i` is absent. -/
theorem FieldEncoder.encodeLoop_congr {F : Type} (fe fe1 : FieldEncoder F) (i : Nat)
    (hother : ∀ j, j ≠ i → fe1.fields[j]? = fe.fields[j]?)
    (hkey : (fe1.fields[i]?).map field.key = (fe.fields[i]?).map field.key) :
    ∀ (v : List String) (idx : Nat) (m : GoMap (Value F)),
      (∀ p sval, v[p]? = some sval → idx + p = i → sval = "-" ∨ sval = "") →
      fe1.encodeLoop idx v m = fe.encodeLoop idx v m := by
  intro v
  induction v with
  | nil => intro idx m _; rfl
  | cons sval rest ih =>
    intro idx m habs
    have hf : fe1.encodeField idx sval = fe.encodeField idx sval := by
      by_cases hidx : idx = i
      · have hs := habs 0 sval (by simp) (by omega)
        subst hidx
        rw [fe1.encodeField_eq, fe.encodeField_eq]
        cases h1 : fe1.fields[idx]? <;> cases h2 : fe.fields[idx]? <;>
          simp_all
      · rw [fe1.encodeField_eq, fe.encodeField_eq, hother idx hidx]
    unfold FieldEncoder.encodeLoop
    rw [hf]
    cases fe.encodeField idx sval with
    | error err => rfl
    | ok kv =>
      obtain ⟨key, value⟩ := kv
      exact ih (idx + 1) _ (fun p s hp hi => habs (p + 1) s (by simpa using hp) (by omega))

/-- C1, as stated for every schema, fails when a later position of the
line carries the same name: with the schema of two string fields both named
`a`, on the raw values `-` and `x` position 0 computes `a` with null, but
the record that `EncodeTo` serialises holds `x` under `a`. -/
theorem C1_later_same_name_overwrites_null :
    0 < (NewFieldEncoder [newfield "a" unformatstring,
      newfield "a" unformatstring] : FieldEncoder Nat).fields.length ∧
    ["-", "x"][0]? = some "-" ∧
    (NewFieldEncoder [newfield "a" unformatstring,
      newfield "a" unformatstring] : FieldEncoder Nat).encodeField 0 "-" = .ok ("a", .null) ∧
    (NewFieldEncoder [newfield "a" unformatstring,
      newfield "a" unformatstring] : FieldEncoder Nat).encodeRecord ["-", "x"] =
        .ok [("a", .str "x")] ∧
    ((NewFieldEncoder [newfield "a" unformatstring,
      newfield "a" unformatstring] : FieldEncoder Nat).EncodeTo sampleGoLib Writer.buffer
        ["-", "x"]).1.bytes = "\x7ba\x7d\n" :=
  ⟨by decide, rfl, rfl, rfl, rfl⟩

/-- C1, amended: at a schema position whose raw value is `-` or the empty
string, the encoder computes the schema name of the position with null,
whatever the conversion function of the position; when `EncodeTo` builds the
record, the record holds null under the name provided no later position of
the line has the same key (a later position with the same key assigns it
again); and replacing the conversion function of the position by any other
changes nothing in what `EncodeTo` writes and returns (it is not invoked). -/
theorem C1_absent_value_encoded_as_null {F : Type} (fe : FieldEncoder F) (i : Nat)
    (hi : i < fe.fields.length) (v : List String)
    (hv : v[i]? = some "-" ∨ v[i]? = some "") :
    (∀ sval, v[i]? = some sval →
      fe.encodeField i sval = .ok ((fe.fields.get ⟨i, hi⟩).key, .null)) ∧
    (∀ m, fe.encodeRecord v = .ok m →
      (∀ j, i < j → j < v.length → fe.keyAt j ≠ fe.keyAt i) →
      m.get? (fe.fields.get ⟨i, hi⟩).key = some .null) ∧
    (∀ fe1 : FieldEncoder F,
      (∀ j, j ≠ i → fe1.fields[j]? = fe.fields[j]?) →
      (fe1.fields[i]?).map field.key = some (fe.fields.get ⟨i, hi⟩).key →
      ∀ (lib : StdLib F) (w : Writer), fe1.EncodeTo lib w v = fe.EncodeTo lib w v) := by
  have habs : ∀ sval, v[i]? = some sval → sval = "-" ∨ sval = "" := by
    intro sval hs
    rcases hv with h | h <;> rw [h] at hs <;> cases hs <;> simp
  have hlen : i < v.length := by
    rcases hv with h | h <;> exact (List.getElem?_eq_some_iff.mp h).1
  refine ⟨fun sval hs => fe.encodeField_absent i sval hi (habs sval hs), ?_, ?_⟩
  · intro m hm hlater
    obtain ⟨value, hf, hget⟩ := fe.encodeLoop_get?_at v 0 [] m i hlen hm (by
      intro q hq hql
      simpa using hlater q hq hql)
    simp only [Nat.zero_add] at hf hget
    rw [fe.encodeField_absent i _ hi (habs _ (by simp [List.getElem?_eq_getElem hlen]))] at hf
    rw [fe.keyAt_schema i hi] at hget hf
    have hval : Value.null = value := by
      injection hf with hf
      exact (Prod.mk.inj hf).2
    rw [hget, hval]
  · intro fe1 hother hkey lib w
    have hloop : fe1.encodeRecord v = fe.encodeRecord v := by
      unfold FieldEncoder.encodeRecord
      apply FieldEncoder.encodeLoop_congr fe fe1 i hother
      · rw [hkey, List.getElem?_eq_getElem hi]; rfl
      · intro p sval hp hpi
        simp only [Nat.zero_add] at hpi
        subst hpi
        exact habs sval hp
    unfold FieldEncoder.EncodeTo
    rw [hloop]

/-- C1 at position 8 (`elb_status_code`, an integer field) of the schema of
the program. -/
theorem C1_absent_value_encoded_as_null_witness :
    (8 < (NewFieldEncoder (ALBLogSpec sampleLib)).fields.length ∧
      (["h2", "t", "e", "-", "-", "-", "-", "-", "-"][8]? = some "-" ∨
        ["h2", "t", "e", "-", "-", "-", "-", "-", "-"][8]? = some "")) ∧
    (NewFieldEncoder (ALBLogSpec sampleLib)).encodeField 8 "-" =
      .ok ("elb_status_code", .null) :=
  ⟨⟨by decide, Or.inl (by decide)⟩,
    (C1_absent_value_encoded_as_null (NewFieldEncoder (ALBLogSpec sampleLib)) 8 (by decide)
      ["h2", "t", "e", "-", "-", "-", "-", "-", "-"] (Or.inl (by decide))).1 "-" (by decide)⟩

theorem FieldEncoder.keyAt_ne_of_nodup {F : Type} (fe : FieldEncoder F)
    (hnd : (fe.fields.map field.key).Nodup) (i j : Nat) (hi : i < fe.fields.length)
    (hj : j < fe.fields.length) (hij : i ≠ j) : fe.keyAt i ≠ fe.keyAt j := by
  rw [fe.keyAt_schema i hi, fe.keyAt_schema j hj]
  intro h
  have hi1 : i < (fe.fields.map field.key).length := by simpa using hi
  have hj1 : j < (fe.fields.map field.key).length := by simpa using hj
  have h1 : (fe.fields.map field.key)[i] = (fe.fields.map field.key)[j] := by
    simpa using h
  exact hij ((hnd.getElem_inj_iff).mp h1)

theorem ALBLogSpec_keys {F : Type} (lib : StdLib F) :
    (ALBLogSpec lib).map field.key =
      ["type", "timestamp", "elb", "client", "target", "request_processing_time_seconds",
        "target_processing_time_seconds", "response_processing_time", "elb_status_code",
        "target_status_code", "received_bytes", "sent_bytes", "request", "user_agent",
        "ssl_cipher", "ssl_protocol", "target_group_arn", "trace_id", "domain_name",
        "chosen_cert_arn", "matched_rule_priority", "request_creation_time",
        "actions_executed", "redirect_url", "error_reason", "targets_all",
        "target_status_codes_all"] := rfl

theorem ALBLogSpec_length {F : Type} (lib : StdLib F) : (ALBLogSpec lib).length = 27 := rfl

theorem ALBLogSpec_keys_nodup {F : Type} (lib : StdLib F) :
    ((ALBLogSpec lib).map field.key).Nodup := by
  rw [ALBLogSpec_keys]
  decide

theorem FieldEncoder.EncodeTo_ok {F : Type} (lib : StdLib F) (fe : FieldEncoder F)
    (w w1 : Writer) (v : List String) (h : fe.EncodeTo lib w v = (w1, none)) :
    ∃ m enc, fe.encodeRecord v = .ok m ∧ lib.marshal m = .ok enc ∧
      (w.Write enc).2 = none ∧ w1 = ((w.Write enc).1.Write "\n").1 := by
  unfold FieldEncoder.EncodeTo at h
  split at h
  · cases h
  · rename_i m hr
    split at h
    · cases h
    · rename_i enc hm
      split at h
      · cases h
      · rename_i w2 hw
        refine ⟨m, enc, hr, hm, ?_, ?_⟩
        · rw [hw]
        · rw [hw]
          exact (Prod.mk.inj h).1.symm

theorem FieldEncoder.mem_take_keys_iff {F : Type} (fe : FieldEncoder F) (n : Nat)
    (hn : n ≤ fe.fields.length) (k : String) :
    k ∈ (fe.fields.take n).map field.key ↔ ∃ p, p < n ∧ fe.keyAt p = k := by
  rw [List.mem_map]
  constructor
  · rintro ⟨f, hf, rfl⟩
    obtain ⟨p, hp⟩ := List.mem_iff_getElem?.mp hf
    have hpn : p < n := by
      by_contra hcon
      rw [List.getElem?_take_eq_none (by omega)] at hp
      cases hp
    rw [List.getElem?_take_of_lt hpn] at hp
    exact ⟨p, hpn, by simp [FieldEncoder.keyAt, hp]⟩
  · rintro ⟨p, hp, rfl⟩
    have hlt : p < fe.fields.length := by omega
    refine ⟨fe.fields[p], List.mem_iff_getElem?.mpr ⟨p, ?_⟩, ?_⟩
    · rw [List.getElem?_take_of_lt hp]
      exact List.getElem?_eq_getElem hlt
    · simp [FieldEncoder.keyAt, List.getElem?_eq_getElem hlt]

/-- C2: when `EncodeTo` with the schema of the program succeeds on a line of
`N ≤ 26` raw fields, the record it serialises has exactly the first `N`
schema names as keys, and under the name of each position `i < N` it holds
null when the raw value is `-` or empty and otherwise the result of the
conversion function of the position on the raw value. -/
theorem C2_short_line_keys_and_values {F : Type} (lib : StdLib F) (v : List String)
    (w w1 : Writer) (hN : v.length ≤ 26)
    (hok : (NewFieldEncoder (ALBLogSpec lib)).EncodeTo lib w v = (w1, none)) :
    ∃ m enc, (NewFieldEncoder (ALBLogSpec lib)).encodeRecord v = .ok m ∧
      lib.marshal m = .ok enc ∧ (w.Write enc).2 = none ∧
      w1 = ((w.Write enc).1.Write "\n").1 ∧
      (∀ k, k ∈ m.keys ↔ k ∈ ((ALBLogSpec lib).take v.length).map field.key) ∧
      m.length = v.length ∧
      ∀ (i : Nat) (hi : i < v.length), ∃ f value,
        (ALBLogSpec lib)[i]? = some f ∧ m.get? f.key = some value ∧
        if v.get ⟨i, hi⟩ = "-" ∨ v.get ⟨i, hi⟩ = "" then value = .null
        else f.unformatter (v.get ⟨i, hi⟩) = .ok value := by
  obtain ⟨m, enc, hm, henc, hwok, hw⟩ := FieldEncoder.EncodeTo_ok lib _ w w1 v hok
  refine ⟨m, enc, hm, henc, hwok, hw, ?_, ?_, ?_⟩
  · intro k
    rw [FieldEncoder.encodeLoop_mem_keys _ k v 0 [] m hm]
    have h27 : v.length ≤ (NewFieldEncoder (ALBLogSpec lib)).fields.length := by
      show v.length ≤ (ALBLogSpec lib).length
      rw [ALBLogSpec_length]; omega
    have := FieldEncoder.mem_take_keys_iff (NewFieldEncoder (ALBLogSpec lib)) v.length h27 k
    simp only [NewFieldEncoder] at this
    simp only [this, GoMap.keys, List.map_nil, List.not_mem_nil, false_or, Nat.zero_add,
      NewFieldEncoder]
  · have := FieldEncoder.encodeLoop_length _ v 0 [] m hm (by simp [GoMap.keys]) (by
      intro p q hpq hq
      simp only [Nat.zero_add]
      apply FieldEncoder.keyAt_ne_of_nodup _ (ALBLogSpec_keys_nodup lib)
      · show p < (ALBLogSpec lib).length
        rw [ALBLogSpec_length]; omega
      · show q < (ALBLogSpec lib).length
        rw [ALBLogSpec_length]; omega
      · omega)
    simpa using this
  · intro i hi
    have hi27 : i < (NewFieldEncoder (ALBLogSpec lib)).fields.length := by
      show i < (ALBLogSpec lib).length
      rw [ALBLogSpec_length]; omega
    obtain ⟨value, hf, hget⟩ := FieldEncoder.encodeLoop_get?_at _ v 0 [] m i hi hm (by
      intro q hq hql
      simp only [Nat.zero_add]
      apply FieldEncoder.keyAt_ne_of_nodup _ (ALBLogSpec_keys_nodup lib)
      · show q < (ALBLogSpec lib).length
        rw [ALBLogSpec_length]; omega
      · exact hi27
      · omega)
    simp only [Nat.zero_add] at hf hget
    rw [FieldEncoder.keyAt_schema _ i hi27] at hf hget
    refine ⟨(NewFieldEncoder (ALBLogSpec lib)).fields.get ⟨i, hi27⟩, value, ?_, hget, ?_⟩
    · exact List.getElem?_eq_getElem hi27
    · by_cases hs : v.get ⟨i, hi⟩ = "-" ∨ v.get ⟨i, hi⟩ = ""
      · rw [if_pos hs]
        rw [FieldEncoder.encodeField_absent _ i _ hi27 hs] at hf
        injection hf with hf
        exact (Prod.mk.inj hf).2.symm
      · rw [if_neg hs]
        rw [FieldEncoder.encodeField_present _ i _ hi27 hs] at hf
        revert hf
        cases ((NewFieldEncoder (ALBLogSpec lib)).fields.get ⟨i, hi27⟩).unformatter
            (v.get ⟨i, hi⟩) with
        | error err => intro hf; cases hf
        | ok val =>
          intro hf
          injection hf with hf
          rw [(Prod.mk.inj hf).2]

/-- C2 on a line of five raw fields, written to an in-memory buffer. -/
theorem C2_short_line_keys_and_values_witness :
    (["h2", "t", "e", "1.2.3.4:5", "-"].length ≤ 26 ∧
      (NewFieldEncoder (ALBLogSpec sampleLib)).EncodeTo sampleLib Writer.buffer
        ["h2", "t", "e", "1.2.3.4:5", "-"] =
        ({ Writer.buffer with
            history := ["\x7btype,timestamp,elb,client,target\x7d", "\n"],
            bytes := "\x7btype,timestamp,elb,client,target\x7d\n" }, none)) ∧
    ∃ m, (NewFieldEncoder (ALBLogSpec sampleLib)).encodeRecord
        ["h2", "t", "e", "1.2.3.4:5", "-"] = .ok m ∧
      (∀ k, k ∈ m.keys ↔ k ∈ ["type", "timestamp", "elb", "client", "target"]) ∧
      m.length = 5 :=
  ⟨⟨by decide, rfl⟩,
    (C2_short_line_keys_and_values sampleLib ["h2", "t", "e", "1.2.3.4:5", "-"]
      Writer.buffer _ (by decide) rfl).elim
      fun m h => h.elim fun _ h => ⟨m, h.1, h.2.2.2.2.1, h.2.2.2.2.2.1⟩⟩

/-! ## Decimal numerals are injective -/

theorem digitChar_value (k : Nat) (hk : k < 10) : (Nat.digitChar k).toNat - 48 = k := by
  interval_cases k <;> rfl

theorem toDigitsCore_decode :
    ∀ (fuel n : Nat) (ds : List Char), n < fuel →
      List.foldl (fun acc c => acc * 10 + (c.toNat - 48)) 0 (Nat.toDigitsCore 10 fuel n ds) =
        List.foldl (fun acc c => acc * 10 + (c.toNat - 48)) n ds := by
  intro fuel
  induction fuel with
  | zero => intro n ds h; omega
  | succ fuel ih =>
    intro n ds h
    simp only [Nat.toDigitsCore]
    split
    · rename_i h0
      have hn : n < 10 := by omega
      simp only [List.foldl_cons, Nat.zero_mul, Nat.zero_add]
      rw [digitChar_value _ (Nat.mod_lt _ (by decide)), Nat.mod_eq_of_lt hn]
    · rename_i h0
      rw [ih (n / 10) _ (by omega)]
      simp only [List.foldl_cons]
      rw [digitChar_value _ (Nat.mod_lt _ (by decide)), Nat.div_add_mod']

theorem Nat_repr_injective (i j : Nat) (h : Nat.repr i = Nat.repr j) : i = j := by
  have h1 : Nat.toDigits 10 i = Nat.toDigits 10 j := by
    have := congrArg String.data h
    simpa [Nat.repr, List.asString] using this
  have h2 := congrArg (List.foldl (fun acc c => acc * 10 + (c.toNat - 48)) 0) h1
  simp only [Nat.toDigits] at h2
  rw [toDigitsCore_decode _ _ _ (by omega), toDigitsCore_decode _ _ _ (by omega)] at h2
  simpa using h2

theorem unknown_key_injective (i j : Nat)
    (h : "unknown_" ++ Nat.repr i = "unknown_" ++ Nat.repr j) : i = j := by
  apply Nat_repr_injective
  have := congrArg String.data h
  simp only [String.data_append] at this
  exact String.ext (List.append_cancel_left this)

/-- The value of an overflow position is its entry in the final record. -/
theorem FieldEncoder.encodeRecord_overflow {F : Type} (fe : FieldEncoder F) (v : List String)
    (i : Nat) (hi : fe.fields.length ≤ i) (hv : i < v.length) (m : GoMap (Value F))
    (hm : fe.encodeRecord v = .ok m) :
    m.get? ("unknown_" ++ Nat.repr i) = some (.str (v.get ⟨i, hv⟩)) := by
  obtain ⟨value, hf, hget⟩ := fe.encodeLoop_get?_at v 0 [] m i hv hm (by
    intro q hq _
    simp only [Nat.zero_add]
    rw [fe.keyAt_overflow i hi, fe.keyAt_overflow q (by omega)]
    intro h
    have := unknown_key_injective q i h
    omega)
  simp only [Nat.zero_add] at hf hget
  rw [fe.keyAt_overflow i hi] at hf hget
  rw [fe.encodeField_overflow i _ hi] at hf
  injection hf with hf
  rw [hget, ← (Prod.mk.inj hf).2]

/-- C3, as stated, fails: the schema of the program has 27 named fields, so
position 26 is the schema field `target_status_codes_all`; on a line of 27
values `-` it is encoded as null under that name and the record has no key
`unknown_26`. -/
theorem C3_position_26_is_a_schema_field :
    (ALBLogSpec sampleLib).length = 27 ∧
    (List.replicate 27 "-").length ≥ 27 ∧
    (NewFieldEncoder (ALBLogSpec sampleLib)).encodeField 26 "-" =
      .ok ("target_status_codes_all", .null) ∧
    (NewFieldEncoder (ALBLogSpec sampleLib)).encodeField 26 "-" ≠
      .ok ("unknown_26", .str "-") ∧
    ∃ m, (NewFieldEncoder (ALBLogSpec sampleLib)).encodeRecord (List.replicate 27 "-") = .ok m ∧
      m.get? "unknown_26" = none ∧ m.get? "target_status_codes_all" = some .null := by
  refine ⟨rfl, by decide, rfl, ?_, _, rfl, rfl, rfl⟩
  intro h
  have h1 : (NewFieldEncoder (ALBLogSpec sampleLib)).encodeField 26 "-" =
      .ok ("target_status_codes_all", .null) := rfl
  rw [h1] at h
  injection h with h
  exact absurd (Prod.mk.inj h).1 (by decide)

/-- C3, amended: the schema of the program has exactly 27 named fields, the
last one (position 26) being `target_status_codes_all`; every position from
27 on is an overflow field, and on every line of at least 28 raw fields the
28th field (position 27) is encoded as a plain string under the key
`unknown_27`, also when its raw value is `-` or empty. -/
theorem C3_position_27_is_overflow {F : Type} (lib : StdLib F) (v : List String)
    (hv : 28 ≤ v.length) :
    (ALBLogSpec lib).length = 27 ∧
    (NewFieldEncoder (ALBLogSpec lib)).keyAt 26 = "target_status_codes_all" ∧
    (∀ (i : Nat) (hi : i < v.length), 27 ≤ i →
      (NewFieldEncoder (ALBLogSpec lib)).encodeField i (v.get ⟨i, hi⟩) =
        .ok ("unknown_" ++ Nat.repr i, .str (v.get ⟨i, hi⟩))) ∧
    (NewFieldEncoder (ALBLogSpec lib)).encodeField 27 (v.get ⟨27, by omega⟩) =
      .ok ("unknown_27", .str (v.get ⟨27, by omega⟩)) ∧
    ∀ m, (NewFieldEncoder (ALBLogSpec lib)).encodeRecord v = .ok m →
      m.get? "unknown_27" = some (.str (v.get ⟨27, by omega⟩)) := by
  have hlen : (NewFieldEncoder (ALBLogSpec lib)).fields.length = 27 := rfl
  refine ⟨rfl, rfl, ?_, ?_, ?_⟩
  · intro i hi h27
    exact FieldEncoder.encodeField_overflow _ i _ (by omega)
  · exact FieldEncoder.encodeField_overflow _ 27 _ (by omega)
  · intro m hm
    exact FieldEncoder.encodeRecord_overflow _ v 27 (by omega) (by omega) m hm

/-- The amended C3 on a line of 28 values `-`. -/
theorem C3_position_27_is_overflow_witness :
    28 ≤ (List.replicate 28 "-").length ∧
    (NewFieldEncoder (ALBLogSpec sampleLib)).encodeField 27 "-" =
      .ok ("unknown_27", .str "-") :=
  ⟨by decide, (C3_position_27_is_overflow sampleLib (List.replicate 28 "-") (by decide)).2.2.2.1⟩

/-- C4: at every position `i` at or beyond the length of the schema the
encoder uses the key `unknown_` followed by the decimal numeral of `i` and
the raw string itself as value, also when it is `-` or empty; the position
yields no error, and the final record holds the raw string under that key. -/
theorem C4_overflow_field_is_plain_string {F : Type} (fe : FieldEncoder F) (v : List String)
    (i : Nat) (hi : fe.fields.length ≤ i) (hv : i < v.length) :
    fe.encodeField i (v.get ⟨i, hv⟩) =
      .ok ("unknown_" ++ Nat.repr i, .str (v.get ⟨i, hv⟩)) ∧
    ∀ m, fe.encodeRecord v = .ok m →
      m.get? ("unknown_" ++ Nat.repr i) = some (.str (v.get ⟨i, hv⟩)) :=
  ⟨fe.encodeField_overflow i _ hi, fun m hm => fe.encodeRecord_overflow v i hi hv m hm⟩

/-- C4 on a schema of one field and a line whose overflow values are `-`
and the empty string. -/
theorem C4_overflow_field_is_plain_string_witness :
    ((NewFieldEncoder [newfield "a" unformatstring] : FieldEncoder Nat).fields.length ≤ 1 ∧
      1 < ["x", "-", ""].length) ∧
    (NewFieldEncoder [newfield "a" unformatstring] : FieldEncoder Nat).encodeField 1 "-" =
      .ok ("unknown_1", .str "-") :=
  ⟨⟨by decide, by decide⟩,
    (C4_overflow_field_is_plain_string
      (NewFieldEncoder [newfield "a" unformatstring] : FieldEncoder Nat) ["x", "-", ""] 1
      (by decide) (by decide)).1⟩

/-! ## The tokenizer loop -/

theorem runLoop_feed_inr {F : Type} (lib : StdLib F) (e : FieldEncoder F) (r : Result) :
    ∀ (a : List Char) (st : LoopState), feed lib e st a = .inr r →
      ∀ (n : Nat) (b : List Char), runLoop lib e (n + a.length) st (a ++ b) = some r := by
  intro a
  induction a with
  | nil => intro st h; simp [feed] at h
  | cons c cs ih =>
    intro st h n b
    simp only [feed] at h
    simp only [List.length_cons, List.cons_append, ← Nat.add_assoc, runLoop]
    cases hc : onRune lib e st c with
    | inr r1 =>
      rw [hc] at h
      simp only [Sum.inr.injEq] at h
      simp [h]
    | inl st1 =>
      rw [hc] at h
      exact ih st1 h n b

theorem runLoop_feed_inl {F : Type} (lib : StdLib F) (e : FieldEncoder F) (st1 : LoopState) :
    ∀ (a : List Char) (st : LoopState), feed lib e st a = .inl st1 →
      ∀ (n : Nat) (b : List Char),
        runLoop lib e (n + a.length) st (a ++ b) = runLoop lib e n st1 b := by
  intro a
  induction a with
  | nil =>
    intro st h n b
    simp only [feed, Sum.inl.injEq] at h
    simp [h]
  | cons c cs ih =>
    intro st h n b
    simp only [feed] at h
    simp only [List.length_cons, List.cons_append, ← Nat.add_assoc, runLoop]
    cases hc : onRune lib e st c with
    | inr r1 => rw [hc] at h; cases h
    | inl st2 =>
      rw [hc] at h
      exact ih st2 h n b

theorem feed_append {F : Type} (lib : StdLib F) (e : FieldEncoder F) :
    ∀ (a b : List Char) (st : LoopState),
      feed lib e st (a ++ b) =
        match feed lib e st a with
        | .inr r => .inr r
        | .inl st1 => feed lib e st1 b := by
  intro a
  induction a with
  | nil => intro b st; rfl
  | cons c cs ih =>
    intro b st
    simp only [List.cons_append, feed]
    cases onRune lib e st c with
    | inr r => rfl
    | inl st1 => exact ih b st1

theorem String_append_singleton_mk (s : String) (c : Char) (u : List Char) :
    (s ++ String.singleton c) ++ String.mk u = s ++ String.mk (c :: u) := by
  apply String.ext
  simp [String.data_append, String.singleton]

theorem String_append_mk_nil (s : String) : s ++ String.mk [] = s := by
  apply String.ext
  simp [String.data_append]

/-- A rune that is neither newline, backslash nor quote, and is no space
outside quotes, is appended to the buffer. -/
theorem onRune_literal {F : Type} (lib : StdLib F) (e : FieldEncoder F) (st : LoopState)
    (c : Char) (hesc : st.escaping = false) (hn : c ≠ '\n') (hb : c ≠ '\\') (hq : c ≠ '"')
    (hs : c = ' ' → st.quoting = true) :
    onRune lib e st c = .inl { st with current := st.current ++ String.singleton c } := by
  unfold onRune
  by_cases hsp : c = ' '
  · simp [hesc, hn, hb, hq, hsp, hs hsp]
  · simp [hesc, hn, hb, hq, hsp]

theorem feed_literal {F : Type} (lib : StdLib F) (e : FieldEncoder F) :
    ∀ (u : List Char) (st : LoopState), st.escaping = false →
      (∀ c ∈ u, c ≠ '\n' ∧ c ≠ '\\' ∧ c ≠ '"' ∧ (c = ' ' → st.quoting = true)) →
      feed lib e st u = .inl { st with current := st.current ++ String.mk u } := by
  intro u
  induction u with
  | nil =>
    intro st _ _
    simp [feed, String_append_mk_nil]
  | cons c cs ih =>
    intro st hesc hu
    obtain ⟨hn, hb, hq, hs⟩ := hu c (by simp)
    simp only [feed, onRune_literal lib e st c hesc hn hb hq hs]
    have hrest := ih { st with current := st.current ++ String.singleton c } hesc
      (fun d hd => hu d (by simp [hd]))
    rw [hrest]
    simp [String_append_singleton_mk]

theorem String_empty_append_mk (u : List Char) : "" ++ String.mk u = String.mk u := by
  apply String.ext
  simp [String.data_append]

theorem feed_cons_inl {F : Type} (lib : StdLib F) (e : FieldEncoder F) (st st1 : LoopState)
    (c : Char) (rb : List Char) (h : onRune lib e st c = .inl st1) :
    feed lib e st (c :: rb) = feed lib e st1 rb := by
  simp [feed, h]

theorem feed_cons_inr {F : Type} (lib : StdLib F) (e : FieldEncoder F) (st : LoopState)
    (r : Result) (c : Char) (rb : List Char) (h : onRune lib e st c = .inr r) :
    feed lib e st (c :: rb) = .inr r := by
  simp [feed, h]

/-- The end of the stream in a state without pending escape and open quote,
with a completed field or a non-empty buffer: the line is handed to the
encoder and the loop returns. -/
theorem runLoop_eof_emit {F : Type} (lib : StdLib F) (e : FieldEncoder F) (st : LoopState)
    (n : Nat) (hesc : st.escaping = false) (hq : st.quoting = false)
    (hne : 0 < st.fields.length ∨ st.current ≠ "") :
    ∃ r, runLoop lib e (n + 1) st [] = some r ∧
      r.calls = st.calls ++ [st.fields ++ [st.current]] ∧
      r.w = (e.EncodeTo lib st.w (st.fields ++ [st.current])).1 ∧
      r.err = ((e.EncodeTo lib st.w (st.fields ++ [st.current])).2).map
        (fun err => "line " ++ err ++ ": encoding error: %!v(MISSING)") := by
  simp only [runLoop, onRune, hesc, hq, hne, if_true, if_false, Bool.false_eq_true]
  rcases hres : e.EncodeTo lib st.w (st.fields ++ [st.current]) with ⟨w, _ | err⟩
  · simp [endOfLine]
  · simp

/-- C5: a line made of a quoted string `s` (free of quote, backslash and
newline; spaces allowed), one space and a string `t` free of space, quote,
backslash and newline is tokenized into exactly the two fields `s` and `t`:
`EncodeTo` is called once, with `[s, t]`, and the run writes and returns what
that call writes and returns. -/
theorem C5_quoted_field_keeps_spaces {F : Type} (lib : StdLib F) (e : FieldEncoder F)
    (w : Writer)
    (s t : String) (hs : ∀ c ∈ s.data, c ≠ '"' ∧ c ≠ '\\' ∧ c ≠ '\n')
    (ht : ∀ c ∈ t.data, c ≠ ' ' ∧ c ≠ '"' ∧ c ≠ '\\' ∧ c ≠ '\n') :
    ∃ r, convertLogEntries lib ("\"" ++ s ++ "\" " ++ t).data w e = some r ∧
      r.calls = [[s, t]] ∧
      r.w = (e.EncodeTo lib w [s, t]).1 ∧
      r.err = ((e.EncodeTo lib w [s, t]).2).map
        (fun err => "line " ++ err ++ ": encoding error: %!v(MISSING)") := by
  have hin : ("\"" ++ s ++ "\" " ++ t).data =
      ('"' :: (s.data ++ '"' :: ' ' :: t.data)) ++ [] := by
    simp [String.data_append]
  have hfeed : feed lib e (initState w) ('"' :: (s.data ++ '"' :: ' ' :: t.data)) =
      .inl { initState w with fields := [s], current := t, field := wrapInt 1 } := by
    rw [feed_cons_inl lib e (initState w) { initState w with quoting := true } '"' _
      (by simp [onRune, initState])]
    rw [feed_append, feed_literal lib e s.data _ rfl (fun c hc => by
      obtain ⟨h1, h2, h3⟩ := hs c hc
      exact ⟨h3, h2, h1, fun _ => rfl⟩)]
    simp only []
    rw [feed_cons_inl lib e _ { initState w with current := s } '"' _
      (by simp [onRune, initState, String_empty_append_mk])]
    rw [feed_cons_inl lib e _ { initState w with fields := [s], field := wrapInt 1 } ' ' _
      (by simp [onRune, initState])]
    rw [feed_literal lib e t.data _ rfl (fun c hc => by
      obtain ⟨h0, h1, h2, h3⟩ := ht c hc
      exact ⟨h3, h2, h1, fun h => absurd h h0⟩)]
    simp [initState, String_empty_append_mk]
  unfold convertLogEntries
  rw [hin, List.length_append, List.length_nil, Nat.add_zero, Nat.add_comm,
    runLoop_feed_inl lib e _ _ _ hfeed 2 []]
  obtain ⟨r, hr, hcalls, hw, herr⟩ := runLoop_eof_emit lib e
    { initState w with fields := [s], current := t, field := wrapInt 1 } 1 rfl rfl
    (Or.inl (by simp))
  exact ⟨r, hr, by simpa [initState] using hcalls, by simpa [initState] using hw,
    by simpa [initState] using herr⟩

/-- C5 on the line `"a b" c`. -/
theorem C5_quoted_field_keeps_spaces_witness :
    ((∀ c ∈ "a b".data, c ≠ '"' ∧ c ≠ '\\' ∧ c ≠ '\n') ∧
      (∀ c ∈ "c".data, c ≠ ' ' ∧ c ≠ '"' ∧ c ≠ '\\' ∧ c ≠ '\n')) ∧
    ∃ r, convertLogEntries sampleLib "\"a b\" c".data Writer.buffer (NewFieldEncoder (ALBLogSpec sampleLib)) =
        some r ∧ r.calls = [["a b", "c"]] :=
  ⟨⟨by decide, by decide⟩,
    (C5_quoted_field_keeps_spaces sampleLib (NewFieldEncoder (ALBLogSpec sampleLib))
      Writer.buffer "a b" "c"
      (by decide) (by decide)).elim fun r h => ⟨r, h.1, h.2.1⟩⟩

/-- C6: in a line made of `u`, a backslash, any rune `c` and `v`, where `u`
and `v` are free of space, quote, backslash and newline, the backslash is
dropped and `c` is appended literally: the line is tokenized into exactly
one field, `u` followed by `c` followed by `v`, whatever `c` is. -/
theorem C6_escaped_rune_is_literal {F : Type} (lib : StdLib F) (e : FieldEncoder F)
    (w : Writer)
    (u v : String) (c : Char)
    (hu : ∀ d ∈ u.data, d ≠ ' ' ∧ d ≠ '"' ∧ d ≠ '\\' ∧ d ≠ '\n')
    (hv : ∀ d ∈ v.data, d ≠ ' ' ∧ d ≠ '"' ∧ d ≠ '\\' ∧ d ≠ '\n') :
    ∃ r, convertLogEntries lib (u ++ "\\" ++ String.singleton c ++ v).data w e = some r ∧
      r.calls = [[u ++ String.singleton c ++ v]] ∧
      r.w = (e.EncodeTo lib w [u ++ String.singleton c ++ v]).1 ∧
      r.err = ((e.EncodeTo lib w [u ++ String.singleton c ++ v]).2).map
        (fun err => "line " ++ err ++ ": encoding error: %!v(MISSING)") := by
  have hin : (u ++ "\\" ++ String.singleton c ++ v).data =
      (u.data ++ '\\' :: c :: v.data) ++ [] := by
    simp [String.data_append, String.singleton]
  have hfeed : feed lib e (initState w) (u.data ++ '\\' :: c :: v.data) =
      .inl { initState w with current := u ++ String.singleton c ++ v } := by
    rw [feed_append, feed_literal lib e u.data _ rfl (fun d hd => by
      obtain ⟨h0, h1, h2, h3⟩ := hu d hd
      exact ⟨h3, h2, h1, fun h => absurd h h0⟩)]
    simp only []
    rw [feed_cons_inl lib e _ { initState w with current := u, escaping := true } '\\' _
      (by simp [onRune, initState, String_empty_append_mk])]
    rw [feed_cons_inl lib e _ { initState w with current := u ++ String.singleton c } c _
      (by simp [onRune, initState])]
    rw [feed_literal lib e v.data _ rfl (fun d hd => by
      obtain ⟨h0, h1, h2, h3⟩ := hv d hd
      exact ⟨h3, h2, h1, fun h => absurd h h0⟩)]
  have hne : u ++ String.singleton c ++ v ≠ "" := by
    intro h
    have := congrArg String.data h
    simp [String.data_append, String.singleton] at this
  unfold convertLogEntries
  rw [hin, List.length_append, List.length_nil, Nat.add_zero, Nat.add_comm,
    runLoop_feed_inl lib e _ _ _ hfeed 2 []]
  obtain ⟨r, hr, hcalls, hw, herr⟩ := runLoop_eof_emit lib e
    { initState w with current := u ++ String.singleton c ++ v } 1 rfl rfl (Or.inr hne)
  exact ⟨r, hr, by simpa [initState] using hcalls, by simpa [initState] using hw,
    by simpa [initState] using herr⟩

/-- C6 on the line `a\ b`. -/
theorem C6_escaped_rune_is_literal_witness :
    ((∀ d ∈ "a".data, d ≠ ' ' ∧ d ≠ '"' ∧ d ≠ '\\' ∧ d ≠ '\n') ∧
      (∀ d ∈ "b".data, d ≠ ' ' ∧ d ≠ '"' ∧ d ≠ '\\' ∧ d ≠ '\n')) ∧
    ∃ r, convertLogEntries sampleLib "a\\ b".data Writer.buffer (NewFieldEncoder (ALBLogSpec sampleLib)) =
        some r ∧ r.calls = [["a b"]] :=
  ⟨⟨by decide, by decide⟩,
    (C6_escaped_rune_is_literal sampleLib (NewFieldEncoder (ALBLogSpec sampleLib))
      Writer.buffer "a" "b" ' '
      (by decide) (by decide)).elim fun r h => ⟨r, h.1, h.2.1⟩⟩

theorem onRune_escaped {F : Type} (lib : StdLib F) (e : FieldEncoder F) (st : LoopState)
    (c : Char) (hesc : st.escaping = true) :
    onRune lib e st c =
      .inl { st with escaping := false, current := st.current ++ String.singleton c } := by
  simp [onRune, hesc]

theorem onRune_backslash {F : Type} (lib : StdLib F) (e : FieldEncoder F) (st : LoopState)
    (hesc : st.escaping = false) :
    onRune lib e st '\\' = .inl { st with escaping := true } := by
  simp [onRune, hesc]

theorem onRune_quote {F : Type} (lib : StdLib F) (e : FieldEncoder F) (st : LoopState)
    (hesc : st.escaping = false) :
    onRune lib e st '"' = .inl { st with quoting := !st.quoting } := by
  cases hq : st.quoting <;> simp [onRune, hesc, hq]

theorem onRune_space {F : Type} (lib : StdLib F) (e : FieldEncoder F) (st : LoopState)
    (hesc : st.escaping = false) (hq : st.quoting = false) :
    onRune lib e st ' ' =
      .inl { st with fields := st.fields ++ [st.current], current := "",
                     field := wrapInt (st.field + 1) } := by
  simp [onRune, hesc, hq]

/-- Inside a line (no unescaped newline) the loop does not return, writes
nothing and calls nothing; the quoting flag is toggled by every unescaped
quote and the escaping flag follows the pending backslash. -/
theorem feed_line {F : Type} (lib : StdLib F) (e : FieldEncoder F) :
    ∀ (l : List Char) (st : LoopState), countUnescaped '\n' st.escaping l = 0 →
      ∃ st1, feed lib e st l = .inl st1 ∧
        st1.quoting =
          (if countUnescaped '"' st.escaping l % 2 = 1 then !st.quoting else st.quoting) ∧
        st1.escaping = pendingEscape st.escaping l ∧
        st1.w = st.w ∧ st1.calls = st.calls ∧ st1.line = st.line ∧ st1.last = st.last := by
  intro l
  induction l with
  | nil =>
    intro st _
    exact ⟨st, rfl, by simp [countUnescaped], by simp [pendingEscape], rfl, rfl, rfl, rfl⟩
  | cons c cs ih =>
    intro st hnl
    cases hesc : st.escaping with
    | true =>
      rw [hesc] at hnl
      simp only [countUnescaped] at hnl
      obtain ⟨st1, h1, h2, h3, h4, h5, h6, h7⟩ :=
        ih { st with escaping := false, current := st.current ++ String.singleton c } hnl
      refine ⟨st1, ?_, ?_, ?_, h4, h5, h6, h7⟩
      · rw [feed_cons_inl lib e st _ c cs (onRune_escaped lib e st c hesc)]
        exact h1
      · simpa [countUnescaped] using h2
      · simpa [pendingEscape] using h3
    | false =>
      rw [hesc] at hnl
      simp only [countUnescaped] at hnl
      have hc : c ≠ '\n' := by
        intro h
        simp [h] at hnl
      have hrest : countUnescaped '\n' (decide (c = '\\')) cs = 0 := by omega
      by_cases hb : c = '\\'
      · subst hb
        obtain ⟨st1, h1, h2, h3, h4, h5, h6, h7⟩ :=
          ih { st with escaping := true } (by simpa using hrest)
        refine ⟨st1, ?_, ?_, ?_, h4, h5, h6, h7⟩
        · rw [feed_cons_inl lib e st _ '\\' cs (onRune_backslash lib e st hesc)]
          exact h1
        · simpa [countUnescaped] using h2
        · simpa [pendingEscape] using h3
      · by_cases hq : c = '"'
        · subst hq
          obtain ⟨st1, h1, h2, h3, h4, h5, h6, h7⟩ :=
            ih { st with quoting := !st.quoting } (by simpa [hesc] using hrest)
          refine ⟨st1, ?_, ?_, ?_, h4, h5, h6, h7⟩
          · rw [feed_cons_inl lib e st _ '"' cs (onRune_quote lib e st hesc)]
            exact h1
          · simp only [hesc] at h2
            simp only [countUnescaped, if_true, Char.reduceEq, decide_False]
            rw [h2]
            rcases Nat.mod_two_eq_zero_or_one (countUnescaped '"' false cs) with h | h
            · have : (1 + countUnescaped '"' false cs) % 2 = 1 := by omega
              simp [h, this]
            · have : ¬ (1 + countUnescaped '"' false cs) % 2 = 1 := by omega
              simp [h, this]
          · simpa [pendingEscape, hesc] using h3
        · by_cases hs : c = ' ' ∧ st.quoting = false
          · obtain ⟨hs1, hs2⟩ := hs
            subst hs1
            obtain ⟨st1, h1, h2, h3, h4, h5, h6, h7⟩ :=
              ih { st with fields := st.fields ++ [st.current], current := "",
                           field := wrapInt (st.field + 1) } (by simpa [hesc] using hrest)
            refine ⟨st1, ?_, ?_, ?_, h4, h5, h6, h7⟩
            · rw [feed_cons_inl lib e st _ ' ' cs (onRune_space lib e st hesc hs2)]
              exact h1
            · simpa [countUnescaped, hesc] using h2
            · simpa [pendingEscape, hesc] using h3
          · obtain ⟨st1, h1, h2, h3, h4, h5, h6, h7⟩ :=
              ih { st with current := st.current ++ String.singleton c }
                (by simpa [hesc, hb] using hrest)
            refine ⟨st1, ?_, ?_, ?_, h4, h5, h6, h7⟩
            · rw [feed_cons_inl lib e st _ c cs (onRune_literal lib e st c hesc hc hb hq
                (fun h => by
                  cases hqq : st.quoting
                  · exact absurd ⟨h, hqq⟩ hs
                  · rfl))]
              exact h1
            · simpa [countUnescaped, hesc, hb, hq] using h2
            · simpa [pendingEscape, hesc, hb] using h3

/-- The newline case with an open quote returns the error of the line. -/
theorem onRune_newline_quoting {F : Type} (lib : StdLib F) (e : FieldEncoder F)
    (st : LoopState) (hesc : st.escaping = false) (hq : st.quoting = true) :
    onRune lib e st '\n' =
      .inr { w := st.w, calls := st.calls,
             err := some ("line " ++ toString st.line ++ ": EOL without closing quote") } := by
  simp [onRune, hesc, hq]

/-- The end of the stream with an open quote: the loop returns the error of
the line, after at most two iterations. -/
theorem runLoop_eof_quoting {F : Type} (lib : StdLib F) (e : FieldEncoder F) (st : LoopState)
    (n : Nat) (hq : st.quoting = true) :
    runLoop lib e (n + 2) st [] =
      some { w := st.w, calls := st.calls,
             err := some ("line " ++ toString st.line ++ ": EOL without closing quote") } := by
  cases hesc : st.escaping with
  | false =>
    simp only [runLoop]
    rw [onRune_newline_quoting lib e { st with last := true } hesc hq]
  | true =>
    simp only [runLoop]
    rw [onRune_escaped lib e { st with last := true } '\n' hesc]
    simp only []
    rw [onRune_newline_quoting lib e
      { st with last := true, escaping := false,
                current := st.current ++ String.singleton '\n' } rfl hq]

/-- C7: when the first line of the input, ended by an unescaped newline or
by the end of the stream, contains an odd number of unescaped double quotes,
`convertLogEntries` returns the error of an unterminated quote, has written
nothing and has handed nothing to the encoder, whatever follows the line. -/
theorem C7_unterminated_quote_is_fatal {F : Type} (lib : StdLib F) (e : FieldEncoder F)
    (w : Writer)
    (l rest input : List Char)
    (hnl : countUnescaped '\n' false l = 0)
    (hodd : countUnescaped '"' false l % 2 = 1)
    (hin : input = l ∨ (pendingEscape false l = false ∧ input = l ++ '\n' :: rest)) :
    convertLogEntries lib input w e =
      some { w := w, err := some "line 0: EOL without closing quote", calls := [] } := by
  obtain ⟨st1, hfeed, hq, hesc, hw, hcalls, hline, _⟩ := feed_line lib e l (initState w) hnl
  have hq1 : st1.quoting = true := by
    rw [hq, show (initState w).escaping = false from rfl, if_pos hodd]
    rfl
  have hmsg : "line " ++ toString st1.line ++ ": EOL without closing quote" =
      "line 0: EOL without closing quote" := by
    rw [hline]; rfl
  unfold convertLogEntries
  rcases hin with h | ⟨hpend, h⟩
  · rw [h]
    have := runLoop_feed_inl lib e st1 l (initState w) hfeed 2 []
    rw [List.append_nil, Nat.add_comm] at this
    rw [this, runLoop_eof_quoting lib e st1 0 hq1, hw, hcalls, hmsg]
    rfl
  · rw [h]
    have hesc1 : st1.escaping = false := by
      rw [hesc]; exact hpend
    have hret : feed lib e (initState w) (l ++ ['\n']) =
        .inr { w := st1.w, calls := st1.calls,
               err := some ("line " ++ toString st1.line ++ ": EOL without closing quote") } := by
      rw [feed_append, hfeed]
      exact feed_cons_inr lib e st1 _ '\n' [] (onRune_newline_quoting lib e st1 hesc1 hq1)
    have := runLoop_feed_inr lib e _ (l ++ ['\n']) (initState w) hret (rest.length + 2) rest
    rw [show (l ++ '\n' :: rest).length + 2 = rest.length + 2 + (l ++ ['\n']).length by
      simp; omega, show l ++ '\n' :: rest = (l ++ ['\n']) ++ rest by simp, this, hw, hcalls,
      hmsg]
    rfl

/-- C7 on the input `"abc`. -/
theorem C7_unterminated_quote_is_fatal_witness :
    (countUnescaped '\n' false "\"abc".data = 0 ∧
      countUnescaped '"' false "\"abc".data % 2 = 1 ∧
      ("\"abc".data = "\"abc".data ∨
        (pendingEscape false "\"abc".data = false ∧ "\"abc".data = "\"abc".data ++ '\n' :: []))) ∧
    convertLogEntries sampleLib "\"abc".data Writer.buffer (NewFieldEncoder (ALBLogSpec sampleLib)) =
      some { w := Writer.buffer, err := some "line 0: EOL without closing quote", calls := [] } :=
  ⟨⟨by decide, by decide, Or.inl rfl⟩,
    C7_unterminated_quote_is_fatal sampleLib (NewFieldEncoder (ALBLogSpec sampleLib))
      Writer.buffer "\"abc".data [] "\"abc".data (by decide) (by decide) (Or.inl rfl)⟩

/-- A continuing iteration keeps the flag `last`. -/
theorem onRune_last {F : Type} (lib : StdLib F) (e : FieldEncoder F) (st st1 : LoopState)
    (c : Char) (h : onRune lib e st c = .inl st1) : st1.last = st.last := by
  unfold onRune at h
  split at h
  · cases h; rfl
  · split at h
    · split at h
      · cases h
      · split at h
        · split at h
          · cases h
          · unfold endOfLine at h
            split at h
            · cases h
            · cases h; rfl
        · unfold endOfLine at h
          split at h
          · cases h
          · cases h; rfl
    · split at h
      · cases h; rfl
      · split at h
        · split at h <;> (cases h; rfl)
        · split at h
          · split at h <;> (cases h; rfl)
          · cases h; rfl

theorem feed_last {F : Type} (lib : StdLib F) (e : FieldEncoder F) :
    ∀ (a : List Char) (st st1 : LoopState), feed lib e st a = .inl st1 →
      st1.last = st.last := by
  intro a
  induction a with
  | nil => intro st st1 h; simp only [feed, Sum.inl.injEq] at h; rw [h]
  | cons c cs ih =>
    intro st st1 h
    simp only [feed] at h
    cases hc : onRune lib e st c with
    | inr r => rw [hc] at h; cases h
    | inl st2 =>
      rw [hc] at h
      rw [ih st2 st1 h, onRune_last lib e st st2 c hc]

/-- The newline case returns when `last` is set. -/
theorem onRune_newline_last {F : Type} (lib : StdLib F) (e : FieldEncoder F) (st : LoopState)
    (hesc : st.escaping = false) (hlast : st.last = true) :
    ∃ r, onRune lib e st '\n' = .inr r := by
  unfold onRune
  simp only [hesc, Bool.false_eq_true, if_false, if_true]
  split
  · exact ⟨_, rfl⟩
  · split
    · split
      · exact ⟨_, rfl⟩
      · simp [endOfLine, hlast]
    · simp [endOfLine, hlast]

/-- At the end of the stream the loop returns within two iterations. -/
theorem runLoop_eof_returns {F : Type} (lib : StdLib F) (e : FieldEncoder F) (st : LoopState)
    (n : Nat) : ∃ r, runLoop lib e (n + 2) st [] = some r := by
  cases hesc : st.escaping with
  | false =>
    obtain ⟨r, hr⟩ := onRune_newline_last lib e { st with last := true } hesc rfl
    exact ⟨r, by simp only [runLoop, hr]⟩
  | true =>
    obtain ⟨r, hr⟩ := onRune_newline_last lib e
      { st with last := true, escaping := false,
                current := st.current ++ String.singleton '\n' } rfl rfl
    refine ⟨r, ?_⟩
    simp only [runLoop]
    rw [onRune_escaped lib e { st with last := true } '\n' hesc]
    simp only []
    rw [hr]

/-- The loop always returns: `convertLogEntries` yields a result. -/
theorem convertLogEntries_returns {F : Type} (lib : StdLib F) (e : FieldEncoder F)
    (w : Writer)
    (r : List Char) : ∃ res, convertLogEntries lib r w e = some res := by
  unfold convertLogEntries
  cases hf : feed lib e (initState w) r with
  | inr res =>
    refine ⟨res, ?_⟩
    have := runLoop_feed_inr lib e res r (initState w) hf 2 []
    rwa [List.append_nil, Nat.add_comm] at this
  | inl st1 =>
    obtain ⟨res, hres⟩ := runLoop_eof_returns lib e st1 0
    refine ⟨res, ?_⟩
    have := runLoop_feed_inl lib e st1 r (initState w) hf 2 []
    rw [List.append_nil, Nat.add_comm] at this
    rw [this]
    exact hres

/-- From a state before the end of the stream, the end of the stream and a
final newline followed by the end of the stream give the same result. -/
theorem runLoop_eof_eq_newline {F : Type} (lib : StdLib F) (e : FieldEncoder F)
    (st : LoopState) (hlast : st.last = false) :
    runLoop lib e 2 st [] = runLoop lib e 3 st ['\n'] := by
  obtain ⟨fields, quoting, escaping, line, field, current, last, w, calls⟩ := st
  simp only at hlast
  subst hlast
  cases escaping with
  | true =>
    obtain ⟨r, hr⟩ := onRune_newline_last lib e
      { fields := fields, quoting := quoting, escaping := false, line := line, field := field,
        current := current ++ String.singleton '\n', last := true, w := w, calls := calls }
      rfl rfl
    simp only [runLoop]
    rw [onRune_escaped lib e _ '\n' rfl, onRune_escaped lib e _ '\n' rfl]
    simp only [runLoop, hr]
  | false =>
    cases quoting with
    | true => simp [runLoop, onRune]
    | false =>
      by_cases hne : 0 < fields.length ∨ current ≠ ""
      · rcases hres : e.EncodeTo lib w (fields ++ [current]) with ⟨w1, _ | err⟩
        · simp [runLoop, onRune, endOfLine, hne, hres]
        · simp [runLoop, onRune, endOfLine, hne, hres]
      · simp [runLoop, onRune, endOfLine, hne]

/-- C8: the end of the stream acts as a newline: on every input `s`,
`convertLogEntries` returns, and it returns the same result (bytes written,
error, records handed over) on `s` followed by one newline. -/
theorem C8_end_of_stream_is_implicit_newline {F : Type} (lib : StdLib F)
    (e : FieldEncoder F)
    (w : Writer) (s : List Char) :
    ∃ r, convertLogEntries lib s w e = some r ∧
      convertLogEntries lib (s ++ ['\n']) w e = some r := by
  obtain ⟨r, hr⟩ := convertLogEntries_returns lib e w s
  refine ⟨r, hr, ?_⟩
  rw [← hr]
  unfold convertLogEntries
  cases hf : feed lib e (initState w) s with
  | inr res =>
    have h1 := runLoop_feed_inr lib e res s (initState w) hf 2 []
    have h2 := runLoop_feed_inr lib e res s (initState w) hf 3 ['\n']
    rw [List.append_nil, Nat.add_comm] at h1
    rw [show (s ++ ['\n']).length + 2 = 3 + s.length by simp; omega, h1, h2]
  | inl st1 =>
    have h1 := runLoop_feed_inl lib e st1 s (initState w) hf 2 []
    have h2 := runLoop_feed_inl lib e st1 s (initState w) hf 3 ['\n']
    rw [List.append_nil, Nat.add_comm] at h1
    rw [show (s ++ ['\n']).length + 2 = 3 + s.length by simp; omega, h1, h2]
    exact (runLoop_eof_eq_newline lib e st1
      (by rw [feed_last lib e s (initState w) st1 hf]; rfl)).symm

/-- Newlines at the start of a line only advance the line counter. -/
theorem feed_blank_lines {F : Type} (lib : StdLib F) (e : FieldEncoder F) (w : Writer) :
    ∀ (n : Nat) (line : Int), ∃ line1 : Int,
      feed lib e { initState w with line := line } (List.replicate n '\n') =
        .inl { initState w with line := line1 } := by
  intro n
  induction n with
  | zero => intro line; exact ⟨line, rfl⟩
  | succ n ih =>
    intro line
    obtain ⟨line1, h1⟩ := ih (wrapInt (line + 1))
    refine ⟨line1, ?_⟩
    rw [List.replicate_succ, feed_cons_inl lib e _ { initState w with line := wrapInt (line + 1) }
      '\n' _ (by simp [onRune, endOfLine, initState])]
    exact h1

/-- What the newline case hands to the encoder: the completed fields and the
buffer, when no quote is open and there is a completed field or a non-empty
buffer; nothing otherwise. -/
theorem onRune_newline_calls {F : Type} (lib : StdLib F) (e : FieldEncoder F)
    (st : LoopState) (hesc : st.escaping = false) :
    Sum.elim LoopState.calls Result.calls (onRune lib e st '\n') =
      if st.quoting = false ∧ (0 < st.fields.length ∨ st.current ≠ "") then
        st.calls ++ [st.fields ++ [st.current]]
      else st.calls := by
  unfold onRune
  cases hq : st.quoting with
  | true => simp [hesc]
  | false =>
    by_cases hne : 0 < st.fields.length ∨ st.current ≠ ""
    · rcases hres : e.EncodeTo lib st.w (st.fields ++ [st.current]) with ⟨w1, _ | err⟩
      · cases hl : st.last <;> simp [hesc, hne, endOfLine, hl]
      · simp [hesc, hne]
    · cases hl : st.last <;> simp [hesc, hne, endOfLine, hl]

/-- What a newline hands to the encoder, escaped or not: an escaped newline
goes to the buffer and nothing is handed over. -/
theorem onRune_newline_calls_any {F : Type} (lib : StdLib F) (e : FieldEncoder F)
    (st : LoopState) :
    Sum.elim LoopState.calls Result.calls (onRune lib e st '\n') =
      if st.escaping = false ∧ st.quoting = false ∧
          (0 < st.fields.length ∨ st.current ≠ "") then
        st.calls ++ [st.fields ++ [st.current]]
      else st.calls := by
  cases hesc : st.escaping with
  | true =>
    rw [onRune_escaped lib e st '\n' hesc]
    simp
  | false =>
    rw [onRune_newline_calls lib e st hesc]
    simp

/-- What the end of the stream hands to the encoder: a pending escape first
appends the newline of the end of the stream to the buffer. -/
theorem runLoop_eof_calls {F : Type} (lib : StdLib F) (e : FieldEncoder F) (st : LoopState) :
    ∃ r, runLoop lib e 2 st [] = some r ∧
      r.calls =
        if st.quoting = false ∧ (0 < st.fields.length ∨
            (if st.escaping = true then st.current ++ "\n" else st.current) ≠ "") then
          st.calls ++
            [st.fields ++ [if st.escaping = true then st.current ++ "\n" else st.current]]
        else st.calls := by
  cases hesc : st.escaping with
  | false =>
    obtain ⟨r, hr⟩ := onRune_newline_last lib e { st with last := true } hesc rfl
    refine ⟨r, by simp only [runLoop, hr], ?_⟩
    have := onRune_newline_calls lib e { st with last := true } hesc
    rw [hr] at this
    simpa using this
  | true =>
    obtain ⟨r, hr⟩ := onRune_newline_last lib e
      { st with last := true, escaping := false,
                current := st.current ++ String.singleton '\n' } rfl rfl
    refine ⟨r, ?_, ?_⟩
    · simp only [runLoop]
      rw [onRune_escaped lib e { st with last := true } '\n' hesc]
      simp only []
      rw [hr]
    · have := onRune_newline_calls lib e
        { st with last := true, escaping := false,
                  current := st.current ++ String.singleton '\n' } rfl
      rw [hr] at this
      have hnl : String.singleton '\n' = "\n" := rfl
      simpa [hnl] using this

/-- C9, as stated, fails in two ways. On the input `"a` the buffer holds `a`
at the end of the stream, yet nothing is handed to the encoder (the run
fails with the error of the unterminated quote). On the input made of one
backslash the buffer is empty and no field is completed at the end of the
stream, yet the line is handed to the encoder, with the single field made
of the escaped newline. -/
theorem C9_open_quote_line_is_not_handed_over :
    ((∃ st, feed sampleLib (NewFieldEncoder (ALBLogSpec sampleLib)) (initState Writer.buffer)
        "\"a".data = .inl st ∧ st.current = "a" ∧ st.current ≠ "") ∧
      convertLogEntries sampleLib "\"a".data Writer.buffer
          (NewFieldEncoder (ALBLogSpec sampleLib)) =
        some { w := Writer.buffer, err := some "line 0: EOL without closing quote",
               calls := [] }) ∧
    ((∃ st, feed sampleLib (NewFieldEncoder (ALBLogSpec sampleLib)) (initState Writer.buffer)
        "\\".data = .inl st ∧ st.current = "" ∧ st.fields = []) ∧
      (convertLogEntries sampleLib "\\".data Writer.buffer
          (NewFieldEncoder (ALBLogSpec sampleLib))).map Result.calls = some [["\n"]]) :=
  ⟨⟨⟨_, rfl, rfl, by decide⟩, rfl⟩, ⟨⟨_, rfl, rfl, rfl⟩, rfl⟩⟩

/-- C9, amended: on an input made of newlines only (the empty input
included) `convertLogEntries` succeeds, writes nothing and hands nothing to
the encoder; and a line is handed to the encoder exactly when, at its
terminating unescaped newline or at the end of the stream (where a pending
backslash first appends the newline of the end of the stream to the
buffer), no quote is open and the buffer is non-empty or a field has been
completed, the buffer being appended as the last field. -/
theorem C9_blank_lines_are_skipped {F : Type} (lib : StdLib F) (e : FieldEncoder F) :
    (∀ (n : Nat) (w : Writer), convertLogEntries lib (List.replicate n '\n') w e =
      some { w := w, err := none, calls := [] }) ∧
    (∀ st : LoopState,
      Sum.elim LoopState.calls Result.calls (onRune lib e st '\n') =
        if st.escaping = false ∧ st.quoting = false ∧
            (0 < st.fields.length ∨ st.current ≠ "") then
          st.calls ++ [st.fields ++ [st.current]]
        else st.calls) ∧
    (∀ (p : List Char) (st : LoopState) (w : Writer), feed lib e (initState w) p = .inl st →
      ∃ r, convertLogEntries lib p w e = some r ∧
        r.calls =
          if st.quoting = false ∧ (0 < st.fields.length ∨
              (if st.escaping = true then st.current ++ "\n" else st.current) ≠ "") then
            st.calls ++
              [st.fields ++ [if st.escaping = true then st.current ++ "\n" else st.current]]
          else st.calls) := by
  refine ⟨?_, fun st => onRune_newline_calls_any lib e st, ?_⟩
  · intro n w
    obtain ⟨line1, h1⟩ := feed_blank_lines lib e w n 0
    unfold convertLogEntries
    have := runLoop_feed_inl lib e _ (List.replicate n '\n') (initState w) h1 2 []
    rw [List.append_nil, Nat.add_comm] at this
    rw [this]
    simp [runLoop, onRune, endOfLine, initState]
  · intro p st w hfeed
    obtain ⟨r, hr, hcalls⟩ := runLoop_eof_calls lib e st
    refine ⟨r, ?_, hcalls⟩
    unfold convertLogEntries
    have := runLoop_feed_inl lib e st p (initState w) hfeed 2 []
    rw [List.append_nil, Nat.add_comm] at this
    rw [this]
    exact hr

/-- The amended C9 on three blank lines, on the line `a b` and on the input
made of one backslash. -/
theorem C9_blank_lines_are_skipped_witness :
    convertLogEntries sampleLib (List.replicate 3 '\n') Writer.buffer
        (NewFieldEncoder (ALBLogSpec sampleLib)) =
      some { w := Writer.buffer, err := none, calls := [] } ∧
    (∃ r, convertLogEntries sampleLib "a b".data Writer.buffer
        (NewFieldEncoder (ALBLogSpec sampleLib)) = some r ∧ r.calls = [["a", "b"]]) ∧
    ∃ r, convertLogEntries sampleLib "\\".data Writer.buffer
        (NewFieldEncoder (ALBLogSpec sampleLib)) = some r ∧ r.calls = [["\n"]] :=
  ⟨(C9_blank_lines_are_skipped sampleLib (NewFieldEncoder (ALBLogSpec sampleLib))).1 3
      Writer.buffer,
    (C9_blank_lines_are_skipped sampleLib (NewFieldEncoder (ALBLogSpec sampleLib))).2.2
      "a b".data
      { initState Writer.buffer with fields := ["a"], current := "b", field := wrapInt 1 }
      Writer.buffer rfl,
    (C9_blank_lines_are_skipped sampleLib (NewFieldEncoder (ALBLogSpec sampleLib))).2.2
      "\\".data { initState Writer.buffer with escaping := true } Writer.buffer rfl⟩

/-- A write to a reliable writer appends the chunk. -/
theorem Writer.Write_reliable (w : Writer) (hw : w.reliable) (p : String) :
    w.Write p = ({ w with history := w.history ++ [p], bytes := w.bytes ++ p }, none) := by
  simp [Writer.Write, hw w.history p]

/-- A write keeps the behaviour of the writer and appends to its bytes. -/
theorem Writer.Write_extends (w : Writer) (p : String) :
    (w.Write p).1.accept = w.accept ∧ ∃ x, (w.Write p).1.bytes = w.bytes ++ x :=
  ⟨rfl, _, rfl⟩

/-- `EncodeTo` keeps the behaviour of the writer and appends to its bytes. -/
theorem FieldEncoder.EncodeTo_extends {F : Type} (lib : StdLib F) (fe : FieldEncoder F)
    (w : Writer) (v : List String) :
    (fe.EncodeTo lib w v).1.accept = w.accept ∧
      ∃ x, (fe.EncodeTo lib w v).1.bytes = w.bytes ++ x := by
  unfold FieldEncoder.EncodeTo
  split
  · exact ⟨rfl, "", by simp⟩
  · split
    · exact ⟨rfl, "", by simp⟩
    · split
      · rename_i enc _ _ w1 err heq
        have h1 : w1 = (w.Write enc).1 := by rw [heq]
        subst h1
        exact Writer.Write_extends w enc
      · rename_i enc _ _ w1 heq
        have h1 : w1 = (w.Write enc).1 := by rw [heq]
        subst h1
        exact ⟨rfl, _, by simp only [Writer.Write]; rw [String.append_assoc]⟩

/-- On writers related by equality `EncodeTo` does the same. -/
theorem FieldEncoder.EncodeTo_eq_rel {F : Type} (lib : StdLib F) (fe : FieldEncoder F)
    (w w1 : Writer) (v : List String) (h : w = w1) :
    (fe.EncodeTo lib w v).1 = (fe.EncodeTo lib w1 v).1 ∧
      ((fe.EncodeTo lib w1 v).2 = none ↔ (fe.EncodeTo lib w v).2 = none) := by
  subst h
  exact ⟨rfl, Iff.rfl⟩

/-- On two reliable writers `EncodeTo` appends the same bytes and fails alike. -/
theorem FieldEncoder.EncodeTo_sameSuffix {F : Type} (lib : StdLib F) (fe : FieldEncoder F)
    (p p1 : String) (w w1 : Writer) (v : List String) (h : Writer.sameSuffix p p1 w w1) :
    Writer.sameSuffix p p1 (fe.EncodeTo lib w v).1 (fe.EncodeTo lib w1 v).1 ∧
      ((fe.EncodeTo lib w1 v).2 = none ↔ (fe.EncodeTo lib w v).2 = none) := by
  obtain ⟨hr, hr1, y, hy, hy1⟩ := h
  unfold FieldEncoder.EncodeTo
  cases hrec : fe.encodeRecord v with
  | error err => exact ⟨⟨hr, hr1, y, hy, hy1⟩, by simp⟩
  | ok m =>
    simp only []
    cases hm : lib.marshal m with
    | error err => exact ⟨⟨hr, hr1, y, hy, hy1⟩, by simp⟩
    | ok enc =>
      have hra : Writer.reliable
          { w with history := w.history ++ [enc], bytes := w.bytes ++ enc } := hr
      have hrb : Writer.reliable
          { w1 with history := w1.history ++ [enc], bytes := w1.bytes ++ enc } := hr1
      simp only [Writer.Write_reliable w hr, Writer.Write_reliable w1 hr1,
        Writer.Write_reliable _ hra, Writer.Write_reliable _ hrb]
      refine ⟨⟨hr, hr1, y ++ enc ++ "\n", ?_, ?_⟩, trivial⟩
      · simp only [hy, String.append_assoc]
      · simp only [hy1, String.append_assoc]

theorem onRune_shifted {F : Type} (lib : StdLib F) (e : FieldEncoder F)
    (R : Writer → Writer → Prop)
    (hR : ∀ w w1 v, R w w1 → R (e.EncodeTo lib w v).1 (e.EncodeTo lib w1 v).1 ∧
      ((e.EncodeTo lib w1 v).2 = none ↔ (e.EncodeTo lib w v).2 = none))
    (c0 : List (List String)) (st st1 : LoopState) (c : Char)
    (h : LoopState.shifted R c0 st st1) :
    match onRune lib e st c, onRune lib e st1 c with
    | .inl s, .inl s1 => LoopState.shifted R c0 s s1
    | .inr r, .inr r1 => Result.shifted R c0 r r1
    | _, _ => False := by
  obtain ⟨fields, quoting, escaping, line, field, current, last, w, calls⟩ := st
  obtain ⟨fields1, quoting1, escaping1, line1, field1, current1, last1, w1, calls1⟩ := st1
  obtain ⟨h1, h2, h3, h4, h5, h6, h7⟩ := h
  simp only at h1 h2 h3 h4 h5 h6 h7
  subst h1 h2 h3 h4 h5 h7
  unfold onRune
  cases escaping1 with
  | true => simp [LoopState.shifted, h6]
  | false =>
    by_cases hn : c = '\n'
    · subst hn
      cases quoting1 with
      | true => simp [Result.shifted, h6]
      | false =>
        by_cases hne : 0 < fields1.length ∨ current1 ≠ ""
        · simp only [Bool.false_eq_true, if_false, if_true, hne]
          obtain ⟨hw, herr⟩ := hR w w1 (fields1 ++ [current1]) h6
          rcases hA : e.EncodeTo lib w (fields1 ++ [current1]) with ⟨wa, _ | erra⟩ <;>
            rcases hB : e.EncodeTo lib w1 (fields1 ++ [current1]) with ⟨wb, _ | errb⟩ <;>
            rw [hA, hB] at hw herr <;> simp only at hw herr
          · cases last1 <;> simp [endOfLine, LoopState.shifted, Result.shifted, hw]
          · simp at herr
          · simp at herr
          · simp [Result.shifted, hw]
        · cases last1 <;> simp [hne, endOfLine, LoopState.shifted, Result.shifted, h6]
    · by_cases hb : c = '\\'
      · simp [hn, hb, LoopState.shifted, h6]
      · by_cases hq : c = '"'
        · cases quoting1 <;> simp [hq, LoopState.shifted, h6]
        · by_cases hs : c = ' '
          · cases quoting1 <;> simp [hs, LoopState.shifted, h6]
          · simp [hn, hb, hq, hs, LoopState.shifted, h6]

theorem runLoop_shifted {F : Type} (lib : StdLib F) (e : FieldEncoder F)
    (R : Writer → Writer → Prop)
    (hR : ∀ w w1 v, R w w1 → R (e.EncodeTo lib w v).1 (e.EncodeTo lib w1 v).1 ∧
      ((e.EncodeTo lib w1 v).2 = none ↔ (e.EncodeTo lib w v).2 = none))
    (c0 : List (List String)) :
    ∀ (fuel : Nat) (st st1 : LoopState) (rb : List Char), LoopState.shifted R c0 st st1 →
      ∀ r, runLoop lib e fuel st rb = some r →
        ∃ r1, runLoop lib e fuel st1 rb = some r1 ∧ Result.shifted R c0 r r1 := by
  intro fuel
  induction fuel with
  | zero => intro st st1 rb _ r h; simp [runLoop] at h
  | succ fuel ih =>
    intro st st1 rb hs r h
    cases rb with
    | nil =>
      have hs1 : LoopState.shifted R c0 { st with last := true } { st1 with last := true } := by
        obtain ⟨h1, h2, h3, h4, _, h6, h7⟩ := hs
        exact ⟨h1, h2, h3, h4, rfl, h6, h7⟩
      have hstep := onRune_shifted lib e R hR c0 _ _ '\n' hs1
      simp only [runLoop] at h ⊢
      cases ha : onRune lib e { st with last := true } '\n' with
      | inr ra =>
        cases hb : onRune lib e { st1 with last := true } '\n' with
        | inr rb1 =>
          rw [ha, hb] at hstep
          rw [ha] at h
          simp only [Option.some.injEq] at h
          subst h
          exact ⟨rb1, rfl, hstep⟩
        | inl sb => rw [ha, hb] at hstep; exact hstep.elim
      | inl sa =>
        cases hb : onRune lib e { st1 with last := true } '\n' with
        | inr rb1 => rw [ha, hb] at hstep; exact hstep.elim
        | inl sb =>
          rw [ha, hb] at hstep
          rw [ha] at h
          exact ih sa sb [] hstep r h
    | cons c cs =>
      have hstep := onRune_shifted lib e R hR c0 st st1 c hs
      simp only [runLoop] at h ⊢
      cases ha : onRune lib e st c with
      | inr ra =>
        cases hb : onRune lib e st1 c with
        | inr rb1 =>
          rw [ha, hb] at hstep
          rw [ha] at h
          simp only [Option.some.injEq] at h
          subst h
          exact ⟨rb1, rfl, hstep⟩
        | inl sb => rw [ha, hb] at hstep; exact hstep.elim
      | inl sa =>
        cases hb : onRune lib e st1 c with
        | inr rb1 => rw [ha, hb] at hstep; exact hstep.elim
        | inl sb =>
          rw [ha, hb] at hstep
          rw [ha] at h
          exact ih sa sb cs hstep r h

/-- An iteration keeps the behaviour of the writer and appends to its bytes. -/
theorem onRune_extends {F : Type} (lib : StdLib F) (e : FieldEncoder F) (st st1 : LoopState)
    (c : Char) (h : onRune lib e st c = .inl st1) :
    st1.w.accept = st.w.accept ∧ ∃ x, st1.w.bytes = st.w.bytes ++ x := by
  have hsame : (st.w.accept = st.w.accept ∧ ∃ x, st.w.bytes = st.w.bytes ++ x) :=
    ⟨rfl, "", by simp⟩
  unfold onRune at h
  split at h
  · cases h; exact hsame
  · split at h
    · split at h
      · cases h
      · split at h
        · split at h
          · cases h
          · rename_i w2 heq
            unfold endOfLine at h
            split at h
            · cases h
            · cases h
              have := FieldEncoder.EncodeTo_extends lib e st.w (st.fields ++ [st.current])
              rw [heq] at this
              exact this
        · unfold endOfLine at h
          split at h
          · cases h
          · cases h; exact hsame
    · split at h
      · cases h; exact hsame
      · split at h
        · split at h <;> (cases h; exact hsame)
        · split at h
          · split at h <;> (cases h; exact hsame)
          · cases h; exact hsame

theorem feed_extends {F : Type} (lib : StdLib F) (e : FieldEncoder F) :
    ∀ (a : List Char) (st st1 : LoopState), feed lib e st a = .inl st1 →
      st1.w.accept = st.w.accept ∧ ∃ x, st1.w.bytes = st.w.bytes ++ x := by
  intro a
  induction a with
  | nil =>
    intro st st1 h
    simp only [feed, Sum.inl.injEq] at h
    subst h
    exact ⟨rfl, "", by simp⟩
  | cons c cs ih =>
    intro st st1 h
    simp only [feed] at h
    cases hc : onRune lib e st c with
    | inr r => rw [hc] at h; cases h
    | inl st2 =>
      rw [hc] at h
      obtain ⟨ha, x, hx⟩ := onRune_extends lib e st st2 c hc
      obtain ⟨hb, y, hy⟩ := ih st2 st1 h
      exact ⟨hb.trans ha, x ++ y, by rw [hy, hx, String.append_assoc]⟩

/-- Before the end of the stream the loop returns only with an error. -/
theorem onRune_inr_err {F : Type} (lib : StdLib F) (e : FieldEncoder F) (st : LoopState)
    (c : Char) (r : Result) (hlast : st.last = false) (h : onRune lib e st c = .inr r) :
    r.err ≠ none := by
  unfold onRune at h
  split at h
  · cases h
  · split at h
    · split at h
      · cases h; simp
      · split at h
        · split at h
          · cases h; simp
          · simp [endOfLine, hlast] at h
        · simp [endOfLine, hlast] at h
    · split at h
      · cases h
      · split at h
        · split at h <;> cases h
        · split at h
          · split at h <;> cases h
          · cases h

theorem feed_inr_err {F : Type} (lib : StdLib F) (e : FieldEncoder F) (r : Result) :
    ∀ (a : List Char) (st : LoopState), st.last = false → feed lib e st a = .inr r →
      r.err ≠ none := by
  intro a
  induction a with
  | nil => intro st _ h; simp [feed] at h
  | cons c cs ih =>
    intro st hlast h
    simp only [feed] at h
    cases hc : onRune lib e st c with
    | inr r1 =>
      rw [hc] at h
      simp only [Sum.inr.injEq] at h
      subst h
      exact onRune_inr_err lib e st c r1 hlast hc
    | inl st1 =>
      rw [hc] at h
      exact ih st1 (by rw [onRune_last lib e st st1 c hc, hlast]) h

/-- The escaping flag of the loop follows the pending backslash. -/
theorem onRune_escaping {F : Type} (lib : StdLib F) (e : FieldEncoder F) (st st1 : LoopState)
    (c : Char) (h : onRune lib e st c = .inl st1) :
    st1.escaping = pendingEscape st.escaping [c] := by
  unfold onRune at h
  split at h
  · rename_i hesc
    cases h
    simp [hesc, pendingEscape]
  · rename_i hesc
    have hesc1 : st.escaping = false := by simpa using hesc
    split at h
    · rename_i hn
      subst hn
      split at h
      · cases h
      · split at h
        · split at h
          · cases h
          · unfold endOfLine at h
            split at h
            · cases h
            · cases h; simp [hesc1, pendingEscape]
        · unfold endOfLine at h
          split at h
          · cases h
          · cases h; simp [hesc1, pendingEscape]
    · split at h
      · rename_i hb
        cases h; simp [hesc1, hb, pendingEscape]
      · rename_i hb
        split at h
        · split at h <;> (cases h; simp [hesc1, hb, pendingEscape])
        · split at h
          · split at h <;> (cases h; simp [hesc1, hb, pendingEscape])
          · cases h; simp [hesc1, hb, pendingEscape]

theorem pendingEscape_cons (esc : Bool) (c : Char) (cs : List Char) :
    pendingEscape esc (c :: cs) = pendingEscape (pendingEscape esc [c]) cs := by
  cases esc <;> simp [pendingEscape]

theorem feed_escaping {F : Type} (lib : StdLib F) (e : FieldEncoder F) :
    ∀ (a : List Char) (st st1 : LoopState), feed lib e st a = .inl st1 →
      st1.escaping = pendingEscape st.escaping a := by
  intro a
  induction a with
  | nil =>
    intro st st1 h
    simp only [feed, Sum.inl.injEq] at h
    rw [h]; cases st1.escaping <;> rfl
  | cons c cs ih =>
    intro st st1 h
    simp only [feed] at h
    cases hc : onRune lib e st c with
    | inr r => rw [hc] at h; cases h
    | inl st2 =>
      rw [hc] at h
      rw [ih st2 st1 h, onRune_escaping lib e st st2 c hc, ← pendingEscape_cons]

/-- After an unescaped newline that does not end the run, the state is the
initial one on the writer as it is now, but for the line counter and the
records handed over. -/
theorem onRune_newline_inl {F : Type} (lib : StdLib F) (e : FieldEncoder F)
    (st st1 : LoopState) (hesc : st.escaping = false) (hlast : st.last = false)
    (h : onRune lib e st '\n' = .inl st1) :
    LoopState.shifted Eq st1.calls (initState st1.w) st1 := by
  unfold onRune at h
  simp only [hesc, Bool.false_eq_true, if_false, if_true] at h
  split at h
  · cases h
  · rename_i hq
    have hq1 : st.quoting = false := by simpa using hq
    split at h
    · split at h
      · cases h
      · simp only [endOfLine, hlast, Bool.false_eq_true, if_false, Sum.inl.injEq] at h
        subst h
        simp [LoopState.shifted, initState, hq1, hesc, hlast]
    · simp only [endOfLine, hlast, Bool.false_eq_true, if_false, Sum.inl.injEq] at h
      subst h
      simp [LoopState.shifted, initState, hq1, hesc, hlast]

/-- The state after an input that ends with an unescaped newline and on
which the run succeeds: the run on the input returns its writer and its
records. -/
theorem feed_complete_lines {F : Type} (lib : StdLib F) (e : FieldEncoder F) (w : Writer)
    (a0 : List Char) (ra : Result) (hesc : pendingEscape false a0 = false)
    (hra : convertLogEntries lib (a0 ++ ['\n']) w e = some ra) (hok : ra.err = none) :
    ∃ st2, feed lib e (initState w) (a0 ++ ['\n']) = .inl st2 ∧
      LoopState.shifted Eq st2.calls (initState st2.w) st2 ∧
      ra.w = st2.w ∧ ra.calls = st2.calls := by
  cases hf : feed lib e (initState w) (a0 ++ ['\n']) with
  | inr r =>
    exfalso
    have h1 := runLoop_feed_inr lib e r _ (initState w) hf 2 []
    rw [List.append_nil, Nat.add_comm] at h1
    unfold convertLogEntries at hra
    rw [h1] at hra
    simp only [Option.some.injEq] at hra
    subst hra
    exact feed_inr_err lib e r _ (initState w) rfl hf hok
  | inl st1 =>
    have hf1 := hf
    rw [feed_append] at hf1
    cases hf0 : feed lib e (initState w) a0 with
    | inr r => rw [hf0] at hf1; cases hf1
    | inl st0 =>
      rw [hf0] at hf1
      simp only [feed] at hf1
      cases hn : onRune lib e st0 '\n' with
      | inr r => rw [hn] at hf1; cases hf1
      | inl st2 =>
        rw [hn] at hf1
        simp only [Sum.inl.injEq] at hf1
        subst hf1
        have hesc0 : st0.escaping = false := by
          rw [feed_escaping lib e a0 (initState w) st0 hf0]
          exact hesc
        have hlast0 : st0.last = false := by
          rw [feed_last lib e a0 (initState w) st0 hf0]; rfl
        have hsh := onRune_newline_inl lib e st0 st2 hesc0 hlast0 hn
        have hrun_a : runLoop lib e 2 (initState st2.w) [] =
            some { w := st2.w, err := none, calls := [] } := rfl
        obtain ⟨r1, hr1, hw1, hc1, _⟩ := runLoop_shifted lib e Eq
          (fun w w1 v h => FieldEncoder.EncodeTo_eq_rel lib e w w1 v h) st2.calls 2
          (initState st2.w) st2 [] hsh _ hrun_a
        have ha := runLoop_feed_inl lib e st2 _ (initState w) hf 2 []
        rw [List.append_nil, Nat.add_comm] at ha
        unfold convertLogEntries at hra
        rw [ha, hr1] at hra
        simp only [Option.some.injEq] at hra
        subst hra
        refine ⟨st2, rfl, hsh, ?_, ?_⟩
        · exact hw1.symm
        · rw [hc1]; simp

/-- C10, as stated, fails when the writer keeps state: with a writer that
accepts two writes and rejects the third, `convertLogEntries` succeeds on
`h2 t` with its newline and on `h3 u` with its newline, each alone, but fails
on their concatenation, and writes less than the bytes of both. -/
theorem C10_stateful_writer_breaks_independence :
    pendingEscape false "h2 t".data = false ∧
    (convertLogEntries sampleGoLib "h2 t\n".data (Writer.failingAfter 2)
        (NewFieldEncoder (ALBLogSpec sampleGoLib))).map (fun r => (r.w.bytes, r.err)) =
      some ("\x7btype,timestamp\x7d\n", none) ∧
    (convertLogEntries sampleGoLib "h3 u\n".data (Writer.failingAfter 2)
        (NewFieldEncoder (ALBLogSpec sampleGoLib))).map (fun r => (r.w.bytes, r.err)) =
      some ("\x7btype,timestamp\x7d\n", none) ∧
    (convertLogEntries sampleGoLib ("h2 t\n".data ++ "h3 u\n".data) (Writer.failingAfter 2)
        (NewFieldEncoder (ALBLogSpec sampleGoLib))).map (fun r => (r.w.bytes, r.err)) =
      some ("\x7btype,timestamp\x7d\n",
        some ("line unable to write complete output: write failed: " ++
          "encoding error: %!v(MISSING)")) :=
  ⟨rfl, rfl, rfl, rfl⟩

/-- C10, amended: when the input `a` ends with an unescaped newline and
`convertLogEntries` succeeds on it, the run on `a` followed by `b` continues
as the run on `b` started on the writer as the run on `a` left it: it leaves
the same writer, succeeds exactly when that run succeeds and hands over the
records of `a` followed by those of `b`. When the writer accepts every
write, the bytes written on `a` followed by `b` are the bytes written for
`a` followed by the bytes written for `b` alone, and the run succeeds
exactly when the run on `b` alone succeeds. -/
theorem C10_no_cross_line_state {F : Type} (lib : StdLib F) (e : FieldEncoder F)
    (w : Writer) (a0 b : List Char) (ra : Result)
    (hesc : pendingEscape false a0 = false)
    (hra : convertLogEntries lib (a0 ++ ['\n']) w e = some ra) (hok : ra.err = none) :
    (∃ rb rab, convertLogEntries lib b ra.w e = some rb ∧
      convertLogEntries lib ((a0 ++ ['\n']) ++ b) w e = some rab ∧
      rab.w = rb.w ∧ (rab.err = none ↔ rb.err = none) ∧
      rab.calls = ra.calls ++ rb.calls) ∧
    (w.reliable → ∃ rb rab xa xb, convertLogEntries lib b w e = some rb ∧
      convertLogEntries lib ((a0 ++ ['\n']) ++ b) w e = some rab ∧
      ra.w.bytes = w.bytes ++ xa ∧ rb.w.bytes = w.bytes ++ xb ∧
      rab.w.bytes = (w.bytes ++ xa) ++ xb ∧ (rab.err = none ↔ rb.err = none) ∧
      rab.calls = ra.calls ++ rb.calls) := by
  obtain ⟨st2, hf, hsh, hw2, hc2⟩ := feed_complete_lines lib e w a0 ra hesc hra hok
  have hab : convertLogEntries lib ((a0 ++ ['\n']) ++ b) w e =
      runLoop lib e (b.length + 2) st2 b := by
    unfold convertLogEntries
    rw [show ((a0 ++ ['\n']) ++ b).length + 2 = b.length + 2 + (a0 ++ ['\n']).length by
      simp; omega]
    exact runLoop_feed_inl lib e st2 _ (initState w) hf (b.length + 2) b
  constructor
  · obtain ⟨rb, hrb⟩ := convertLogEntries_returns lib e ra.w b
    have hrb1 : runLoop lib e (b.length + 2) (initState st2.w) b = some rb := by
      rw [← hw2]; exact hrb
    obtain ⟨rab, hrab, hw, hc, herr⟩ := runLoop_shifted lib e Eq
      (fun w w1 v h => FieldEncoder.EncodeTo_eq_rel lib e w w1 v h) st2.calls
      (b.length + 2) (initState st2.w) st2 b hsh rb hrb1
    exact ⟨rb, rab, hrb, by rw [hab]; exact hrab, hw.symm, herr, by rw [hc, hc2]⟩
  · intro hrel
    obtain ⟨hacc, xa, hxa⟩ := feed_extends lib e _ _ _ hf
    have hrel2 : st2.w.reliable := by
      intro h p
      rw [hacc]
      exact hrel h p
    have hsh2 : LoopState.shifted (Writer.sameSuffix w.bytes st2.w.bytes) st2.calls
        (initState w) st2 := by
      obtain ⟨h1, h2, h3, h4, h5, _, h7⟩ := hsh
      exact ⟨h1, h2, h3, h4, h5, ⟨hrel, hrel2, "", by simp [initState], by simp⟩, h7⟩
    obtain ⟨rb, hrb⟩ := convertLogEntries_returns lib e w b
    obtain ⟨rab, hrab, ⟨_, _, y, hy, hy1⟩, hc, herr⟩ := runLoop_shifted lib e
      (Writer.sameSuffix w.bytes st2.w.bytes)
      (fun w w1 v h => FieldEncoder.EncodeTo_sameSuffix lib e _ _ w w1 v h) st2.calls
      (b.length + 2) (initState w) st2 b hsh2 rb hrb
    refine ⟨rb, rab, xa, y, hrb, by rw [hab]; exact hrab, ?_, hy, ?_, herr, by rw [hc, hc2]⟩
    · rw [hw2, hxa]; rfl
    · rw [hy1, hxa]; rfl

/-- The amended C10 on the inputs `a b` with its newline and `c`, written to
an in-memory buffer: the run on both continues the run on `c` on the writer
left by the first line, and its bytes are those of the two runs. -/
theorem C10_no_cross_line_state_witness :
    (pendingEscape false "a b".data = false ∧
      convertLogEntries sampleLib ("a b".data ++ ['\n']) Writer.buffer
          (NewFieldEncoder (ALBLogSpec sampleLib)) =
        some { w := { Writer.buffer with
                 history := ["\x7btype,timestamp\x7d", "\n"],
                 bytes := "\x7btype,timestamp\x7d\n" },
               err := none, calls := [["a", "b"]] }) ∧
    (∃ rb rab,
      convertLogEntries sampleLib "c".data
          { Writer.buffer with
            history := ["\x7btype,timestamp\x7d", "\n"],
            bytes := "\x7btype,timestamp\x7d\n" }
          (NewFieldEncoder (ALBLogSpec sampleLib)) = some rb ∧
      convertLogEntries sampleLib (("a b".data ++ ['\n']) ++ "c".data) Writer.buffer
          (NewFieldEncoder (ALBLogSpec sampleLib)) = some rab ∧
      rab.w = rb.w) ∧
    ∃ rb rab xa xb,
      convertLogEntries sampleLib "c".data Writer.buffer
          (NewFieldEncoder (ALBLogSpec sampleLib)) = some rb ∧
      convertLogEntries sampleLib (("a b".data ++ ['\n']) ++ "c".data) Writer.buffer
          (NewFieldEncoder (ALBLogSpec sampleLib)) = some rab ∧
      "\x7btype,timestamp\x7d\n" = "" ++ xa ∧ rb.w.bytes = "" ++ xb ∧
      rab.w.bytes = ("" ++ xa) ++ xb ∧ (rab.err = none ↔ rb.err = none) :=
  ⟨⟨by decide, rfl⟩,
    (C10_no_cross_line_state sampleLib (NewFieldEncoder (ALBLogSpec sampleLib)) Writer.buffer
      "a b".data "c".data
      { w := { Writer.buffer with
                 history := ["\x7btype,timestamp\x7d", "\n"],
                 bytes := "\x7btype,timestamp\x7d\n" },
        err := none, calls := [["a", "b"]] }
      (by decide) rfl rfl).1.elim
      fun rb h => h.elim fun rab h => ⟨rb, rab, h.1, h.2.1, h.2.2.1⟩,
    ((C10_no_cross_line_state sampleLib (NewFieldEncoder (ALBLogSpec sampleLib)) Writer.buffer
      "a b".data "c".data
      { w := { Writer.buffer with
                 history := ["\x7btype,timestamp\x7d", "\n"],
                 bytes := "\x7btype,timestamp\x7d\n" },
        err := none, calls := [["a", "b"]] }
      (by decide) rfl rfl).2 (fun _ _ => rfl)).elim
      fun rb h => h.elim fun rab h => h.elim fun xa h => h.elim fun xb h =>
        ⟨rb, rab, xa, xb, h.1, h.2.1, h.2.2.1, h.2.2.2.1, h.2.2.2.2.1, h.2.2.2.2.2.1⟩⟩

/-! ## Conversion failures -/

/-- The loop of `EncodeTo` stops with the error of the first position whose
conversion fails. -/
theorem FieldEncoder.encodeLoop_error {F : Type} (fe : FieldEncoder F) :
    ∀ (v : List String) (idx p : Nat) (m : GoMap (Value F)) (msg : String)
      (hp : p < v.length),
      fe.encodeField (idx + p) (v.get ⟨p, hp⟩) = .error msg →
      (∀ q (hq : q < v.length), q < p → ∃ kv, fe.encodeField (idx + q) (v.get ⟨q, hq⟩) = .ok kv) →
      fe.encodeLoop idx v m = .error msg := by
  intro v
  induction v with
  | nil => intro idx p m msg hp; simp at hp
  | cons sval rest ih =>
    intro idx p m msg hp hfail hbefore
    cases p with
    | zero =>
      simp only [List.get_eq_getElem, List.getElem_cons_zero, Nat.add_zero] at hfail
      simp only [FieldEncoder.encodeLoop, hfail]
    | succ p =>
      obtain ⟨kv, hkv⟩ := hbefore 0 (by simp) (by omega)
      simp only [List.get_eq_getElem, List.getElem_cons_zero, Nat.add_zero] at hkv
      obtain ⟨key, value⟩ := kv
      simp only [FieldEncoder.encodeLoop, hkv]
      have hp1 : p < rest.length := by simpa using hp
      apply ih (idx + 1) p _ msg hp1
      · rw [show idx + 1 + p = idx + (p + 1) by omega]
        simpa using hfail
      · intro q hq hqp
        obtain ⟨kv1, h1⟩ := hbefore (q + 1) (by simpa using hq) (by omega)
        refine ⟨kv1, ?_⟩
        rw [show idx + 1 + q = idx + (q + 1) by omega]
        simpa using h1

/-- A position whose conversion function is not called or does not fail
yields a key and a value. -/
theorem FieldEncoder.encodeField_ok_of_not_failing {F : Type} (fe : FieldEncoder F) (q : Nat)
    (sval : String)
    (h : ∀ f, fe.fields[q]? = some f → sval ≠ "-" → sval ≠ "" →
      ∀ c, f.unformatter sval ≠ .error c) :
    ∃ kv, fe.encodeField q sval = .ok kv := by
  rw [fe.encodeField_eq]
  cases hf : fe.fields[q]? with
  | none => exact ⟨_, rfl⟩
  | some f =>
    by_cases hs : sval = "-" ∨ sval = ""
    · simp only [hs, if_true]
      exact ⟨_, rfl⟩
    · simp only [hs, if_false]
      have h1 := h f hf (fun e => hs (Or.inl e)) (fun e => hs (Or.inr e))
      cases hu : f.unformatter sval with
      | error c => exact absurd hu (h1 c)
      | ok value => exact ⟨_, rfl⟩

/-- C11: when the conversion of some schema position fails on a raw value
other than `-` and the empty string, `EncodeTo` returns the error
`error parsing field <key> with value <raw value>: <cause>` for the first
such position, with the schema key of the position, its raw value and the
error of its conversion function, and leaves the writer as it was. -/
theorem C11_conversion_failure_is_atomic {F : Type} (lib : StdLib F) (fe : FieldEncoder F)
    (w : Writer) (v : List String)
    (hfail : ∃ (i : Nat) (f : field F) (sval c : String), fe.fields[i]? = some f ∧ v[i]? = some sval ∧ sval ≠ "-" ∧
      sval ≠ "" ∧ f.unformatter sval = .error c) :
    ∃ (i : Nat) (f : field F) (sval cause : String), fe.fields[i]? = some f ∧ v[i]? = some sval ∧ sval ≠ "-" ∧ sval ≠ "" ∧
      f.unformatter sval = .error cause ∧
      (∀ (j : Nat) (g : field F) (s : String), j < i → fe.fields[j]? = some g → v[j]? = some s → s ≠ "-" → s ≠ "" →
        ∀ c, g.unformatter s ≠ .error c) ∧
      fe.EncodeTo lib w v =
        (w, some ("error parsing field " ++ f.key ++ " with value " ++ sval ++ ": " ++ cause)) := by
  classical
  have hex : ∃ i : Nat, ∃ (f : field F) (sval c : String), fe.fields[i]? = some f ∧ v[i]? = some sval ∧ sval ≠ "-" ∧
      sval ≠ "" ∧ f.unformatter sval = .error c := hfail
  obtain ⟨f, sval, cause, hf, hv, hs1, hs2, hu⟩ := Nat.find_spec hex
  have hmin : ∀ j, j < Nat.find hex → ¬ ∃ (f : field F) (sval c : String), fe.fields[j]? = some f ∧
      v[j]? = some sval ∧ sval ≠ "-" ∧ sval ≠ "" ∧ f.unformatter sval = .error c :=
    fun j hj => Nat.find_min hex hj
  generalize Nat.find hex = i at hf hv hmin
  have hiv : i < v.length := (List.getElem?_eq_some_iff.mp hv).1
  have hvi : v.get ⟨i, hiv⟩ = sval := by
    simpa using (List.getElem?_eq_some_iff.mp hv).2
  refine ⟨i, f, sval, cause, hf, hv, hs1, hs2, hu, ?_, ?_⟩
  · intro j g s hj hg hs hne1 hne2 c hc
    exact hmin j hj ⟨g, s, c, hg, hs, hne1, hne2, hc⟩
  · have herr : fe.encodeRecord v =
        .error ("error parsing field " ++ f.key ++ " with value " ++ sval ++ ": " ++ cause) := by
      unfold FieldEncoder.encodeRecord
      apply fe.encodeLoop_error v 0 i [] _ hiv
      · rw [Nat.zero_add, hvi, fe.encodeField_eq, hf]
        have hs : ¬ (sval = "-" ∨ sval = "") := fun h => h.elim hs1 hs2
        simp only [hs, if_false, hu]
      · intro q hq hqi
        rw [Nat.zero_add]
        apply fe.encodeField_ok_of_not_failing
        intro g hg hne1 hne2 c hc
        exact hmin q hqi ⟨g, _, c, hg, by simp [List.getElem?_eq_getElem hq], hne1, hne2, hc⟩
    unfold FieldEncoder.EncodeTo
    rw [herr]

/-- C11 on a line whose status code is not a number. -/
theorem C11_conversion_failure_is_atomic_witness :
    (∃ (i : Nat) (f : field Nat) (sval c : String), (NewFieldEncoder (ALBLogSpec sampleGoLib)).fields[i]? = some f ∧
      ["h2", "t", "e", "-", "-", "-", "-", "-", "abc"][i]? = some sval ∧ sval ≠ "-" ∧
      sval ≠ "" ∧ f.unformatter sval = .error c) ∧
    ∃ (i : Nat) (f : field Nat) (sval cause : String), (NewFieldEncoder (ALBLogSpec sampleGoLib)).fields[i]? = some f ∧
      ["h2", "t", "e", "-", "-", "-", "-", "-", "abc"][i]? = some sval ∧
      (NewFieldEncoder (ALBLogSpec sampleGoLib)).EncodeTo sampleGoLib { Writer.buffer with bytes := "out" }
          ["h2", "t", "e", "-", "-", "-", "-", "-", "abc"] =
        ({ Writer.buffer with bytes := "out" },
          some ("error parsing field " ++ f.key ++ " with value " ++ sval ++ ": " ++ cause)) :=
  ⟨⟨8, newfield "elb_status_code" (unformatint sampleGoLib), "abc",
      "strconv.Atoi: parsing \"abc\": invalid syntax", rfl, rfl, by decide, by decide, rfl⟩,
    (C11_conversion_failure_is_atomic sampleGoLib (NewFieldEncoder (ALBLogSpec sampleGoLib))
      { Writer.buffer with bytes := "out" } ["h2", "t", "e", "-", "-", "-", "-", "-", "abc"]
      ⟨8, newfield "elb_status_code" (unformatint sampleGoLib), "abc",
        "strconv.Atoi: parsing \"abc\": invalid syntax", rfl, rfl, by decide, by decide,
        rfl⟩).elim
      fun i h => h.elim fun f h => h.elim fun sval h => h.elim fun cause h =>
        ⟨i, f, sval, cause, h.1, h.2.1, h.2.2.2.2.2.2⟩⟩

/-- C12: the error returned when the encoder fails does not carry the line
number: the only argument of the format `line %v: encoding error: %v` is the
error of the encoder, so the message is the same whether the failing line is
the first of the input (line counter 0) or the third (line counter 2). -/
theorem C12_encoding_error_lacks_line_number :
    (convertLogEntries sampleGoLib "h2 t e x".data Writer.buffer
        (NewFieldEncoder (ALBLogSpec sampleGoLib))).map Result.err =
      some (some ("line error parsing field client with value x: error parsing host:port " ++
        "field%!(EXTRA *net.AddrError=address x: missing port in address): " ++
        "encoding error: %!v(MISSING)")) ∧
    (convertLogEntries sampleGoLib "\n\nh2 t e x".data Writer.buffer
        (NewFieldEncoder (ALBLogSpec sampleGoLib))).map Result.err =
      some (some ("line error parsing field client with value x: error parsing host:port " ++
        "field%!(EXTRA *net.AddrError=address x: missing port in address): " ++
        "encoding error: %!v(MISSING)")) ∧
    (convertLogEntries sampleGoLib "\n\n\"x".data Writer.buffer
        (NewFieldEncoder (ALBLogSpec sampleGoLib))).map Result.err =
      some (some "line 2: EOL without closing quote") := by
  exact ⟨rfl, rfl, rfl⟩

/-- C16: the field names of the schema `ALBLogSpec`, in order. -/
theorem C16_schema_field_names {F : Type} (lib : StdLib F) :
    (ALBLogSpec lib).map field.key =
      ["type", "timestamp", "elb", "client", "target", "request_processing_time_seconds",
        "target_processing_time_seconds", "response_processing_time", "elb_status_code",
        "target_status_code", "received_bytes", "sent_bytes", "request", "user_agent",
        "ssl_cipher", "ssl_protocol", "target_group_arn", "trace_id", "domain_name",
        "chosen_cert_arn", "matched_rule_priority", "request_creation_time",
        "actions_executed", "redirect_url", "error_reason", "targets_all",
        "target_status_codes_all"] := by
  simp [ALBLogSpec, newfield]

/-! ## List conversions -/

/-- The loop of `unformatlist` succeeds exactly when the conversion of every
item succeeds, and then appends the values in order. -/
theorem unformatlistLoop_ok_iff {F : Type} (fn : unformatterfunc F) :
    ∀ (items : List String) (a vals : List (Value F)),
      unformatlistLoop fn items a = .ok (a ++ vals) ↔
        List.Forall₂ (fun item v => fn item = .ok v) items vals := by
  intro items
  induction items with
  | nil =>
    intro a vals
    simp only [unformatlistLoop, Except.ok.injEq, List.forall₂_nil_left_iff]
    constructor
    · intro h
      have := congrArg List.length h
      simp only [List.length_append] at this
      exact List.length_eq_zero.mp (by omega)
    · intro h; simp [h]
  | cons item items ih =>
    intro a vals
    simp only [unformatlistLoop]
    cases hf : fn item with
    | error err =>
      constructor
      · intro h; cases h
      · intro h
        cases h with
        | cons h1 _ => rw [hf] at h1; cases h1
    | ok v =>
      simp only []
      constructor
      · intro h
        obtain ⟨r, hr⟩ : ∃ r, unformatlistLoop fn items (a ++ [v]) = .ok ((a ++ [v]) ++ r) := by
          have hpre : ∀ (its : List String) (b res : List (Value F)),
              unformatlistLoop fn its b = .ok res → ∃ r, res = b ++ r := by
            intro its
            induction its with
            | nil =>
              intro b res hres
              simp only [unformatlistLoop, Except.ok.injEq] at hres
              exact ⟨[], by simp [hres]⟩
            | cons it its ih2 =>
              intro b res hres
              simp only [unformatlistLoop] at hres
              cases hi : fn it with
              | error e => rw [hi] at hres; cases hres
              | ok x =>
                rw [hi] at hres
                obtain ⟨r, hr⟩ := ih2 _ _ hres
                exact ⟨x :: r, by simp [hr]⟩
          obtain ⟨r, hr⟩ := hpre _ _ _ h
          exact ⟨r, by rw [h, hr]⟩
        have hv : vals = v :: r := by
          rw [hr] at h
          simp only [Except.ok.injEq, List.append_assoc, List.singleton_append] at h
          exact (List.append_cancel_left h).symm
        rw [hv]
        exact List.Forall₂.cons hf ((ih _ _).mp hr)
      · intro h
        cases h with
        | cons h1 h2 =>
          rename_i v1 vs
          rw [hf] at h1
          simp only [Except.ok.injEq] at h1
          subst h1
          have := (ih (a ++ [v]) vs).mpr h2
          simpa using this

/-- The loop of `unformatlist` fails with the error of the first item whose
conversion fails. -/
theorem unformatlistLoop_error {F : Type} (fn : unformatterfunc F) (item err : String)
    (post : List String) :
    ∀ (pre : List String) (a : List (Value F)),
      (∀ x ∈ pre, ∃ v, fn x = .ok v) → fn item = .error err →
      unformatlistLoop fn (pre ++ item :: post) a = .error err := by
  intro pre
  induction pre with
  | nil =>
    intro a _ hf
    simp [unformatlistLoop, hf]
  | cons x xs ih =>
    intro a hpre hf
    obtain ⟨v, hv⟩ := hpre x (by simp)
    simp only [List.cons_append, unformatlistLoop, hv]
    exact ih _ (fun y hy => hpre y (by simp [hy])) hf

/-! ## Decimal integers accepted by `strconv.Atoi` -/

theorem digitsValue_ge (cs : List Char) : ∀ n : Nat, n ≤ digitsValue n cs := by
  induction cs with
  | nil => intro n; exact Nat.le_refl n
  | cons c cs ih =>
    intro n
    have := ih (n * 10 + (c.toNat - 48))
    simp only [digitsValue, List.foldl_cons] at this ⊢
    omega

theorem parseUintLoop_ok_iff (cs : List Char) :
    ∀ (n m : Nat), n ≤ 2 ^ 64 - 1 →
      (parseUintLoop cs n = .ok m ↔
        (∀ c ∈ cs, 48 ≤ c.toNat ∧ c.toNat ≤ 57) ∧ m = digitsValue n cs ∧ m ≤ 2 ^ 64 - 1) := by
  induction cs with
  | nil =>
    intro n m hn
    simp only [parseUintLoop, Except.ok.injEq, List.not_mem_nil, false_implies, implies_true,
      true_and, digitsValue, List.foldl_nil]
    constructor
    · intro h; subst h; exact ⟨rfl, hn⟩
    · intro h; exact h.1.symm
  | cons c cs ih =>
    intro n m hn
    have hge := digitsValue_ge cs (n * 10 + (c.toNat - 48))
    have hval : digitsValue n (c :: cs) = digitsValue (n * 10 + (c.toNat - 48)) cs := rfl
    simp only [parseUintLoop]
    by_cases hd : c.toNat < 48 ∨ 57 < c.toNat
    · simp only [hd, if_true]
      constructor
      · intro h; cases h
      · intro h
        have := h.1 c (by simp)
        omega
    · simp only [hd, if_false]
      by_cases h1 : n ≥ (2 ^ 64 - 1) / 10 + 1
      · simp only [h1, if_true]
        constructor
        · intro h; cases h
        · intro h
          rw [hval] at h
          omega
      · simp only [h1, if_false]
        by_cases h2 : n * 10 + (c.toNat - 48) > 2 ^ 64 - 1
        · simp only [h2, if_true]
          constructor
          · intro h; cases h
          · intro h
            rw [hval] at h
            omega
        · simp only [h2, if_false]
          rw [ih _ m (by omega), hval]
          constructor
          · rintro ⟨ha, hb, hc⟩
            refine ⟨?_, hb, hc⟩
            intro x hx
            rcases List.mem_cons.mp hx with rfl | hx
            · omega
            · exact ha x hx
          · rintro ⟨ha, hb, hc⟩
            exact ⟨fun x hx => ha x (by simp [hx]), hb, hc⟩

theorem parseUint_ok_iff (cs : List Char) (m : Nat) :
    parseUint cs = .ok m ↔
      cs ≠ [] ∧ (∀ c ∈ cs, 48 ≤ c.toNat ∧ c.toNat ≤ 57) ∧ m = digitsValue 0 cs ∧
        m ≤ 2 ^ 64 - 1 := by
  cases cs with
  | nil =>
    simp only [parseUint, ne_eq, not_true_eq_false, false_and, iff_false]
    intro h; cases h
  | cons c cs =>
    simp only [parseUint, ne_eq, not_false_eq_true, true_and, reduceCtorEq]
    exact parseUintLoop_ok_iff (c :: cs) 0 m (by omega)

/-- The integer of the digits `digits` with the sign `neg`, as `ParseInt`
returns it. -/
theorem parseInt_of_digits (c : Char) (cs : List Char) (i : Int) :
    parseInt (c :: cs) = .ok i ↔
      ∃ un : Nat, parseUint (if c = '+' ∨ c = '-' then cs else c :: cs) = .ok un ∧
        (if c = '-' then un ≤ 2 ^ 63 ∧ i = -(un : Int) else un < 2 ^ 63 ∧ i = (un : Int)) := by
  simp only [parseInt]
  cases hp : parseUint (if c = '+' ∨ c = '-' then cs else c :: cs) with
  | error err =>
    cases err <;> simp
  | ok un =>
    by_cases hneg : c = '-'
    · subst hneg
      by_cases h1 : un > 2 ^ 63
      · have h3 : (9223372036854775808 : Nat) < un := by simpa using h1
        have h4 : ¬ un ≤ (9223372036854775808 : Nat) := by omega
        simp [h3, h4]
      · have h2 : un ≤ 2 ^ 63 := by omega
        simp only [decide_True, Bool.true_eq_false, false_and, if_false, true_and, h1,
          if_true, Except.ok.injEq, exists_eq_left', h2]
        exact eq_comm
    · by_cases h1 : un ≥ 2 ^ 63
      · have h3 : (9223372036854775808 : Nat) ≤ un := by simpa using h1
        have h4 : ¬ un < (9223372036854775808 : Nat) := by omega
        simp [hneg, h3, h4]
      · have h2 : un < 2 ^ 63 := by omega
        simp only [hneg, decide_False, true_and, h1, if_false, Bool.false_eq_true, false_and,
          Except.ok.injEq, exists_eq_left', h2]
        exact eq_comm

/-- The strings accepted by `strconv.ParseInt(s, 10, 0)`, hence by
`strconv.Atoi`, are the decimal integers in the range of `int`, with their
values. -/
theorem parseInt_ok_iff (s : List Char) (i : Int) :
    parseInt s = .ok i ↔ isDecimalInt s i := by
  cases s with
  | nil =>
    constructor
    · intro h; cases h
    · rintro ⟨sign, digits, hs, _, hne, _⟩
      have : digits = [] := (List.append_eq_nil.mp hs.symm).2
      exact absurd this hne
  | cons c cs =>
    rw [parseInt_of_digits]
    constructor
    · rintro ⟨un, hp, hr⟩
      by_cases hplus : c = '+'
      · subst hplus
        simp only [true_or, if_true, Char.reduceEq, if_false] at hp hr
        obtain ⟨hne, hd, hv, _⟩ := (parseUint_ok_iff cs un).mp hp
        refine ⟨['+'], cs, rfl, Or.inr (Or.inl rfl), hne, hd, ?_, ?_, ?_⟩
        · simp [hr.2, hv]
        · omega
        · omega
      · by_cases hminus : c = '-'
        · subst hminus
          simp only [or_true, if_true] at hp hr
          obtain ⟨hne, hd, hv, _⟩ := (parseUint_ok_iff cs un).mp hp
          refine ⟨['-'], cs, rfl, Or.inr (Or.inr rfl), hne, hd, ?_, ?_, ?_⟩
          · simp [hr.2, hv]
          · omega
          · omega
        · simp only [hplus, hminus, or_self, if_false] at hp hr
          obtain ⟨hne, hd, hv, _⟩ := (parseUint_ok_iff (c :: cs) un).mp hp
          refine ⟨[], c :: cs, rfl, Or.inl rfl, hne, hd, ?_, ?_, ?_⟩
          · simp [hr.2, hv]
          · omega
          · omega
    · rintro ⟨sign, digits, hs, hsign, hne, hd, hi, hlo, hhi⟩
      rcases hsign with h | h | h
      · subst h
        simp only [List.nil_append] at hs
        subst hs
        have hc := hd c (by simp)
        have hplus : c ≠ '+' := by
          intro h; subst h
          exact absurd hc.1 (by decide)
        have hminus : c ≠ '-' := by
          intro h; subst h
          exact absurd hc.1 (by decide)
        simp only [List.nil_eq, reduceCtorEq, if_false] at hi
        refine ⟨digitsValue 0 (c :: cs), ?_, ?_⟩
        · simp only [hplus, hminus, or_self, if_false]
          exact (parseUint_ok_iff _ _).mpr ⟨hne, hd, rfl, by omega⟩
        · simp only [hminus, if_false]
          exact ⟨by omega, hi⟩
      · subst h
        simp only [List.singleton_append, List.cons.injEq] at hs
        obtain ⟨hc, hcs⟩ := hs
        subst hc hcs
        simp only [List.cons.injEq, Char.reduceEq, and_true, if_false] at hi
        refine ⟨digitsValue 0 cs, ?_, ?_⟩
        · simp only [true_or, if_true]
          exact (parseUint_ok_iff _ _).mpr ⟨hne, hd, rfl, by omega⟩
        · simp only [Char.reduceEq, if_false]
          exact ⟨by omega, hi⟩
      · subst h
        simp only [List.singleton_append, List.cons.injEq] at hs
        obtain ⟨hc, hcs⟩ := hs
        subst hc hcs
        simp only [if_true] at hi
        refine ⟨digitsValue 0 cs, ?_, ?_⟩
        · simp only [or_true, if_true]
          exact (parseUint_ok_iff _ _).mpr ⟨hne, hd, rfl, by omega⟩
        · simp only [if_true]
          exact ⟨by omega, hi⟩

/-- The conversion `unformatint` with `strconv.Atoi`: null for the empty
string and `-`, the integer for a decimal integer, an error otherwise. -/
theorem unformatint_ok_iff {F : Type} (pf : String → Except String F) (quote : String → String)
    (marshal : GoMap (Value F) → Except String String) (item : String) (v : Value F) :
    unformatint (goLib pf quote marshal) item = .ok v ↔
      ((item = "" ∨ item = "-") ∧ v = .null) ∨
        (item ≠ "" ∧ item ≠ "-" ∧ ∃ i, isDecimalInt item.data i ∧ v = .int i) := by
  unfold unformatint
  by_cases h : item = "" ∨ item = "-"
  · simp only [h, if_true, Except.ok.injEq]
    constructor
    · intro hv; exact Or.inl ⟨trivial, hv.symm⟩
    · rintro (⟨_, hv⟩ | ⟨h1, h2, _⟩)
      · exact hv.symm
      · exact absurd h (fun h => h.elim h1 h2)
  · have h1 : item ≠ "" := fun e => h (Or.inl e)
    have h2 : item ≠ "-" := fun e => h (Or.inr e)
    simp only [h, if_false, goLib, strconvAtoi, false_and, false_or, h1, h2, ne_eq,
      not_false_eq_true, true_and]
    cases hp : parseInt item.data with
    | error err =>
      simp only [false_iff, not_exists, not_and, reduceCtorEq]
      intro i hi
      rw [(parseInt_ok_iff _ _).mpr hi] at hp
      cases hp
    | ok i =>
      simp only [Except.ok.injEq]
      constructor
      · intro hv
        exact ⟨i, (parseInt_ok_iff _ _).mp hp, hv.symm⟩
      · rintro ⟨j, hj, hv⟩
        rw [(parseInt_ok_iff _ _).mpr hj] at hp
        simp only [Except.ok.injEq] at hp
        rw [hv, hp]

theorem unformatint_error {F : Type} (pf : String → Except String F) (quote : String → String)
    (marshal : GoMap (Value F) → Except String String) (item : String)
    (h1 : item ≠ "") (h2 : item ≠ "-") (hnot : ∀ i, ¬ isDecimalInt item.data i) :
    ∃ e, parseInt item.data = .error e ∧
      unformatint (goLib pf quote marshal) item =
        .error ("strconv.Atoi: parsing " ++ quote item ++ ": " ++ e.text) := by
  cases hp : parseInt item.data with
  | ok i => exact absurd ((parseInt_ok_iff _ _).mp hp) (hnot i)
  | error e =>
    refine ⟨e, rfl, ?_⟩
    have h : ¬ (item = "" ∨ item = "-") := fun h => h.elim h1 h2
    simp [unformatint, h, goLib, strconvAtoi, hp]

theorem exists_forall₂_iff {α β : Type} (R : α → β → Prop) :
    ∀ xs : List α, (∃ ys, List.Forall₂ R xs ys) ↔ ∀ x ∈ xs, ∃ y, R x y := by
  intro xs
  induction xs with
  | nil => simp
  | cons x xs ih =>
    constructor
    · rintro ⟨ys, h⟩
      cases h with
      | cons h1 h2 =>
        intro z hz
        rcases List.mem_cons.mp hz with rfl | hz
        · exact ⟨_, h1⟩
        · exact (ih.mp ⟨_, h2⟩) z hz
    · intro h
      obtain ⟨y, hy⟩ := h x (by simp)
      obtain ⟨ys, hys⟩ := ih.mpr (fun z hz => h z (by simp [hz]))
      exact ⟨y :: ys, List.Forall₂.cons hy hys⟩

theorem unformatstatuscodelist_eq {F : Type} (lib : StdLib F) (s : String)
    (hs1 : s ≠ "-") (hs2 : s ≠ "") :
    unformatstatuscodelist lib s =
      listValue (unformatlistLoop (unformatint lib) (lib.split s " ") []) := by
  have h : ¬ (s = "-" ∨ s = "") := fun h => h.elim hs1 hs2
  simp [unformatstatuscodelist, unformatlist, h]

/-- C13, as stated, fails: an item that is empty (two consecutive spaces) or
`-` is no decimal integer, yet the conversion succeeds and the result holds
null at its place. -/
theorem C13_empty_and_dash_items_give_null :
    stringsSplit "200  404" " " = ["200", "", "404"] ∧
    (∀ i, ¬ isDecimalInt "".data i) ∧ (∀ i, ¬ isDecimalInt "-".data i) ∧
    unformatstatuscodelist sampleGoLib "200  404" = .ok (.list [.int 200, .null, .int 404]) ∧
    unformatstatuscodelist sampleGoLib "200 - 404" = .ok (.list [.int 200, .null, .int 404]) := by
  refine ⟨rfl, ?_, ?_, rfl, rfl⟩
  · intro i h
    have := (parseInt_ok_iff _ _).mpr h
    cases this
  · intro i h
    have := (parseInt_ok_iff _ _).mpr h
    cases this

/-- C13, amended: for every string `s` other than `-` and the empty string,
`unformatstatuscodelist` succeeds exactly when every space-separated item
of `s` is empty, `-` or a decimal integer in the range of `int`; it then
returns, in order, null for each empty or `-` item and the integer of each
other item; and it fails with the error of `strconv.Atoi` on the first item
that is none of these. -/
theorem C13_status_code_list {F : Type} (pf : String → Except String F)
    (quote : String → String) (marshal : GoMap (Value F) → Except String String) (s : String)
    (hs1 : s ≠ "-") (hs2 : s ≠ "") :
    (∀ vals, unformatstatuscodelist (goLib pf quote marshal) s = .ok (.list vals) ↔
      List.Forall₂
        (fun item v => ((item = "" ∨ item = "-") ∧ v = .null) ∨
          (item ≠ "" ∧ item ≠ "-" ∧ ∃ i, isDecimalInt item.data i ∧ v = .int i))
        (stringsSplit s " ") vals) ∧
    ((∃ v, unformatstatuscodelist (goLib pf quote marshal) s = .ok v) ↔
      ∀ item ∈ stringsSplit s " ",
        item = "" ∨ item = "-" ∨ ∃ i, isDecimalInt item.data i) ∧
    (∀ pre item post, stringsSplit s " " = pre ++ item :: post →
      (∀ x ∈ pre, x = "" ∨ x = "-" ∨ ∃ i, isDecimalInt x.data i) →
      item ≠ "" → item ≠ "-" → (∀ i, ¬ isDecimalInt item.data i) →
      ∃ e, parseInt item.data = .error e ∧
        unformatstatuscodelist (goLib pf quote marshal) s =
          .error ("strconv.Atoi: parsing " ++ quote item ++ ": " ++ e.text)) := by
  have heq := unformatstatuscodelist_eq (goLib pf quote marshal) s hs1 hs2
  have hsplit : (goLib pf quote marshal).split s " " = stringsSplit s " " := rfl
  rw [hsplit] at heq
  have h1 : ∀ vals, unformatstatuscodelist (goLib pf quote marshal) s = .ok (.list vals) ↔
      List.Forall₂
        (fun item v => ((item = "" ∨ item = "-") ∧ v = .null) ∨
          (item ≠ "" ∧ item ≠ "-" ∧ ∃ i, isDecimalInt item.data i ∧ v = .int i))
        (stringsSplit s " ") vals := by
    intro vals
    rw [heq]
    have hloop := unformatlistLoop_ok_iff (unformatint (goLib pf quote marshal))
      (stringsSplit s " ") [] vals
    simp only [List.nil_append] at hloop
    have hrel : (fun item v => unformatint (goLib pf quote marshal) item = .ok v) =
        (fun item v => ((item = "" ∨ item = "-") ∧ v = .null) ∨
          (item ≠ "" ∧ item ≠ "-" ∧ ∃ i, isDecimalInt item.data i ∧ v = .int i)) := by
      funext item v
      exact propext (unformatint_ok_iff pf quote marshal item v)
    rw [← hrel, ← hloop]
    cases unformatlistLoop (unformatint (goLib pf quote marshal)) (stringsSplit s " ") [] with
    | error err => simp [listValue]
    | ok a => simp [listValue]
  refine ⟨h1, ?_, ?_⟩
  · constructor
    · rintro ⟨v, hv⟩
      have hlist : ∃ vals, v = .list vals := by
        rw [heq] at hv
        revert hv
        cases unformatlistLoop (unformatint (goLib pf quote marshal)) (stringsSplit s " ") []
          with
        | error err => intro hv; cases hv
        | ok a => intro hv; exact ⟨a, by simp only [listValue, Except.ok.injEq] at hv; exact hv.symm⟩
      obtain ⟨vals, rfl⟩ := hlist
      have := (exists_forall₂_iff _ _).mp ⟨vals, (h1 vals).mp hv⟩
      intro item hitem
      rcases this item hitem with ⟨y, ⟨hy, _⟩ | ⟨_, _, i, hi, _⟩⟩
      · rcases hy with hy | hy
        · exact Or.inl hy
        · exact Or.inr (Or.inl hy)
      · exact Or.inr (Or.inr ⟨i, hi⟩)
    · intro hall
      obtain ⟨vals, hvals⟩ := (exists_forall₂_iff
        (fun item (v : Value F) => ((item = "" ∨ item = "-") ∧ v = .null) ∨
          (item ≠ "" ∧ item ≠ "-" ∧ ∃ i, isDecimalInt item.data i ∧ v = .int i))
        (stringsSplit s " ")).mpr (by
          intro item hitem
          by_cases hab : item = "" ∨ item = "-"
          · exact ⟨.null, Or.inl ⟨hab, rfl⟩⟩
          · rcases hall item hitem with h | h | ⟨i, hi⟩
            · exact absurd (Or.inl h) hab
            · exact absurd (Or.inr h) hab
            · exact ⟨.int i, Or.inr ⟨fun e => hab (Or.inl e), fun e => hab (Or.inr e), i, hi,
                rfl⟩⟩)
      exact ⟨_, (h1 vals).mpr hvals⟩
  · intro pre item post hsp hpre hn1 hn2 hnot
    obtain ⟨e, he, herr⟩ := unformatint_error pf quote marshal item hn1 hn2 hnot
    refine ⟨e, he, ?_⟩
    rw [heq, hsp, unformatlistLoop_error (unformatint (goLib pf quote marshal)) item _ post pre []
      ?_ herr]
    · rfl
    · intro x hx
      by_cases hab : x = "" ∨ x = "-"
      · exact ⟨.null, (unformatint_ok_iff pf quote marshal x _).mpr (Or.inl ⟨hab, rfl⟩)⟩
      · rcases hpre x hx with h | h | ⟨i, hi⟩
        · exact absurd (Or.inl h) hab
        · exact absurd (Or.inr h) hab
        · exact ⟨.int i, (unformatint_ok_iff pf quote marshal x _).mpr
            (Or.inr ⟨fun e => hab (Or.inl e), fun e => hab (Or.inr e), i, hi, rfl⟩)⟩

/-- The amended C13 on the string `200 - 404`. -/
theorem C13_status_code_list_witness :
    ("200 - 404" ≠ "-" ∧ "200 - 404" ≠ "") ∧
    List.Forall₂
      (fun item (v : Value Nat) => ((item = "" ∨ item = "-") ∧ v = .null) ∨
        (item ≠ "" ∧ item ≠ "-" ∧ ∃ i, isDecimalInt item.data i ∧ v = .int i))
      (stringsSplit "200 - 404" " ") [.int 200, .null, .int 404] :=
  ⟨⟨by decide, by decide⟩,
    ((C13_status_code_list (fun _ => (.error "invalid syntax" : Except String Nat))
      (fun s => "\"" ++ s ++ "\"")
      (fun m => .ok ("\x7b" ++ ",".intercalate m.keys ++ "\x7d")) "200 - 404"
      (by decide) (by decide)).1 [.int 200, .null, .int 404]).mp rfl⟩

/-! ## Host and port -/

theorem firstIndex_eq_none (c : Char) : ∀ l : List Char, c ∉ l → firstIndex c l = none := by
  intro l
  induction l with
  | nil => intro _; rfl
  | cons x xs ih =>
    intro h
    have hx : x ≠ c := fun e => h (by simp [e])
    have hxs : c ∉ xs := fun e => h (by simp [e])
    simp [firstIndex, hx, ih hxs]

theorem firstIndex_isSome (c : Char) : ∀ l : List Char, c ∈ l → (firstIndex c l).isSome = true := by
  intro l
  induction l with
  | nil => intro h; simp at h
  | cons x xs ih =>
    intro h
    by_cases hx : x = c
    · simp [firstIndex, hx]
    · have hxs : c ∈ xs := by
        rcases List.mem_cons.mp h with e | e
        · exact absurd e.symm hx
        · exact e
      have := ih hxs
      simp only [firstIndex, hx, if_false]
      cases hfi : firstIndex c xs with
      | none => rw [hfi] at this; cases this
      | some k => rfl

theorem lastIndex_eq_none (c : Char) : ∀ l : List Char, c ∉ l → lastIndex c l = none := by
  intro l
  induction l with
  | nil => intro _; rfl
  | cons x xs ih =>
    intro h
    have hx : x ≠ c := fun e => h (by simp [e])
    have hxs : c ∉ xs := fun e => h (by simp [e])
    simp [lastIndex, hx, ih hxs]

theorem lastIndex_append_cons (c : Char) (p : List Char) (hp : c ∉ p) :
    ∀ h : List Char, lastIndex c (h ++ c :: p) = some h.length := by
  intro h
  induction h with
  | nil => simp [lastIndex, lastIndex_eq_none c p hp]
  | cons x xs ih => simp [lastIndex, ih]

/-- A host without colon and bracket and a port without colon and bracket,
joined by a colon, are split again by `net.SplitHostPort`. -/
theorem netSplitHostPort_join (h p : String)
    (hh : ∀ c ∈ h.data, c ≠ ':' ∧ c ≠ '[' ∧ c ≠ ']')
    (hp : ∀ c ∈ p.data, c ≠ ':' ∧ c ≠ '[' ∧ c ≠ ']') :
    netSplitHostPort (h ++ ":" ++ p) = .ok (h, p) := by
  have hdata : (h ++ ":" ++ p).data = h.data ++ ':' :: p.data := by
    simp [String.data_append]
  have hnotin : ∀ (c : Char), (c = ':' ∨ c = '[' ∨ c = ']') → c ∉ h.data ∧ c ∉ p.data := by
    intro c hc
    constructor
    · intro hmem
      obtain ⟨h1, h2, h3⟩ := hh c hmem
      rcases hc with e | e | e
      · exact h1 e
      · exact h2 e
      · exact h3 e
    · intro hmem
      obtain ⟨h1, h2, h3⟩ := hp c hmem
      rcases hc with e | e | e
      · exact h1 e
      · exact h2 e
      · exact h3 e
  have hlast : lastIndex ':' (h.data ++ ':' :: p.data) = some h.data.length :=
    lastIndex_append_cons ':' p.data (hnotin ':' (Or.inl rfl)).2 h.data
  have hhead : (h.data ++ ':' :: p.data).head? ≠ some '[' := by
    cases hd : h.data with
    | nil => simp
    | cons x xs =>
      simp only [List.cons_append, List.head?_cons, ne_eq, Option.some.injEq]
      intro e
      exact (hnotin '[' (Or.inr (Or.inl rfl))).1 (by rw [hd, e]; simp)
  have htake : (h.data ++ ':' :: p.data).take h.data.length = h.data := by simp
  have hdrop : (h.data ++ ':' :: p.data).drop (h.data.length + 1) = p.data := by
    rw [← List.drop_drop]
    simp
  have hcolon : firstIndex ':' h.data = none :=
    firstIndex_eq_none _ _ (hnotin ':' (Or.inl rfl)).1
  have hopen : firstIndex '[' (h.data ++ ':' :: p.data) = none := by
    apply firstIndex_eq_none
    simp only [List.mem_append, List.mem_cons, Char.reduceEq, false_or, not_or]
    exact hnotin '[' (Or.inr (Or.inl rfl))
  have hclose : firstIndex ']' (h.data ++ ':' :: p.data) = none := by
    apply firstIndex_eq_none
    simp only [List.mem_append, List.mem_cons, Char.reduceEq, false_or, not_or]
    exact hnotin ']' (Or.inr (Or.inr rfl))
  unfold netSplitHostPort
  simp only [hdata, hlast, hhead, if_false, htake, hcolon, Option.isSome_none,
    Bool.false_eq_true, List.drop_zero, hopen, hclose, hdrop]

/-- A string without colon has no port. -/
theorem netSplitHostPort_no_colon (s : String) (hs : ':' ∉ s.data) :
    netSplitHostPort s = .error (addrError s "missing port in address") := by
  unfold netSplitHostPort
  simp only [lastIndex_eq_none ':' s.data hs]

/-- C14, as stated, fails for a port that contains a square bracket: the
host `10.0.0.1` has neither colon nor bracket and the port `[443` has no
colon, yet the conversion of `10.0.0.1:[443` is an error. -/
theorem C14_port_with_bracket_is_rejected :
    (∀ c ∈ "10.0.0.1".data, c ≠ ':' ∧ c ≠ '[' ∧ c ≠ ']') ∧
    (∀ c ∈ "[443".data, c ≠ ':') ∧
    unformathostport sampleGoLib ("10.0.0.1" ++ ":" ++ "[443") =
      .error ("error parsing host:port field%!(EXTRA *net.AddrError=" ++
        "address 10.0.0.1:[443: unexpected '[' in address)") :=
  ⟨by decide, by decide, rfl⟩

/-- C14, amended: for every host without colon and square bracket and every
port without colon and square bracket, `unformathostport` on the host, a
colon and the port succeeds and returns the mapping with exactly the two
entries `host` and `port`, both strings; and on every string without colon
it returns an error. -/
theorem C14_host_port_conversion {F : Type} (pf : String → Except String F)
    (quote : String → String) (marshal : GoMap (Value F) → Except String String) :
    (∀ h p : String, (∀ c ∈ h.data, c ≠ ':' ∧ c ≠ '[' ∧ c ≠ ']') →
      (∀ c ∈ p.data, c ≠ ':' ∧ c ≠ '[' ∧ c ≠ ']') →
      unformathostport (goLib pf quote marshal) (h ++ ":" ++ p) =
        .ok (.strmap [("host", h), ("port", p)])) ∧
    (∀ s : String, ':' ∉ s.data →
      unformathostport (goLib pf quote marshal) s =
        .error ("error parsing host:port field%!(EXTRA *net.AddrError=" ++
          addrError s "missing port in address" ++ ")")) := by
  constructor
  · intro h p hh hp
    simp [unformathostport, goLib, netSplitHostPort_join h p hh hp, GoMap.set]
  · intro s hs
    simp [unformathostport, goLib, netSplitHostPort_no_colon s hs]

/-- The amended C14 on `10.0.0.1:443` and on `localhost`. -/
theorem C14_host_port_conversion_witness :
    unformathostport sampleGoLib "10.0.0.1:443" =
      .ok (.strmap [("host", "10.0.0.1"), ("port", "443")]) ∧
    unformathostport sampleGoLib "localhost" =
      .error ("error parsing host:port field%!(EXTRA *net.AddrError=" ++
        "address localhost: missing port in address)") :=
  ⟨(C14_host_port_conversion (fun _ => (.error "invalid syntax" : Except String Nat))
      (fun s => "\"" ++ s ++ "\"")
      (fun m => .ok ("\x7b" ++ ",".intercalate m.keys ++ "\x7d"))).1 "10.0.0.1" "443"
      (by decide) (by decide),
    (C14_host_port_conversion (fun _ => (.error "invalid syntax" : Except String Nat))
      (fun s => "\"" ++ s ++ "\"")
      (fun m => .ok ("\x7b" ++ ",".intercalate m.keys ++ "\x7d"))).2 "localhost" (by decide)⟩

/-! ## Splitting at one rune -/

theorem stringsSplitLoop_singleton (c : Char) :
    ∀ (l cur : List Char), stringsSplitLoop [c] 0 l cur = splitRunes c l cur := by
  intro l
  induction l with
  | nil => intro cur; rfl
  | cons x xs ih =>
    intro cur
    by_cases hx : x = c
    · subst hx
      simp [stringsSplitLoop, splitRunes, List.isPrefixOf, ih]
    · have hx1 : ¬ c = x := fun e => hx e.symm
      simp [stringsSplitLoop, splitRunes, List.isPrefixOf, ih, hx, hx1]

theorem stringsSplit_singleton (s : String) (c : Char) :
    stringsSplit s (String.singleton c) = splitRunes c s.data [] := by
  have hne : String.singleton c ≠ "" := by
    intro h
    have := congrArg String.data h
    simp [String.singleton] at this
  simp only [stringsSplit, hne, if_false]
  exact stringsSplitLoop_singleton c s.data []

theorem splitRunes_length (c : Char) :
    ∀ (l cur : List Char), (splitRunes c l cur).length = l.count c + 1 := by
  intro l
  induction l with
  | nil => intro cur; rfl
  | cons x xs ih =>
    intro cur
    by_cases hx : x = c
    · subst hx
      simp [splitRunes, ih]
    · simp [splitRunes, hx, ih, List.count_cons]

theorem splitRunes_pieces (c : Char) :
    ∀ (l cur : List Char), c ∉ cur → ∀ piece ∈ splitRunes c l cur, c ∉ piece.data := by
  intro l
  induction l with
  | nil =>
    intro cur hcur piece hp
    simp only [splitRunes, List.mem_singleton] at hp
    rw [hp]; exact hcur
  | cons x xs ih =>
    intro cur hcur piece hp
    by_cases hx : x = c
    · subst hx
      simp only [splitRunes, if_true, List.mem_cons] at hp
      rcases hp with hp | hp
      · rw [hp]; exact hcur
      · exact ih [] (by simp) piece hp
    · simp only [splitRunes, hx, if_false] at hp
      refine ih (cur ++ [x]) ?_ piece hp
      simp only [List.mem_append, List.mem_singleton, not_or]
      exact ⟨hcur, fun e => hx e.symm⟩

theorem intercalate_go_data (sep : String) :
    ∀ (pieces : List String) (acc : String),
      (String.intercalate.go acc sep pieces).data =
        acc.data ++ (pieces.map (fun p => sep.data ++ p.data)).flatten := by
  intro pieces
  induction pieces with
  | nil => intro acc; simp [String.intercalate.go]
  | cons p ps ih =>
    intro acc
    simp [String.intercalate.go, ih, String.data_append]

/-- Joining the pieces of a split with the separator gives the string back. -/
theorem splitRunes_join (c : Char) :
    ∀ (l cur : List Char),
      ((String.singleton c).intercalate (splitRunes c l cur)).data = cur ++ l := by
  intro l
  induction l with
  | nil => intro cur; simp [splitRunes, String.intercalate, String.intercalate.go]
  | cons x xs ih =>
    intro cur
    by_cases hx : x = c
    · subst hx
      have h := ih []
      simp only [splitRunes, if_true]
      cases hsp : splitRunes x xs [] with
      | nil =>
        have := splitRunes_length x xs []
        rw [hsp] at this
        simp at this
      | cons q qs =>
        rw [hsp] at h
        simp only [String.intercalate, intercalate_go_data, List.nil_append] at h
        simp only [String.intercalate, intercalate_go_data, List.map_cons, List.flatten_cons]
        rw [List.append_assoc, h]
        simp [String.singleton]
    · simp only [splitRunes, hx, if_false]
      rw [ih (cur ++ [x])]
      simp

theorem unformatlistLoop_unformatstring {F : Type} :
    ∀ (items : List String) (a : List (Value F)),
      unformatlistLoop unformatstring items a = .ok (a ++ items.map Value.str) := by
  intro items
  induction items with
  | nil => intro a; simp [unformatlistLoop]
  | cons x xs ih =>
    intro a
    simp [unformatlistLoop, unformatstring, ih]

/-- C15: `unformatcsv` never fails; it returns the empty list for `-` and for
the empty string, and for every other string the list of its pieces between
commas, in order and unchanged: the pieces contain no comma, there is one
more piece than there are commas, and joining them with commas gives the
string back. -/
theorem C15_comma_list {F : Type} (pf : String → Except String F) (quote : String → String)
    (marshal : GoMap (Value F) → Except String String) :
    unformatcsv (goLib pf quote marshal) "-" = .ok (.list []) ∧
    unformatcsv (goLib pf quote marshal) "" = .ok (.list []) ∧
    (∀ s : String, ∃ v, unformatcsv (goLib pf quote marshal) s = .ok v) ∧
    (∀ s : String, s ≠ "-" → s ≠ "" →
      unformatcsv (goLib pf quote marshal) s = .ok (.list ((stringsSplit s ",").map Value.str)) ∧
      (stringsSplit s ",").length = s.data.count ',' + 1 ∧
      ",".intercalate (stringsSplit s ",") = s ∧
      ∀ piece ∈ stringsSplit s ",", ',' ∉ piece.data) := by
  have hcomma : "," = String.singleton ',' := rfl
  have hmain : ∀ s : String, s ≠ "-" → s ≠ "" →
      unformatcsv (goLib pf quote marshal) s =
        .ok (.list ((stringsSplit s ",").map Value.str)) := by
    intro s h1 h2
    have h : ¬ (s = "-" ∨ s = "") := fun h => h.elim h1 h2
    simp [unformatcsv, unformatlist, h, goLib, unformatlistLoop_unformatstring, listValue]
  refine ⟨rfl, rfl, ?_, ?_⟩
  · intro s
    by_cases h : s = "-" ∨ s = ""
    · exact ⟨.list [], by simp [unformatcsv, unformatlist, h, listValue]⟩
    · exact ⟨_, hmain s (fun e => h (Or.inl e)) (fun e => h (Or.inr e))⟩
  · intro s h1 h2
    refine ⟨hmain s h1 h2, ?_, ?_, ?_⟩
    · rw [hcomma, stringsSplit_singleton]
      exact splitRunes_length ',' s.data []
    · rw [hcomma, stringsSplit_singleton]
      apply String.ext
      simpa using splitRunes_join ',' s.data []
    · rw [hcomma, stringsSplit_singleton]
      exact splitRunes_pieces ',' s.data [] (by simp)

/-- C15 on the string `a,b,c`. -/
theorem C15_comma_list_witness :
    ("a,b,c" ≠ "-" ∧ "a,b,c" ≠ "") ∧
    unformatcsv sampleGoLib "a,b,c" = .ok (.list [.str "a", .str "b", .str "c"]) :=
  ⟨⟨by decide, by decide⟩,
    ((C15_comma_list (fun _ => (.error "invalid syntax" : Except String Nat))
      (fun s => "\"" ++ s ++ "\"")
      (fun m => .ok ("\x7b" ++ ",".intercalate m.keys ++ "\x7d"))).2.2.2 "a,b,c"
      (by decide) (by decide)).1⟩

/-! ## Keys of the schema of the program -/

theorem ALBLogSpec_key_not_unknown {F : Type} (lib : StdLib F) (name : String)
    (hname : name ∈ (ALBLogSpec lib).map field.key) (x : String) :
    name ≠ "unknown_" ++ x := by
  rw [ALBLogSpec_keys] at hname
  have hall : ∀ k ∈ ["type", "timestamp", "elb", "client", "target",
      "request_processing_time_seconds", "target_processing_time_seconds",
      "response_processing_time", "elb_status_code", "target_status_code", "received_bytes",
      "sent_bytes", "request", "user_agent", "ssl_cipher", "ssl_protocol", "target_group_arn",
      "trace_id", "domain_name", "chosen_cert_arn", "matched_rule_priority",
      "request_creation_time", "actions_executed", "redirect_url", "error_reason",
      "targets_all", "target_status_codes_all"],
      k.data.take 8 ≠ "unknown_".data := by decide
  intro h
  apply hall name hname
  rw [h, String.data_append]
  exact List.take_left' rfl

theorem ALBLogSpec_keyAt_injective {F : Type} (lib : StdLib F) (i j : Nat) (hij : i ≠ j) :
    (NewFieldEncoder (ALBLogSpec lib)).keyAt i ≠ (NewFieldEncoder (ALBLogSpec lib)).keyAt j := by
  have hlen : (NewFieldEncoder (ALBLogSpec lib)).fields.length = 27 := rfl
  have hmem : ∀ p (hp : p < (NewFieldEncoder (ALBLogSpec lib)).fields.length),
      ((NewFieldEncoder (ALBLogSpec lib)).fields.get ⟨p, hp⟩).key ∈
        (ALBLogSpec lib).map field.key := by
    intro p hp
    exact List.mem_map.mpr ⟨_, List.get_mem _ _ _, rfl⟩
  have hlt : ∀ p, p < 27 → p < (NewFieldEncoder (ALBLogSpec lib)).fields.length := by
    intro p hp; rw [hlen]; exact hp
  have hge : ∀ p, ¬ p < 27 → (NewFieldEncoder (ALBLogSpec lib)).fields.length ≤ p := by
    intro p hp; rw [hlen]; omega
  by_cases hi : i < 27
  · by_cases hj : j < 27
    · exact FieldEncoder.keyAt_ne_of_nodup _ (ALBLogSpec_keys_nodup lib) i j (hlt i hi)
        (hlt j hj) hij
    · rw [FieldEncoder.keyAt_schema _ i (hlt i hi), FieldEncoder.keyAt_overflow _ j (hge j hj)]
      exact ALBLogSpec_key_not_unknown lib _ (hmem i (hlt i hi)) _
  · by_cases hj : j < 27
    · rw [FieldEncoder.keyAt_schema _ j (hlt j hj), FieldEncoder.keyAt_overflow _ i (hge i hi)]
      exact fun h => ALBLogSpec_key_not_unknown lib _ (hmem j (hlt j hj)) _ h.symm
    · rw [FieldEncoder.keyAt_overflow _ i (hge i hi), FieldEncoder.keyAt_overflow _ j (hge j hj)]
      exact fun h => hij (unknown_key_injective i j h)

/-- C17: the names of the schema of the program are pairwise distinct and
none is `unknown_` followed by a number, so the keys of all positions are
pairwise distinct; hence whenever `EncodeTo` succeeds on a line of `N` raw
fields, the record it serialises has exactly `N` entries, and the entry of
the key of each position holds the value computed for that position. -/
theorem C17_no_key_collision {F : Type} (lib : StdLib F) (v : List String) (w w1 : Writer)
    (hok : (NewFieldEncoder (ALBLogSpec lib)).EncodeTo lib w v = (w1, none)) :
    ((ALBLogSpec lib).map field.key).Nodup ∧
    (∀ n : Nat, "unknown_" ++ Nat.repr n ∉ (ALBLogSpec lib).map field.key) ∧
    (∀ i j : Nat, i ≠ j →
      (NewFieldEncoder (ALBLogSpec lib)).keyAt i ≠ (NewFieldEncoder (ALBLogSpec lib)).keyAt j) ∧
    ∃ m enc, (NewFieldEncoder (ALBLogSpec lib)).encodeRecord v = .ok m ∧
      lib.marshal m = .ok enc ∧ (w.Write enc).2 = none ∧
      w1 = ((w.Write enc).1.Write "\n").1 ∧
      m.length = v.length ∧
      ∀ (i : Nat) (hi : i < v.length), ∃ value,
        (NewFieldEncoder (ALBLogSpec lib)).encodeField i (v.get ⟨i, hi⟩) =
          .ok ((NewFieldEncoder (ALBLogSpec lib)).keyAt i, value) ∧
        m.get? ((NewFieldEncoder (ALBLogSpec lib)).keyAt i) = some value := by
  obtain ⟨m, enc, hm, henc, hwok, hw⟩ := FieldEncoder.EncodeTo_ok lib _ w w1 v hok
  refine ⟨ALBLogSpec_keys_nodup lib, ?_, ALBLogSpec_keyAt_injective lib, m, enc, hm, henc,
    hwok, hw, ?_, ?_⟩
  · intro n hmem
    exact ALBLogSpec_key_not_unknown lib _ hmem _ rfl
  · have := FieldEncoder.encodeLoop_length _ v 0 [] m hm (by simp [GoMap.keys]) (by
      intro p q hpq _
      simp only [Nat.zero_add]
      exact ALBLogSpec_keyAt_injective lib p q (by omega))
    simpa using this
  · intro i hi
    have := FieldEncoder.encodeLoop_get?_at _ v 0 [] m i hi hm (by
      intro q hq _
      simp only [Nat.zero_add]
      exact ALBLogSpec_keyAt_injective lib q i (by omega))
    simpa using this

/-- C17 on a line of 29 raw fields, two of them beyond the schema. -/
theorem C17_no_key_collision_witness :
    ((NewFieldEncoder (ALBLogSpec sampleGoLib)).EncodeTo sampleGoLib Writer.buffer
        ("h2" :: List.replicate 28 "-")).2 = none ∧
    ∃ m, (NewFieldEncoder (ALBLogSpec sampleGoLib)).encodeRecord
        ("h2" :: List.replicate 28 "-") = .ok m ∧ m.length = 29 :=
  ⟨rfl,
    (C17_no_key_collision sampleGoLib ("h2" :: List.replicate 28 "-") Writer.buffer
      ((NewFieldEncoder (ALBLogSpec sampleGoLib)).EncodeTo sampleGoLib Writer.buffer
        ("h2" :: List.replicate 28 "-")).1 (Prod.ext rfl rfl)).2.2.2.elim
      fun m h => h.elim fun _ h => ⟨m, h.1, h.2.2.2.2.1⟩⟩

/-! ## Plain lines and termination -/

/-- Outside quotes, on runes other than quote, backslash and newline, the
completed fields and the buffer are the pieces of a split at the spaces. -/
theorem feed_split {F : Type} (lib : StdLib F) (e : FieldEncoder F) :
    ∀ (l : List Char) (st : LoopState), st.escaping = false → st.quoting = false →
      (∀ c ∈ l, c ≠ '"' ∧ c ≠ '\\' ∧ c ≠ '\n') →
      ∃ st1, feed lib e st l = .inl st1 ∧
        st1.fields ++ [st1.current] = st.fields ++ splitRunes ' ' l st.current.data ∧
        st1.escaping = false ∧ st1.quoting = false ∧ st1.w = st.w ∧ st1.calls = st.calls := by
  intro l
  induction l with
  | nil =>
    intro st hesc hq _
    exact ⟨st, rfl, rfl, hesc, hq, rfl, rfl⟩
  | cons c cs ih =>
    intro st hesc hq hl
    obtain ⟨h1, h2, h3⟩ := hl c (by simp)
    have hcs : ∀ d ∈ cs, d ≠ '"' ∧ d ≠ '\\' ∧ d ≠ '\n' := fun d hd => hl d (by simp [hd])
    by_cases hs : c = ' '
    · subst hs
      obtain ⟨st1, hf, hsplit, h4, h5, h6, h7⟩ :=
        ih { st with fields := st.fields ++ [st.current], current := "",
                     field := wrapInt (st.field + 1) } hesc hq hcs
      refine ⟨st1, ?_, ?_, h4, h5, h6, h7⟩
      · rw [feed_cons_inl lib e st _ ' ' cs (onRune_space lib e st hesc hq)]
        exact hf
      · rw [hsplit]
        simp [splitRunes]
    · obtain ⟨st1, hf, hsplit, h4, h5, h6, h7⟩ :=
        ih { st with current := st.current ++ String.singleton c } hesc hq hcs
      refine ⟨st1, ?_, ?_, h4, h5, h6, h7⟩
      · rw [feed_cons_inl lib e st _ c cs (onRune_literal lib e st c hesc h3 h2 h1
          (fun h => absurd h hs))]
        exact hf
      · rw [hsplit]
        simp [splitRunes, hs, String.data_append, String.singleton]

/-- C18: on a non-empty line without quote, backslash and newline the field
sequence handed to the encoder is the split of the line at every space (the
result of `strings.Split` with the separator of one space): one more field
than there are spaces, no field contains a space, and joining the fields
with single spaces gives the line back. -/
theorem C18_plain_line_is_split_at_spaces {F : Type} (lib : StdLib F) (e : FieldEncoder F)
    (w : Writer)
    (line : String) (hne : line ≠ "")
    (hplain : ∀ c ∈ line.data, c ≠ '"' ∧ c ≠ '\\' ∧ c ≠ '\n') :
    ∃ r, convertLogEntries lib line.data w e = some r ∧
      r.calls = [stringsSplit line " "] ∧
      (stringsSplit line " ").length = line.data.count ' ' + 1 ∧
      (∀ piece ∈ stringsSplit line " ", ' ' ∉ piece.data) ∧
      " ".intercalate (stringsSplit line " ") = line ∧
      r.w = (e.EncodeTo lib w (stringsSplit line " ")).1 ∧
      r.err = ((e.EncodeTo lib w (stringsSplit line " ")).2).map
        (fun err => "line " ++ err ++ ": encoding error: %!v(MISSING)") := by
  have hspace : " " = String.singleton ' ' := rfl
  have hjoin : " ".intercalate (stringsSplit line " ") = line := by
    rw [hspace, stringsSplit_singleton]
    apply String.ext
    simpa using splitRunes_join ' ' line.data []
  obtain ⟨st1, hfeed, hsplit, hesc, hq, hw, hcalls⟩ :=
    feed_split lib e line.data (initState w) rfl rfl hplain
  have hsplit1 : st1.fields ++ [st1.current] = stringsSplit line " " := by
    rw [hsplit, hspace, stringsSplit_singleton]
    rfl
  have hnonempty : 0 < st1.fields.length ∨ st1.current ≠ "" := by
    by_contra hcon
    simp only [not_or, not_lt, Nat.le_zero, ne_eq, not_not] at hcon
    obtain ⟨hf, hc⟩ := hcon
    rw [List.length_eq_zero] at hf
    rw [hf, hc, List.nil_append] at hsplit1
    rw [← hsplit1] at hjoin
    exact hne hjoin.symm
  obtain ⟨r, hr, hrcalls, hrw, hrerr⟩ := runLoop_eof_emit lib e st1 1 hesc hq hnonempty
  refine ⟨r, ?_, ?_, ?_, ?_, hjoin, ?_, ?_⟩
  · unfold convertLogEntries
    have := runLoop_feed_inl lib e st1 line.data (initState w) hfeed 2 []
    rw [List.append_nil, Nat.add_comm] at this
    rw [this]
    exact hr
  · rw [hrcalls, hcalls, hsplit1]
    rfl
  · rw [hspace, stringsSplit_singleton]
    exact splitRunes_length ' ' line.data []
  · rw [hspace, stringsSplit_singleton]
    exact splitRunes_pieces ' ' line.data [] (by simp)
  · rw [hrw, hw, hsplit1]
    rfl
  · rw [hrerr, hw, hsplit1]
    rfl

/-- C18 on a line with a leading space and two consecutive spaces. -/
theorem C18_plain_line_is_split_at_spaces_witness :
    (" a  b" ≠ "" ∧ ∀ c ∈ " a  b".data, c ≠ '"' ∧ c ≠ '\\' ∧ c ≠ '\n') ∧
    ∃ r, convertLogEntries sampleGoLib " a  b".data Writer.buffer (NewFieldEncoder (ALBLogSpec sampleGoLib)) =
        some r ∧ r.calls = [["", "a", "", "b"]] :=
  ⟨⟨by decide, by decide⟩,
    (C18_plain_line_is_split_at_spaces sampleGoLib (NewFieldEncoder (ALBLogSpec sampleGoLib))
      Writer.buffer " a  b" (by decide) (by decide)).elim fun r h => ⟨r, h.1, h.2.1⟩⟩

/-- More fuel does not change the result of the loop. -/
theorem runLoop_more_fuel {F : Type} (lib : StdLib F) (e : FieldEncoder F) :
    ∀ (n : Nat) (st : LoopState) (rb : List Char) (r : Result),
      runLoop lib e n st rb = some r → ∀ k, runLoop lib e (n + k) st rb = some r := by
  intro n
  induction n with
  | zero => intro st rb r h; simp [runLoop] at h
  | succ n ih =>
    intro st rb r h k
    rw [show n + 1 + k = (n + k) + 1 by omega]
    cases rb with
    | nil =>
      simp only [runLoop] at h ⊢
      cases hc : onRune lib e { st with last := true } '\n' with
      | inr r1 => rw [hc] at h; exact h
      | inl st1 =>
        rw [hc] at h
        exact ih st1 [] r h k
    | cons c cs =>
      simp only [runLoop] at h ⊢
      cases hc : onRune lib e st c with
      | inr r1 => rw [hc] at h; exact h
      | inl st1 =>
        rw [hc] at h
        exact ih st1 cs r h k

theorem encodeRecord_single_type_field {F : Type} (lib : StdLib F) (s : String)
    (h1 : s ≠ "-") (h2 : s ≠ "") :
    (NewFieldEncoder (ALBLogSpec lib)).encodeRecord [s] = .ok [("type", .str s)] := by
  have hs : ¬ (s = "-" ∨ s = "") := fun h => h.elim h1 h2
  simp only [FieldEncoder.encodeRecord, FieldEncoder.encodeLoop]
  have h0 : 0 < (NewFieldEncoder (ALBLogSpec lib)).fields.length := by
    show 0 < (ALBLogSpec lib).length
    rw [ALBLogSpec_length]; omega
  rw [FieldEncoder.encodeField_present _ 0 s h0 hs]
  rfl

/-- On a record that needs no conversion `EncodeTo` succeeds exactly when
`json.Marshal` accepts the record and the writer accepts its encoding. -/
theorem FieldEncoder.EncodeTo_ok_iff {F : Type} (lib : StdLib F) (fe : FieldEncoder F)
    (w : Writer) (v : List String) (m : GoMap (Value F)) (hrec : fe.encodeRecord v = .ok m) :
    ((fe.EncodeTo lib w v).2 = none ↔
      ∃ enc, lib.marshal m = .ok enc ∧ (w.Write enc).2 = none) ∧
    (∀ enc, lib.marshal m = .ok enc → (w.Write enc).2 = none →
      (fe.EncodeTo lib w v).1 = ((w.Write enc).1.Write "\n").1) := by
  unfold FieldEncoder.EncodeTo
  rw [hrec]
  simp only []
  cases hm : lib.marshal m with
  | error err => simp
  | ok enc =>
    simp only []
    rcases hw : w.Write enc with ⟨w1, _ | err⟩
    · simp [hw]
    · simp [hw]

/-- C19, as stated, fails when the writer rejects the write: on `abc`
followed by a backslash the run terminates and hands over the one record
whose only field is `abc` followed by a newline, but a writer that rejects
every write makes the run fail, with nothing written. -/
theorem C19_dangling_escape_run_fails_on_write_error :
    (∀ c ∈ "abc".data, c ≠ ' ' ∧ c ≠ '"' ∧ c ≠ '\\' ∧ c ≠ '\n') ∧
    (convertLogEntries sampleGoLib "abc\\".data (Writer.failingAfter 0)
        (NewFieldEncoder (ALBLogSpec sampleGoLib))).map
          (fun r => (r.w.bytes, r.err, r.calls)) =
      some ("",
        some ("line unable to write complete output: write failed: " ++
          "encoding error: %!v(MISSING)"),
        [["abc\n"]]) :=
  ⟨by decide, rfl⟩

/-- C19, amended: `convertLogEntries` returns on every finite input, within
two iterations more than there are runes and with the same result for any
larger bound; on a string `u` free of space, quote, backslash and newline
followed by one backslash, the end of the stream is escaped into the buffer
and a second end-of-stream step hands over exactly one record, whose only
field is `u` followed by a newline, and the run ends as `EncodeTo` ends on
that record; with the schema of the program the run succeeds exactly when
`json.Marshal` accepts that record and the writer accepts the write of its
encoding, and it then leaves the writer after that write and the write of
the newline. -/
theorem C19_termination_with_dangling_escape {F : Type} (lib : StdLib F)
    (e : FieldEncoder F) :
    (∀ (w : Writer) (r : List Char), ∃ res, convertLogEntries lib r w e = some res ∧
      ∀ fuel, r.length + 2 ≤ fuel → runLoop lib e fuel (initState w) r = some res) ∧
    (∀ (w : Writer) (u : String), (∀ c ∈ u.data, c ≠ ' ' ∧ c ≠ '"' ∧ c ≠ '\\' ∧ c ≠ '\n') →
      ∃ res, convertLogEntries lib (u ++ "\\").data w e = some res ∧
        res.calls = [[u ++ "\n"]] ∧
        res.w = (e.EncodeTo lib w [u ++ "\n"]).1 ∧
        res.err = ((e.EncodeTo lib w [u ++ "\n"]).2).map
          (fun err => "line " ++ err ++ ": encoding error: %!v(MISSING)")) ∧
    (∀ (w : Writer) (u : String), (∀ c ∈ u.data, c ≠ ' ' ∧ c ≠ '"' ∧ c ≠ '\\' ∧ c ≠ '\n') →
      ∃ res, convertLogEntries lib (u ++ "\\").data w (NewFieldEncoder (ALBLogSpec lib)) =
          some res ∧
        res.calls = [[u ++ "\n"]] ∧
        (res.err = none ↔
          ∃ enc, lib.marshal [("type", .str (u ++ "\n"))] = .ok enc ∧
            (w.Write enc).2 = none) ∧
        (∀ enc, lib.marshal [("type", .str (u ++ "\n"))] = .ok enc →
          (w.Write enc).2 = none → res.w = ((w.Write enc).1.Write "\n").1)) := by
  have hrun : ∀ (e1 : FieldEncoder F) (w : Writer) (u : String),
      (∀ c ∈ u.data, c ≠ ' ' ∧ c ≠ '"' ∧ c ≠ '\\' ∧ c ≠ '\n') →
      ∃ res, convertLogEntries lib (u ++ "\\").data w e1 = some res ∧
        res.calls = [[u ++ "\n"]] ∧
        res.w = (e1.EncodeTo lib w [u ++ "\n"]).1 ∧
        res.err = ((e1.EncodeTo lib w [u ++ "\n"]).2).map
          (fun err => "line " ++ err ++ ": encoding error: %!v(MISSING)") := by
    intro e1 w u hu
    have hin : (u ++ "\\").data = (u.data ++ ['\\']) ++ [] := by
      simp [String.data_append]
    have hfeed : feed lib e1 (initState w) (u.data ++ ['\\']) =
        .inl { initState w with current := u, escaping := true } := by
      rw [feed_append, feed_literal lib e1 u.data _ rfl (fun d hd => by
        obtain ⟨h0, h1, h2, h3⟩ := hu d hd
        exact ⟨h3, h2, h1, fun h => absurd h h0⟩)]
      simp only []
      rw [feed_cons_inl lib e1 _ { initState w with current := u, escaping := true } '\\' _
        (by simp [onRune, initState, String_empty_append_mk])]
      rfl
    have hne : u ++ String.singleton '\n' ≠ "" := by
      intro h
      have := congrArg String.data h
      simp [String.data_append, String.singleton] at this
    obtain ⟨res, hres, hcalls, hw, herr⟩ := runLoop_eof_emit lib e1
      { initState w with current := u ++ String.singleton '\n', last := true } 0 rfl rfl
      (Or.inr hne)
    refine ⟨res, ?_, by simpa [initState] using hcalls, by simpa [initState] using hw,
      by simpa [initState] using herr⟩
    unfold convertLogEntries
    rw [hin, List.length_append, List.length_nil, Nat.add_zero, Nat.add_comm,
      runLoop_feed_inl lib e1 _ _ _ hfeed 2 []]
    simp only [runLoop]
    rw [onRune_escaped lib e1 { initState w with current := u, escaping := true, last := true }
      '\n' rfl]
    simp only [runLoop] at hres
    exact hres
  refine ⟨?_, hrun e, ?_⟩
  · intro w r
    obtain ⟨res, hres⟩ := convertLogEntries_returns lib e w r
    refine ⟨res, hres, ?_⟩
    intro fuel hfuel
    obtain ⟨k, rfl⟩ := Nat.exists_eq_add_of_le hfuel
    exact runLoop_more_fuel lib e _ _ _ _ hres k
  · intro w u hu
    obtain ⟨res, hres, hcalls, hw, herr⟩ := hrun (NewFieldEncoder (ALBLogSpec lib)) w u hu
    have h1 : u ++ "\n" ≠ "-" := by
      intro h
      have := congrArg String.data h
      simp only [String.data_append] at this
      have hlast := congrArg List.getLast? this
      simp at hlast
    have h2 : u ++ "\n" ≠ "" := by
      intro h
      have := congrArg String.data h
      simp [String.data_append] at this
    obtain ⟨hiff, hwr⟩ := FieldEncoder.EncodeTo_ok_iff lib (NewFieldEncoder (ALBLogSpec lib)) w
      [u ++ "\n"] _ (encodeRecord_single_type_field lib (u ++ "\n") h1 h2)
    refine ⟨res, hres, hcalls, ?_, ?_⟩
    · rw [herr, Option.map_eq_none']
      exact hiff
    · intro enc hm hwok
      rw [hw]
      exact hwr enc hm hwok

/-- The amended C19 on the input `abc` followed by a backslash, written to
an in-memory buffer. -/
theorem C19_termination_with_dangling_escape_witness :
    (∀ c ∈ "abc".data, c ≠ ' ' ∧ c ≠ '"' ∧ c ≠ '\\' ∧ c ≠ '\n') ∧
    ∃ res, convertLogEntries sampleGoLib "abc\\".data Writer.buffer
        (NewFieldEncoder (ALBLogSpec sampleGoLib)) = some res ∧
      res.calls = [["abc\n"]] ∧ res.err = none ∧
      res.w.bytes = "\x7btype\x7d\n" :=
  ⟨by decide,
    ((C19_termination_with_dangling_escape sampleGoLib
      (NewFieldEncoder (ALBLogSpec sampleGoLib))).2.2 Writer.buffer "abc" (by decide)).elim
      fun res h => ⟨res, h.1, h.2.1, h.2.2.1.mpr ⟨"\x7btype\x7d", rfl, rfl⟩,
        by rw [h.2.2.2 "\x7btype\x7d" rfl rfl]; rfl⟩⟩

end Alb2json
